import Mathlib

/-!
MRF overview building: reduction kernels, tile-rectangle mapping, page counts.

A shallow embedding of `mrf_overview.cpp` and of the helpers of `marfa.h`
(page counts, byte order, index offsets).

* Samples are integers (`Int`).  A pixel kind `T` is described by its bit width
  and signedness; a store into a `T` object is the explicit modular conversion
  `PixelKind.cast`, and every addition done in an accumulator is wrapped to the
  accumulator width (`addW`).
* The C++ `/` on integers truncates towards zero: it is `Int.tdiv`.
* A buffer is a `List Int`; pointers into it (`obuff`, `evenline`, `oddline`)
  are indices.  A read or write outside the buffer makes the kernel return
  `none`.
* Loop counters and sizes are natural numbers: a `for (i = 0; i < n; i++)` loop
  is a recursion on the number of remaining iterations.
* What `PatchOverview` calls in GDAL (`RasterIO`, `FlushCache`, `FillBlock`,
  the queries on bands) is a parameter of the embedding, collected in
  `Dataset`; the calls made are recorded in a trace.
-/

namespace MRF

/-! ## Machine integers -/

/-- Two's-complement value of `v` in a signed integer of `w` bits. -/
def wrapSigned (w : Nat) (v : Int) : Int :=
  (v + 2 ^ (w - 1)) % 2 ^ w - 2 ^ (w - 1)

/-- Value of `v` in an unsigned integer of `w` bits. -/
def wrapUnsigned (w : Nat) (v : Int) : Int :=
  v % 2 ^ w

/-- Addition in a signed accumulator of `w` bits. -/
def addW (w : Nat) (x y : Int) : Int :=
  wrapSigned w (x + y)

/-- The integer pixel kinds of the dispatch in `PatchOverview`:
`GDT_Byte`, `GDT_UInt16`, `GDT_Int16`, `GDT_UInt32`, `GDT_Int32`. -/
inductive PixelKind where
  | GByte
  | GUInt16
  | GInt16
  | GUInt32
  | GInt32
  deriving DecidableEq

namespace PixelKind

/-- Width in bits of a sample of the kind. -/
def bits : PixelKind → Nat
  | GByte => 8
  | GUInt16 => 16
  | GInt16 => 16
  | GUInt32 => 32
  | GInt32 => 32

/-- Whether the kind is a signed type. -/
def isSigned : PixelKind → Bool
  | GByte => false
  | GUInt16 => false
  | GInt16 => true
  | GUInt32 => false
  | GInt32 => true

/-- Smallest value of the kind. -/
def minVal (k : PixelKind) : Int :=
  if k.isSigned then -(2 ^ (k.bits - 1)) else 0

/-- Largest value of the kind. -/
def maxVal (k : PixelKind) : Int :=
  if k.isSigned then 2 ^ (k.bits - 1) - 1 else 2 ^ k.bits - 1

/-- The value `v` is a value of the kind. -/
def InRange (k : PixelKind) (v : Int) : Prop :=
  k.minVal ≤ v ∧ v ≤ k.maxVal

instance (k : PixelKind) (v : Int) : Decidable (k.InRange v) := by
  unfold InRange
  exact inferInstance

/-- Conversion of an accumulator value to the kind `T`, as done by the store
`*obuff++ = ...` and by `T(...)`. -/
def cast (k : PixelKind) (v : Int) : Int :=
  if k.isSigned then wrapSigned k.bits v else wrapUnsigned k.bits v

/-- Width of the accumulator of the fast path: the generic template computes
in `int` (the operands are promoted), the `GInt32` and `GUInt32`
specializations start the sum with `GIntBig(2)`. -/
def accBits : PixelKind → Nat
  | GByte => 32
  | GUInt16 => 32
  | GInt16 => 32
  | GUInt32 => 64
  | GInt32 => 64

end PixelKind

/-! ## Reduction kernels -/

/-- One output sample of the fast path:
`(2 + evenline[0] + evenline[1] + oddline[0] + oddline[1]) / 4`, stored into a
`T`. -/
def avg4 (k : PixelKind) (a b c d : Int) : Int :=
  k.cast (Int.tdiv (addW k.accBits (addW k.accBits (addW k.accBits (addW k.accBits 2 a) b) c) d) 4)

/-- The `use(valp)` step of the NoData-aware kernel on the pair
`(acc, count)`: `if (*valp != ndv) { acc += *valp; count++; }`, with `acc` a
`GIntBig` and `count` an `int`. -/
def use (ndv : Int) (st : Int × Int) (v : Int) : Int × Int :=
  if v ≠ ndv then (addW 64 st.1 v, addW 32 st.2 1) else st

/-- One output sample of the NoData-aware kernel:
`T((count != 0) ? ((acc + count/2) / count) : ndv)` after the four `use`
steps. -/
def avgNdv (k : PixelKind) (ndv : Int) (a b c d : Int) : Int :=
  let st := use ndv (use ndv (use ndv (use ndv (0, 0) a) b) c) d
  k.cast (if st.2 ≠ 0 then Int.tdiv (addW 64 st.1 (Int.tdiv st.2 2)) st.2 else ndv)

/-- The pointers of a kernel and the buffer they point into. -/
structure Cursor where
  buff : List Int
  obuff : Nat
  evenline : Nat
  oddline : Nat

/-- The inner loop `for (col = 0; col < xsz; col++)`, `n` iterations left:
reads `evenline[0]`, `evenline[1]`, `oddline[0]`, `oddline[1]`, writes the
sample `px` makes of them through `obuff`, and advances the three pointers. -/
def colLoop (px : Int → Int → Int → Int → Int) : Nat → Cursor → Option Cursor
  | 0, s => some s
  | n + 1, s => do
    let a ← s.buff[s.evenline]?
    let b ← s.buff[s.evenline + 1]?
    let c ← s.buff[s.oddline]?
    let d ← s.buff[s.oddline + 1]?
    if s.obuff < s.buff.length then
      colLoop px n
        { buff := s.buff.set s.obuff (px a b c d)
          obuff := s.obuff + 1
          evenline := s.evenline + 2
          oddline := s.oddline + 2 }
    else none

/-- The outer loop `for (line = 0; line < ysz; line++)`, `n` iterations left:
sets `oddline = evenline + xsz*2`, runs the inner loop, then skips the odd
line with `evenline += xsz*2`. -/
def lineLoop (px : Int → Int → Int → Int → Int) (xsz : Nat) : Nat → Cursor → Option Cursor
  | 0, s => some s
  | n + 1, s => do
    let s1 ← colLoop px xsz { s with oddline := s.evenline + xsz * 2 }
    lineLoop px xsz n { s1 with evenline := s1.evenline + xsz * 2 }

/-- The loop nest shared by every `AverageByFour` template, started with
`obuff = evenline = buff`; `px` is the per-sample arithmetic. -/
def averageLoops (px : Int → Int → Int → Int → Int) (buff : List Int) (xsz ysz : Nat) :
    Option (List Int) :=
  (lineLoop px xsz ysz { buff := buff, obuff := 0, evenline := 0, oddline := 0 }).map Cursor.buff

/-- Fast path `AverageByFour(T *buff, int xsz, int ysz)` for the integer kind
`k` (generic template and its `GInt32`, `GUInt32` specializations). -/
def AverageByFour (k : PixelKind) (buff : List Int) (xsz ysz : Nat) : Option (List Int) :=
  averageLoops (avg4 k) buff xsz ysz

/-- NoData-aware `AverageByFour(T *buff, int xsz, int ysz, T ndv)` for the
integer kind `k`. -/
def AverageByFourNdv (k : PixelKind) (buff : List Int) (xsz ysz : Nat) (ndv : Int) :
    Option (List Int) :=
  averageLoops (avgNdv k ndv) buff xsz ysz

/-! ## What the loop nest computes (specification side) -/

/-- Index of `evenline[0]` when the loops produce output sample `j`: row
`2*line` of a buffer of `2*xsz` samples per row, column `2*col`, with
`line = j / xsz` and `col = j % xsz`. -/
def srcIndex (xsz j : Nat) : Nat :=
  4 * (j / xsz * xsz) + 2 * (j % xsz)

/-- The sample `px` makes of the 2x2 group of output sample `j`, read from the
buffer `b0`. -/
def groupOut (px : Int → Int → Int → Int → Int) (b0 : List Int) (xsz j : Nat) : Int :=
  px (b0.getD (srcIndex xsz j) 0) (b0.getD (srcIndex xsz j + 1) 0)
    (b0.getD (srcIndex xsz j + 2 * xsz) 0) (b0.getD (srcIndex xsz j + 2 * xsz + 1) 0)

/-- Loop invariant of the kernels after the first `t` output samples, relative
to the buffer `b0` the kernel was started on. -/
structure KInv (px : Int → Int → Int → Int → Int) (b0 : List Int) (xsz : Nat)
    (s : Cursor) (t e : Nat) : Prop where
  hobuff : s.obuff = t
  heven : s.evenline = e
  hlen : s.buff.length = b0.length
  hrest : ∀ i, t ≤ i → s.buff[i]? = b0[i]?
  hdone : ∀ j, j < t → s.buff[j]? = some (groupOut px b0 xsz j)

/-- The samples of a 2x2 group that differ from the sentinel. -/
def validSamples (ndv a b c d : Int) : List Int :=
  [a, b, c, d].filter (fun v => v ≠ ndv)

/-- The NoData-aware output sample in the words of the specification: with
`count` the number of the four samples not equal to `ndv` and `sum_of_valid`
their sum, `ndv` when `count = 0` and `(sum_of_valid + count/2) / count`
otherwise, `/` being the truncating integer division. -/
def ndvAverage (ndv a b c d : Int) : Int :=
  let count : Int := (validSamples ndv a b c d).length
  if count = 0 then ndv
  else Int.tdiv ((validSamples ndv a b c d).sum + Int.tdiv count 2) count

/-- Sample at row `row`, column `col` of a buffer read as rows of `2*xsz`
samples. -/
def sampleAt (buff : List Int) (xsz row col : Nat) : Int :=
  buff.getD (row * (2 * xsz) + col) 0

/-! ## The reduction dispatch of `PatchOverview` -/

/-- The loop of `MatchCount`, `n` iterations left, at index `i`, with `ncount`
matches so far (`ncount` never exceeds the `int` bound `sz` of the loop). -/
def matchLoop (buff : List Int) (val : Int) : Nat → Nat → Nat → Option Nat
  | 0, _, ncount => some ncount
  | n + 1, i, ncount => do
    let v ← buff[i]?
    matchLoop buff val n (i + 1) (if v = val then ncount + 1 else ncount)

/-- The function `MatchCount(buff, sz, val)`: counts the values among the first `sz` of
the buffer that match `val`. -/
def MatchCount (buff : List Int) (sz : Nat) (val : Int) : Option Nat :=
  matchLoop buff val sz 0 0

/-- The `average(T)` macro of `PatchOverview` for the integer kind `k`, on the
working buffer: `count` starts at `0`; when the band has a NoData value the
matches of `T(ndv)` are counted, a buffer full of it is handed to
`bdst->FillBlock`, and a buffer with some of it to the NoData-aware kernel;
`if (0 == count)` then runs the fast path.  `fill` stands for
`bdst->FillBlock(buffer)`, whose body is not in these sources; `ndv` is the
sentinel already converted to the kind. -/
def average (k : PixelKind) (fill : List Int → List Int) (hasNoData : Bool) (ndv : Int)
    (buffer : List Int) (tsz_x tsz_y : Nat) : Option (List Int) := do
  let (count, buffer1) ←
    if hasNoData then do
      let count ← MatchCount buffer (4 * tsz_x * tsz_y) ndv
      if 4 * tsz_x * tsz_y = count then pure (count, fill buffer)
      else if 0 ≠ count then do
        let b ← AverageByFourNdv k buffer tsz_x tsz_y ndv
        pure (count, b)
      else pure (count, buffer)
    else pure (0, buffer)
  if 0 = count then AverageByFour k buffer1 tsz_x tsz_y else pure buffer1

/-- Working buffer of Scenario B: 8 rows of 8 samples holding 2x2 parent tiles
of 4x4 samples; the parent tile number `q` (`0` top left, `1` top right, `2`
bottom left, `3` bottom right) is entirely `ndv`, the three others are
uniformly `50`. -/
def scenarioB (ndv : Int) (q : Nat) : List Int :=
  (List.range 64).map (fun i => if 2 * (i / 32) + i % 8 / 4 = q then ndv else 50)

/-! ## Tile rectangles and page counts

`int` values (tile coordinates and extents, raster and page sizes) are
integers; `/` is the truncating division and `x & 1` is the low bit `x % 2`
of the two's-complement value.  Sums and differences of these quantities are
taken exactly: in C++ they are `int` operations whose overflow is undefined.
The one product stored into a `GInt32` field is wrapped (`mul32`). -/

/-- The child rectangle computed at the head of `PatchOverview`. -/
structure OutRect where
  BlockXOut : Int
  BlockYOut : Int
  WidthOut : Int
  HeightOut : Int
  deriving DecidableEq

/-- The parent-to-child rectangle mapping of `PatchOverview`:
`BlockXOut = BlockX/2; Width += BlockX & 1; BlockYOut = BlockY/2;
Height += BlockY & 1; WidthOut = Width/2 + (Width & 1);
HeightOut = Height/2 + (Height & 1)`. -/
def PatchOverviewRect (BlockX BlockY Width Height : Int) : OutRect :=
  let BlockXOut := Int.tdiv BlockX 2
  let Width := Width + BlockX % 2
  let BlockYOut := Int.tdiv BlockY 2
  let Height := Height + BlockY % 2
  let WidthOut := Int.tdiv Width 2 + Width % 2
  let HeightOut := Int.tdiv Height 2 + Height % 2
  { BlockXOut := BlockXOut, BlockYOut := BlockYOut, WidthOut := WidthOut, HeightOut := HeightOut }

/-- The child tiles `(dst_offset_x, dst_offset_y)` visited by the tile loop of
`PatchOverview`: `for (y = 0; y < HeightOut; y++)`,
`for (x = 0; x < WidthOut; x++)`, with `dst_offset_y = BlockYOut + y` and
`dst_offset_x = BlockXOut + x`. -/
def tileLoop (r : OutRect) : List (Int × Int) :=
  (List.range r.HeightOut.toNat).flatMap fun (y : Nat) =>
    (List.range r.WidthOut.toNat).map fun (x : Nat) =>
      (r.BlockXOut + Int.ofNat x, r.BlockYOut + Int.ofNat y)

/-- The function `pcount(n, sz)`: number of pages of size `sz` needed to hold
`n` elements, `1 + (n-1) / sz`. -/
def pcount (n sz : Int) : Int :=
  1 + Int.tdiv (n - 1) sz

/-- Product of two `GInt32` values, in 32 bits. -/
def mul32 (x y : Int) : Int :=
  wrapSigned 32 (x * y)

/-- The structure `ILSize`: size of an image, also a tile or pixel location;
five `GInt32` fields, each `-1` by default. -/
structure ILSize where
  x : Int := -1
  y : Int := -1
  z : Int := -1
  c : Int := -1
  l : Int := -1
  deriving DecidableEq

/-- The function `pcount(size, psz)` on `ILSize`: the per-axis page counts,
with the total number of pages `pcnt.x*pcnt.y*pcnt.z*pcnt.c` held in the `l`
field. -/
def ILSize.pcount (size psz : ILSize) : ILSize :=
  let pcnt : ILSize :=
    { x := MRF.pcount size.x psz.x
      y := MRF.pcount size.y psz.y
      z := MRF.pcount size.z psz.z
      c := MRF.pcount size.c psz.c }
  { pcnt with l := mul32 (mul32 (mul32 pcnt.x pcnt.y) pcnt.z) pcnt.c }

/-! ## Accumulators without wrap-around -/

/-- The value `v` is representable in a signed accumulator of `w` bits. -/
def InAcc (w : Nat) (v : Int) : Prop :=
  -(2 ^ (w - 1)) ≤ v ∧ v ≤ 2 ^ (w - 1) - 1

/-- The `use(valp)` step in exact arithmetic: the sum and the count the
specification speaks of. -/
def useExact (ndv : Int) (st : Int × Int) (v : Int) : Int × Int :=
  if v ≠ ndv then (st.1 + v, st.2 + 1) else st

/-! ## Byte order -/

/-- The function `swab16`: `(val << 8) | (val >> 8)` on an `unsigned short`,
computed in `int` and returned as an `unsigned short`. -/
def swab16 (val : Nat) : Nat :=
  ((val <<< 8) ||| (val >>> 8)) % 2 ^ 16

/-- The function `swab32`:
`(unsigned int)(swab16((unsigned short) val)) << 16 | swab16((unsigned short)(val >> 16))`. -/
def swab32 (val : Nat) : Nat :=
  ((swab16 (val % 2 ^ 16) <<< 16) % 2 ^ 32) ||| swab16 ((val >>> 16) % 2 ^ 16)

/-- The function `swab64`:
`(unsigned long long)(swab32((unsigned int) val)) << 32 | swab32((unsigned int)(val >> 32))`. -/
def swab64 (val : Nat) : Nat :=
  ((swab32 (val % 2 ^ 32) <<< 32) % 2 ^ 64) ||| swab32 ((val >>> 32) % 2 ^ 32)

/-- The function `net16`: the identity when `WORDS_BIGENDIAN` is defined, `swab16`
otherwise. -/
def net16 (WORDS_BIGENDIAN : Bool) (x : Nat) : Nat :=
  if WORDS_BIGENDIAN then x else swab16 x

/-- The function `net32`: the identity when `WORDS_BIGENDIAN` is defined, `swab32`
otherwise. -/
def net32 (WORDS_BIGENDIAN : Bool) (x : Nat) : Nat :=
  if WORDS_BIGENDIAN then x else swab32 x

/-- The function `net64`: the identity when `WORDS_BIGENDIAN` is defined, `swab64`
otherwise. -/
def net64 (WORDS_BIGENDIAN : Bool) (x : Nat) : Nat :=
  if WORDS_BIGENDIAN then x else swab64 x

/-- Byte `i` of the value `x`, byte `0` being the least significant. -/
def byteAt (x i : Nat) : Nat :=
  x / 256 ^ i % 256

/-- The bytes of a `w`-byte unsigned object of value `v` in the order of their
addresses: least significant byte first on a little-endian host, most
significant byte first on a big-endian host. -/
def memBytes (bigEndianHost : Bool) (w v : Nat) : List Nat :=
  if bigEndianHost then ((List.range w).map (byteAt v)).reverse else (List.range w).map (byteAt v)

/-- The big-endian representation of the `w`-byte value `x`: its bytes, most
significant first. -/
def bigEndianBytes (w x : Nat) : List Nat :=
  ((List.range w).map (byteAt x)).reverse

/-! ## Index offsets -/

/-- The fields of `ILImage` that locate index records: the offset of the
level's index and its page counts. -/
structure ILImage where
  idxoffset : Int
  pagecount : ILSize

/-- Modelled from the spec: the body of `IdxOffset(pos, img)` is not in these
sources (`marfa.h` only declares it).  The linear slot nests the axes with the
band slowest-varying, then z, then y, then x fastest, and the offset is the
slot times the 16 bytes of an index record, from the level's index offset. -/
def IdxOffset (pos : ILSize) (img : ILImage) : Int :=
  img.idxoffset + 16 *
    (pos.x + img.pagecount.x * (pos.y + img.pagecount.y * (pos.z + img.pagecount.z * pos.c)))

/-- The grid coordinate `pos` is within the page counts of `img`. -/
def InGrid (pos : ILSize) (img : ILImage) : Prop :=
  (0 ≤ pos.x ∧ pos.x < img.pagecount.x) ∧ (0 ≤ pos.y ∧ pos.y < img.pagecount.y) ∧
    (0 ≤ pos.z ∧ pos.z < img.pagecount.z) ∧ (0 ≤ pos.c ∧ pos.c < img.pagecount.c)

/-- The index slot of a coordinate: `IdxOffset(pos, img) / 16`, relative to
the level's index offset. -/
def idxSlot (pos : ILSize) (img : ILImage) : Int :=
  (IdxOffset pos img - img.idxoffset) / 16

/-! ## Extents of the tile reads and writes -/

/-- Input clipping of `PatchOverview` on one axis: `sz = 2*tsz`, and
`if (size < (src_offset + 2) * tsz) { sz = size - src_offset * tsz; adjusted = true; }`.
Returns `(sz, adjusted)`. -/
def readExtent (size src_offset tsz : Int) : Int × Bool :=
  if size < (src_offset + 2) * tsz then (size - src_offset * tsz, true) else (2 * tsz, false)

/-- Output clipping of `PatchOverview` on one axis: `sz = tsz`, and
`if (size < dst_offset * sz + sz) sz = size - dst_offset * sz`. -/
def writeExtent (size dst_offset tsz : Int) : Int :=
  if size < dst_offset * tsz + tsz then size - dst_offset * tsz else tsz

/-- Modelled from the spec: the body of `FillBlock` is not in these sources.
It fills a tile, the `n` samples at the head of the buffer it is given, with
the sentinel. -/
def FillBlock (ndv : Int) (n : Nat) (buffer : List Int) : List Int :=
  List.replicate (min n buffer.length) ndv ++ buffer.drop n

/-! ## The overview engine `PatchOverview`

The dataset and its bands are GDAL objects; what `PatchOverview` asks of them
is collected in `Dataset`, over an arbitrary tile store `σ`.  Every
`RasterIO` and `FlushCache` call is recorded, in order, in a trace. -/

/-- The error class `CPLErr` of GDAL, returned by `RasterIO` and by
`PatchOverview`. -/
inductive CPLErr where
  | CE_None
  | CE_Debug
  | CE_Warning
  | CE_Failure
  | CE_Fatal
  deriving DecidableEq

/-- The pixel data types `GDALDataType` of GDAL. -/
inductive GDALDataType where
  | GDT_Unknown
  | GDT_Byte
  | GDT_UInt16
  | GDT_Int16
  | GDT_UInt32
  | GDT_Int32
  | GDT_Float32
  | GDT_Float64
  | GDT_CInt16
  | GDT_CInt32
  | GDT_CFloat32
  | GDT_CFloat64
  deriving DecidableEq

/-- The bands `PatchOverview` works on: `GetRasterBand(band)` and
`GetRasterBand(band)->GetOverview(n)`, `band` counted from 1. -/
inductive BandRef where
  | base (band : Nat)
  | overview (band : Nat) (n : Nat)
  deriving DecidableEq

/-- One call recorded in the trace: a `RasterIO(GF_Read, ...)` or a
`RasterIO(GF_Write, ...)` on a band with its window (offset and size; a write
also records the buffer handed over), or a `FlushCache()` on a band. -/
inductive Access where
  | read (b : BandRef) (xoff yoff xsize ysize : Int)
  | write (b : BandRef) (xoff yoff xsize ysize : Int) (buffer : List Int)
  | flush (b : BandRef)
  deriving DecidableEq

/-- The band an access is made on. -/
def Access.band : Access → BandRef
  | Access.read b _ _ _ _ => b
  | Access.write b _ _ _ _ _ => b
  | Access.flush b => b

/-- Whether the access is a tile write. -/
def Access.isWrite : Access → Bool
  | Access.write _ _ _ _ _ _ => true
  | _ => false

/-- Whether the access is a tile read. -/
def Access.isRead : Access → Bool
  | Access.read _ _ _ _ _ => true
  | _ => false

/-- What `PatchOverview` uses of the dataset, over the tile store `σ`:
`GetOverviewCount()` of the first band, `GetRasterCount()`, `GetBlockSize`,
`GetRasterDataType()`, `GetXSize()`, `GetYSize()` and `GetNoDataValue` of a
band (the value already converted to the pixel type), `blockSizeBytes()` and
`FillBlock` (at a byte offset into the buffer), `RasterIO` for reading (window,
line space in samples, buffer; gives the error class, the store and the
buffer) and for writing, `FlushCache()`, the `average(float)` and
`average(double)` cases of the dispatch, which are not embedded, and the
contents of the buffer `CPLMalloc` returns for a call at a source level. -/
structure Dataset (σ : Type) where
  overviewCount : Nat
  rasterCount : Nat
  tsz_x : Nat
  tsz_y : Nat
  eDataType : GDALDataType
  xSize : BandRef → Int
  ySize : BandRef → Int
  hasNoData : BandRef → Bool
  noDataValue : BandRef → Int
  blockSizeBytes : BandRef → Nat
  fillBlock : BandRef → Nat → List Int → List Int
  rasterRead : σ → BandRef → Int → Int → Int → Int → Nat → List Int → CPLErr × σ × List Int
  rasterWrite : σ → BandRef → Int → Int → Int → Int → Nat → List Int → CPLErr × σ
  flushCache : σ → BandRef → σ
  averageFloating : GDALDataType → BandRef → BandRef → List Int → List Int
  malloc : Nat → List Int

/-- The store, the working buffer and the trace while `PatchOverview` runs. -/
structure PatchState (σ : Type) where
  store : σ
  buffer : List Int
  trace : List Access

/-- What a call of `PatchOverview` leaves: the `CPLErr` it returns, the store
and the trace of its accesses. -/
structure PatchResult (σ : Type) where
  err : CPLErr
  store : σ
  trace : List Access

/-- The source band of a level: `GetRasterBand(band)` when `srcLevel == 0`,
`GetRasterBand(band)->GetOverview(srcLevel-1)` otherwise. -/
def srcBand (srcLevel band : Nat) : BandRef :=
  if srcLevel = 0 then BandRef.base band else BandRef.overview band (srcLevel - 1)

/-- The destination band of a level: `GetRasterBand(band)->GetOverview(srcLevel)`. -/
def dstBand (srcLevel band : Nat) : BandRef :=
  BandRef.overview band srcLevel

/-- The dispatch `switch(eDataType)` of `PatchOverview`: `average(T)` for the
seven handled kinds, `default: break;` for every other type. -/
def averageSwitch {σ : Type} (ds : Dataset σ) (bsrc bdst : BandRef) (buffer : List Int) :
    Option (List Int) :=
  match ds.eDataType with
  | GDALDataType.GDT_Byte =>
    average PixelKind.GByte (ds.fillBlock bdst 0) (ds.hasNoData bsrc) (ds.noDataValue bsrc)
      buffer ds.tsz_x ds.tsz_y
  | GDALDataType.GDT_UInt16 =>
    average PixelKind.GUInt16 (ds.fillBlock bdst 0) (ds.hasNoData bsrc) (ds.noDataValue bsrc)
      buffer ds.tsz_x ds.tsz_y
  | GDALDataType.GDT_Int16 =>
    average PixelKind.GInt16 (ds.fillBlock bdst 0) (ds.hasNoData bsrc) (ds.noDataValue bsrc)
      buffer ds.tsz_x ds.tsz_y
  | GDALDataType.GDT_UInt32 =>
    average PixelKind.GUInt32 (ds.fillBlock bdst 0) (ds.hasNoData bsrc) (ds.noDataValue bsrc)
      buffer ds.tsz_x ds.tsz_y
  | GDALDataType.GDT_Int32 =>
    average PixelKind.GInt32 (ds.fillBlock bdst 0) (ds.hasNoData bsrc) (ds.noDataValue bsrc)
      buffer ds.tsz_x ds.tsz_y
  | GDALDataType.GDT_Float32 => some (ds.averageFloating GDALDataType.GDT_Float32 bsrc bdst buffer)
  | GDALDataType.GDT_Float64 => some (ds.averageFloating GDALDataType.GDT_Float64 bsrc bdst buffer)
  | _ => some buffer

/-- The body of the band loop of `PatchOverview` for the band of index `band`
(counted from zero) and the child tile `(dst_offset_x, dst_offset_y)`: clip
the read to the source raster and, when clipped, fill the four blocks of the
buffer; read the 2x2 parent tiles; dispatch on the data type; clip the write
to the destination raster and write.  The `CPLErr` of the two `RasterIO`
calls is not looked at. -/
def patchBand {σ : Type} (ds : Dataset σ) (srcLevel : Nat) (dst_offset_x dst_offset_y : Int)
    (st : PatchState σ) (band : Nat) : Option (PatchState σ) :=
  let src_offset_x := dst_offset_x * 2
  let src_offset_y := dst_offset_y * 2
  let bsrc := srcBand srcLevel (band + 1)
  let bdst := dstBand srcLevel (band + 1)
  let cx := readExtent (ds.xSize bsrc) src_offset_x ds.tsz_x
  let cy := readExtent (ds.ySize bsrc) src_offset_y ds.tsz_y
  let bsb := ds.blockSizeBytes bsrc
  let buffer1 :=
    if cx.2 || cy.2 then
      ds.fillBlock bsrc (3 * bsb) (ds.fillBlock bsrc (2 * bsb)
        (ds.fillBlock bsrc bsb (ds.fillBlock bsrc 0 st.buffer)))
    else st.buffer
  let rd := ds.rasterRead st.store bsrc (src_offset_x * ds.tsz_x) (src_offset_y * ds.tsz_y)
    cx.1 cy.1 (2 * ds.tsz_x) buffer1
  match averageSwitch ds bsrc bdst rd.2.2 with
  | none => none
  | some buffer2 =>
    let sz_x := writeExtent (ds.xSize bdst) dst_offset_x ds.tsz_x
    let sz_y := writeExtent (ds.ySize bdst) dst_offset_y ds.tsz_y
    let wr := ds.rasterWrite rd.2.1 bdst (dst_offset_x * ds.tsz_x) (dst_offset_y * ds.tsz_y)
      sz_x sz_y ds.tsz_x buffer2
    some
      { store := wr.2
        buffer := buffer2
        trace := st.trace ++
          [Access.read bsrc (src_offset_x * ds.tsz_x) (src_offset_y * ds.tsz_y) cx.1 cy.1,
            Access.write bdst (dst_offset_x * ds.tsz_x) (dst_offset_y * ds.tsz_y) sz_x sz_y
              buffer2] }

/-- The call `b->FlushCache()` on one band, recorded in the trace. -/
def flushBand {σ : Type} (ds : Dataset σ) (b : BandRef) (st : PatchState σ) : PatchState σ :=
  { st with store := ds.flushCache st.store b, trace := st.trace ++ [Access.flush b] }

/-- The body of the loop `for (x = 0; x < WidthOut; x++)`: the band loop on the
child tile `(BlockXOut + x, dst_offset_y)`, then `src_b[band]->FlushCache()`
for every band. -/
def patchTile {σ : Type} (ds : Dataset σ) (srcLevel : Nat) (BlockXOut dst_offset_y : Int)
    (st : PatchState σ) (x : Nat) : Option (PatchState σ) :=
  ((List.range ds.rasterCount).foldlM
      (patchBand ds srcLevel (BlockXOut + Int.ofNat x) dst_offset_y) st).map
    fun st1 => (List.range ds.rasterCount).foldl
      (fun s band => flushBand ds (srcBand srcLevel (band + 1)) s) st1

/-- The body of the loop `for (y = 0; y < HeightOut; y++)`: the loop over `x`
on the row `BlockYOut + y` of child tiles. -/
def patchRow {σ : Type} (ds : Dataset σ) (srcLevel : Nat) (r : OutRect) (st : PatchState σ)
    (y : Nat) : Option (PatchState σ) :=
  (List.range r.WidthOut.toNat).foldlM
    (patchTile ds srcLevel r.BlockXOut (r.BlockYOut + Int.ofNat y)) st

/-- The work of `PatchOverview` on one level, from the allocation of the
buffer to `dst_b[band]->FlushCache()` for every band. -/
def patchLevel {σ : Type} (ds : Dataset σ) (r : OutRect) (srcLevel : Nat) (store : σ) :
    Option (PatchState σ) :=
  ((List.range r.HeightOut.toNat).foldlM (patchRow ds srcLevel r)
      { store := store, buffer := ds.malloc srcLevel, trace := [] }).map
    fun st => (List.range ds.rasterCount).foldl
      (fun s band => flushBand ds (dstBand srcLevel (band + 1)) s) st

/-- The method `GDALMRFDataset::PatchOverview(BlockX, BlockY, Width, Height,
srcLevel, recursive)` on the store: `CE_None` at once when the first band has
no overview `srcLevel`; otherwise the child rectangle, the tile loops, and
either `return CE_None` or the tail call on the child rectangle at
`srcLevel+1`.  The result is `none` when a kernel leaves the working buffer. -/
def PatchOverview {σ : Type} (ds : Dataset σ) (BlockX BlockY Width Height : Int) (srcLevel : Nat)
    (recursive : Bool) (store : σ) : Option (PatchResult σ) :=
  if ds.overviewCount ≤ srcLevel then
    some { err := CPLErr.CE_None, store := store, trace := [] }
  else
    match patchLevel ds (PatchOverviewRect BlockX BlockY Width Height) srcLevel store with
    | none => none
    | some st =>
      if !recursive then
        some { err := CPLErr.CE_None, store := st.store, trace := st.trace }
      else
        match PatchOverview ds (PatchOverviewRect BlockX BlockY Width Height).BlockXOut
            (PatchOverviewRect BlockX BlockY Width Height).BlockYOut
            (PatchOverviewRect BlockX BlockY Width Height).WidthOut
            (PatchOverviewRect BlockX BlockY Width Height).HeightOut (srcLevel + 1) true
            st.store with
        | none => none
        | some res => some { err := res.err, store := res.store, trace := st.trace ++ res.trace }
termination_by ds.overviewCount - srcLevel
decreasing_by omega

/-! ## A dataset held in memory -/

/-- A tile store held in memory: the pixel of a band at `(x, y)`. -/
def PixelStore : Type :=
  BandRef → Int → Int → Int

/-- Reading a window of a band held in memory into the buffer, after
`RasterIO(GF_Read, ...)` of GDAL: the pixel `(xoff + c, yoff + r)` of the
window goes to the sample `r * lineSamples + c` of the buffer; the other
samples are left as they are. -/
def memRead (store : PixelStore) (b : BandRef) (xoff yoff xsize ysize : Int) (lineSamples : Nat)
    (buffer : List Int) : CPLErr × PixelStore × List Int :=
  (CPLErr.CE_None, store,
    (List.range buffer.length).map fun (i : Nat) =>
      if Int.ofNat (i % lineSamples) < xsize ∧ Int.ofNat (i / lineSamples) < ysize then
        store b (xoff + Int.ofNat (i % lineSamples)) (yoff + Int.ofNat (i / lineSamples))
      else buffer.getD i 0)

/-- Writing a window of a band held in memory from the buffer, after
`RasterIO(GF_Write, ...)` of GDAL: the pixel `(xoff + c, yoff + r)` of the
window is the sample `r * lineSamples + c` of the buffer. -/
def memWrite (store : PixelStore) (b : BandRef) (xoff yoff xsize ysize : Int) (lineSamples : Nat)
    (buffer : List Int) : CPLErr × PixelStore :=
  (CPLErr.CE_None, fun b1 x y =>
    if b1 = b ∧ xoff ≤ x ∧ x < xoff + xsize ∧ yoff ≤ y ∧ y < yoff + ysize then
      buffer.getD ((y - yoff).toNat * lineSamples + (x - xoff).toNat) 0
    else store b1 x y)

/-- A dataset of integer pixels held in memory, without floating-point
bands: `levels` overviews, each level half the size of the one below, rounded
up; `FillBlock` as modelled from the spec, on the block of `blockSamples`
samples at the given offset. -/
def memDataset (levels bands tsz_x tsz_y : Nat) (dt : GDALDataType) (xsize ysize : Int)
    (hasNoData : Bool) (ndv : Int) (bytesPerSample : Nat) : Dataset PixelStore :=
  { overviewCount := levels
    rasterCount := bands
    tsz_x := tsz_x
    tsz_y := tsz_y
    eDataType := dt
    xSize := fun b =>
      match b with
      | BandRef.base _ => xsize
      | BandRef.overview _ n => Nat.iterate (fun (s : Int) => (s + 1) / 2) (n + 1) xsize
    ySize := fun b =>
      match b with
      | BandRef.base _ => ysize
      | BandRef.overview _ n => Nat.iterate (fun (s : Int) => (s + 1) / 2) (n + 1) ysize
    hasNoData := fun _ => hasNoData
    noDataValue := fun _ => ndv
    blockSizeBytes := fun _ => tsz_x * tsz_y * bytesPerSample
    fillBlock := fun _ off buffer =>
      buffer.take (off / bytesPerSample) ++
        FillBlock ndv (tsz_x * tsz_y) (buffer.drop (off / bytesPerSample))
    rasterRead := memRead
    rasterWrite := memWrite
    flushCache := fun store _ => store
    averageFloating := fun _ _ _ buffer => buffer
    malloc := fun _ => List.replicate (4 * tsz_x * tsz_y) 0 }

/-- Scenario A: an 8x8 raster of one band of bytes in tiles of 4x4, with one
overview level and no NoData value. -/
def scenarioA : Dataset PixelStore :=
  memDataset 1 1 4 4 GDALDataType.GDT_Byte 8 8 false 0 1

/-- The store of Scenario A before the call: every pixel of the base band is
`100`, the overview is still empty (`0`). -/
def scenarioAStore : PixelStore :=
  fun b _ _ =>
    match b with
    | BandRef.base _ => 100
    | BandRef.overview _ _ => 0

/-- The operations of GDAL on the working buffer leave it its size, the four
blocks of `tsz_x * tsz_y` samples that `PatchOverview` allocates. -/
structure Dataset.BufferSafe {σ : Type} (ds : Dataset σ) : Prop where
  malloc_length : ∀ l, (ds.malloc l).length = 4 * (ds.tsz_x * ds.tsz_y)
  fill_length : ∀ b off buf, (ds.fillBlock b off buf).length = buf.length
  read_length : ∀ s b x y w h n buf, (ds.rasterRead s b x y w h n buf).2.2.length = buf.length
  float_length : ∀ t b1 b2 buf, (ds.averageFloating t b1 b2 buf).length = buf.length

/-- The accesses of a pass of `PatchOverview` at `srcLevel`: every tile write
is on the overview of index `srcLevel` of some band, every tile read on the
source band of that level. -/
def LevelAccess (srcLevel : Nat) (e : Access) : Prop :=
  (e.isWrite = true → ∃ band, e.band = BandRef.overview band srcLevel) ∧
    (e.isRead = true → ∃ band, e.band = srcBand srcLevel band)

/-- The dataset `ds` with other error classes returned by its `RasterIO`
calls, which act on the store and the buffer as before. -/
def Dataset.withErrors {σ : Type} (ds : Dataset σ)
    (rerr werr : σ → BandRef → Int → Int → Int → Int → Nat → List Int → CPLErr) : Dataset σ :=
  { ds with
    rasterRead := fun s b x y w h n buf =>
      (rerr s b x y w h n buf, (ds.rasterRead s b x y w h n buf).2)
    rasterWrite := fun s b x y w h n buf =>
      (werr s b x y w h n buf, (ds.rasterWrite s b x y w h n buf).2) }

/-- The data types the dispatch of `PatchOverview` handles. -/
def GDALDataType.handled : GDALDataType → Bool
  | GDALDataType.GDT_Byte => true
  | GDALDataType.GDT_UInt16 => true
  | GDALDataType.GDT_Int16 => true
  | GDALDataType.GDT_UInt32 => true
  | GDALDataType.GDT_Int32 => true
  | GDALDataType.GDT_Float32 => true
  | GDALDataType.GDT_Float64 => true
  | _ => false

/-- The trace holds a tile write on the overview of index `n` of the first
band. -/
def HasWrite (n : Nat) (t : List Access) : Prop :=
  ∃ e ∈ t, e.isWrite = true ∧ e.band = BandRef.overview 1 n

/-- The property `Q` of the working buffer is kept by everything
`PatchOverview` does to the buffer, and the dispatch returns on a buffer with
`Q`. -/
structure Dataset.Keeps {σ : Type} (ds : Dataset σ) (Q : List Int → Prop) : Prop where
  malloc : ∀ l, Q (ds.malloc l)
  fill : ∀ b off buf, Q buf → Q (ds.fillBlock b off buf)
  read : ∀ s b x y w h n buf, Q buf → Q (ds.rasterRead s b x y w h n buf).2.2
  switch : ∀ bsrc bdst buf, Q buf → ∃ out, averageSwitch ds bsrc bdst buf = some out ∧ Q out

/-- A pyramid of two overview levels over a 8x8 raster of one band of bytes in
tiles of 2x2, held in memory, without NoData value. -/
def pyramid2 : Dataset PixelStore :=
  memDataset 2 1 2 2 GDALDataType.GDT_Byte 8 8 false 0 1

/-- Scenario A on a tile store whose `RasterIO` calls all fail: a read leaves
the buffer as it is, a write leaves the store as it is, and both return
`CE_Failure`. -/
def failingA : Dataset PixelStore :=
  { scenarioA with
    rasterRead := fun s _ _ _ _ _ _ buf => (CPLErr.CE_Failure, s, buf)
    rasterWrite := fun s _ _ _ _ _ _ _ => (CPLErr.CE_Failure, s) }

/-- Scenario A with a pixel type the dispatch does not handle, `GDT_CInt16`. -/
def complexA : Dataset PixelStore :=
  { scenarioA with eDataType := GDALDataType.GDT_CInt16 }

/-! ## Rectangles and sizes along the pyramid -/

/-- The width (or height) of the raster `l` levels up the pyramid: each level
is half the one below, rounded up. -/
def levelSize (n : Int) (l : Nat) : Int :=
  Nat.iterate (fun (s : Int) => ⌈(s : ℚ) / 2⌉) l n

/-- The rectangle the call of depth `l` of a recursive `PatchOverview`
receives: each tail call passes on the child rectangle of the call before. -/
def cascadeRect (r : OutRect) (l : Nat) : OutRect :=
  Nat.iterate
    (fun (p : OutRect) => PatchOverviewRect p.BlockXOut p.BlockYOut p.WidthOut p.HeightOut) l r

/-! ## The kernels with their memory accesses recorded -/

/-- The buffer indices a kernel run has read and has written, in program
order. -/
structure KernelLog where
  reads : List Nat
  writes : List Nat
  deriving DecidableEq

/-- The inner loop of the kernels, as `colLoop`, recording the indices each
iteration dereferences: `evenline[0]`, `evenline[1]`, `oddline[0]`,
`oddline[1]` are read and `*obuff` is written. -/
def colLoopLog (px : Int → Int → Int → Int → Int) :
    Nat → Cursor → KernelLog → Option (Cursor × KernelLog)
  | 0, s, g => some (s, g)
  | n + 1, s, g => do
    let a ← s.buff[s.evenline]?
    let b ← s.buff[s.evenline + 1]?
    let c ← s.buff[s.oddline]?
    let d ← s.buff[s.oddline + 1]?
    if s.obuff < s.buff.length then
      colLoopLog px n { buff := s.buff.set s.obuff (px a b c d), obuff := s.obuff + 1,
                        evenline := s.evenline + 2, oddline := s.oddline + 2 }
        { reads := g.reads ++ [s.evenline, s.evenline + 1, s.oddline, s.oddline + 1],
          writes := g.writes ++ [s.obuff] }
    else none

/-- The outer loop of the kernels, as `lineLoop`, with the accesses of its
inner loops recorded. -/
def lineLoopLog (px : Int → Int → Int → Int → Int) (xsz : Nat) :
    Nat → Cursor → KernelLog → Option (Cursor × KernelLog)
  | 0, s, g => some (s, g)
  | n + 1, s, g => do
    let r ← colLoopLog px xsz { s with oddline := s.evenline + xsz * 2 } g
    lineLoopLog px xsz n { r.1 with evenline := r.1.evenline + xsz * 2 } r.2

/-- The loop nest of the kernels, as `averageLoops`, returning the buffer
together with the indices read and written. -/
def averageLoopsLog (px : Int → Int → Int → Int → Int) (buff : List Int) (xsz ysz : Nat) :
    Option (List Int × KernelLog) :=
  (lineLoopLog px xsz ysz { buff := buff, obuff := 0, evenline := 0, oddline := 0 }
    { reads := [], writes := [] }).map (fun r => (r.1.buff, r.2))

/-! ## Scenario A for every integer kind -/

/-- The `GDALDataType` whose case of the dispatch `switch(eDataType)` runs
`average(T)` for the integer kind: `case GDT_Byte: average(GByte)`,
`case GDT_UInt16: average(GUInt16)`, `case GDT_Int16: average(GInt16)`,
`case GDT_UInt32: average(GUInt32)`, `case GDT_Int32: average(GInt32)`. -/
def PixelKind.dataType : PixelKind → GDALDataType
  | PixelKind.GByte => GDALDataType.GDT_Byte
  | PixelKind.GUInt16 => GDALDataType.GDT_UInt16
  | PixelKind.GInt16 => GDALDataType.GDT_Int16
  | PixelKind.GUInt32 => GDALDataType.GDT_UInt32
  | PixelKind.GInt32 => GDALDataType.GDT_Int32

/-- Scenario A with pixels of the integer kind `k`: an 8x8 raster of one band
in tiles of 4x4, with one overview level and no NoData value. -/
def scenarioAOf (k : PixelKind) : Dataset PixelStore :=
  memDataset 1 1 4 4 k.dataType 8 8 false 0 (k.bits / 8)

/-! ## Machine arithmetic and loop invariants -/

theorem srcIndex_eq (xsz line col : Nat) (hcol : col < xsz) :
    srcIndex xsz (line * xsz + col) = 4 * (line * xsz) + 2 * col := by
  have hx : 0 < xsz := by omega
  have h1 : (line * xsz + col) / xsz = line := by
    rw [Nat.add_comm, Nat.add_mul_div_right _ _ hx, Nat.div_eq_of_lt hcol, Nat.zero_add]
  have h2 : (line * xsz + col) % xsz = col := by
    rw [Nat.add_comm, Nat.add_mul_mod_self_right, Nat.mod_eq_of_lt hcol]
  unfold srcIndex
  rw [h1, h2]

theorem getElem?_eq_some_getD (l : List Int) (i : Nat) (h : i < l.length) :
    l[i]? = some (l.getD i 0) := by
  simp [List.getD_eq_getElem?_getD, List.getElem?_eq_getElem h]

theorem colLoop_spec (px : Int → Int → Int → Int → Int) (b0 : List Int) (xsz ysz line : Nat)
    (hlen : b0.length = 4 * (xsz * ysz)) (hline : line < ysz) :
    ∀ (n col : Nat) (s : Cursor), col + n = xsz →
      s.oddline = s.evenline + xsz * 2 →
      KInv px b0 xsz s (line * xsz + col) (4 * (line * xsz) + 2 * col) →
      ∃ s1, colLoop px n s = some s1 ∧
        KInv px b0 xsz s1 (line * xsz + xsz) (4 * (line * xsz) + 2 * xsz) := by
  have hL : line * xsz + xsz ≤ xsz * ysz := by
    have h := Nat.mul_le_mul_right xsz (Nat.succ_le_of_lt hline)
    rw [Nat.succ_mul, Nat.mul_comm ysz] at h
    exact h
  intro n
  induction n with
  | zero =>
    intro col s hn _ hinv
    have hc : col = xsz := by omega
    subst hc
    exact ⟨s, rfl, hinv⟩
  | succ n ih =>
    intro col s hn hodd hinv
    obtain ⟨ho, he, hl, hrest, hdone⟩ := hinv
    have hcol : col < xsz := by omega
    have ha : s.buff[s.evenline]? = some (b0.getD (4 * (line * xsz) + 2 * col) 0) := by
      rw [he, hrest _ (by omega)]
      exact getElem?_eq_some_getD _ _ (by omega)
    have hb : s.buff[s.evenline + 1]? = some (b0.getD (4 * (line * xsz) + 2 * col + 1) 0) := by
      rw [he, hrest _ (by omega)]
      exact getElem?_eq_some_getD _ _ (by omega)
    have hc : s.buff[s.oddline]? =
        some (b0.getD (4 * (line * xsz) + 2 * col + 2 * xsz) 0) := by
      rw [hodd, he, hrest _ (by omega)]
      have e1 : 4 * (line * xsz) + 2 * col + xsz * 2 = 4 * (line * xsz) + 2 * col + 2 * xsz := by
        omega
      rw [e1]
      exact getElem?_eq_some_getD _ _ (by omega)
    have hd : s.buff[s.oddline + 1]? =
        some (b0.getD (4 * (line * xsz) + 2 * col + 2 * xsz + 1) 0) := by
      rw [hodd, he, hrest _ (by omega)]
      have e1 : 4 * (line * xsz) + 2 * col + xsz * 2 + 1 =
          4 * (line * xsz) + 2 * col + 2 * xsz + 1 := by omega
      rw [e1]
      exact getElem?_eq_some_getD _ _ (by omega)
    have hw : s.obuff < s.buff.length := by omega
    have hstep := ih (col + 1)
      { buff := s.buff.set s.obuff
          (px (b0.getD (4 * (line * xsz) + 2 * col) 0)
            (b0.getD (4 * (line * xsz) + 2 * col + 1) 0)
            (b0.getD (4 * (line * xsz) + 2 * col + 2 * xsz) 0)
            (b0.getD (4 * (line * xsz) + 2 * col + 2 * xsz + 1) 0))
        obuff := s.obuff + 1
        evenline := s.evenline + 2
        oddline := s.oddline + 2 }
      (by omega) (by simp only; omega)
      ⟨by simp only; omega, by simp only; omega, by simp only [List.length_set]; exact hl,
        by
          intro i hi
          simp only
          rw [List.getElem?_set_ne (by omega)]
          exact hrest i (by omega),
        by
          intro j hj
          simp only
          by_cases hjo : j = s.obuff
          · subst hjo
            rw [List.getElem?_set_self hw, ho]
            unfold groupOut
            rw [srcIndex_eq xsz line col hcol]
          · rw [List.getElem?_set_ne (fun h => hjo h.symm)]
            exact hdone j (by omega)⟩
    obtain ⟨s1, hs1, hinv1⟩ := hstep
    refine ⟨s1, ?_, hinv1⟩
    simp only [colLoop, ha, hb, hc, hd, Option.bind_eq_bind, Option.some_bind, if_pos hw]
    exact hs1

theorem lineLoop_spec (px : Int → Int → Int → Int → Int) (b0 : List Int) (xsz ysz : Nat)
    (hlen : b0.length = 4 * (xsz * ysz)) :
    ∀ (n line : Nat) (s : Cursor), line + n = ysz →
      KInv px b0 xsz s (line * xsz) (4 * (line * xsz)) →
      ∃ s1, lineLoop px xsz n s = some s1 ∧
        KInv px b0 xsz s1 (ysz * xsz) (4 * (ysz * xsz)) := by
  intro n
  induction n with
  | zero =>
    intro line s hn hinv
    have hc : line = ysz := by omega
    subst hc
    exact ⟨s, rfl, hinv⟩
  | succ n ih =>
    intro line s hn hinv
    have hline : line < ysz := by omega
    obtain ⟨s1, hs1, hinv1⟩ := colLoop_spec px b0 xsz ysz line hlen hline xsz 0
      { s with oddline := s.evenline + xsz * 2 } (by omega) rfl
      ⟨hinv.hobuff, hinv.heven, hinv.hlen, hinv.hrest, hinv.hdone⟩
    obtain ⟨ho, he, hl, hrest, hdone⟩ := hinv1
    have e1 : (line + 1) * xsz = line * xsz + xsz := Nat.succ_mul line xsz
    obtain ⟨s2, hs2, hinv2⟩ := ih (line + 1) { s1 with evenline := s1.evenline + xsz * 2 }
      (by omega)
      ⟨by simp only; omega, by simp only; omega, hl,
        by intro i hi; exact hrest i (by omega),
        by intro j hj; exact hdone j (by omega)⟩
    refine ⟨s2, ?_, hinv2⟩
    simp only [lineLoop, hs1, Option.bind_eq_bind, Option.some_bind]
    exact hs2

/-- The loop nest on a buffer of `4*xsz*ysz` samples returns a buffer of the
same length whose first `xsz*ysz` samples are `px` of the groups of the
original buffer and whose other samples are unchanged. -/
theorem averageLoops_spec (px : Int → Int → Int → Int → Int) (b0 : List Int) (xsz ysz : Nat)
    (hlen : b0.length = 4 * (xsz * ysz)) :
    ∃ out, averageLoops px b0 xsz ysz = some out ∧ out.length = b0.length ∧
      (∀ i, xsz * ysz ≤ i → out[i]? = b0[i]?) ∧
      (∀ j, j < xsz * ysz → out[j]? = some (groupOut px b0 xsz j)) := by
  obtain ⟨s1, hs1, hinv⟩ := lineLoop_spec px b0 xsz ysz hlen ysz 0
    { buff := b0, obuff := 0, evenline := 0, oddline := 0 } (by omega)
    ⟨by simp, by simp, rfl, fun _ _ => rfl, fun j hj => by simp at hj⟩
  refine ⟨s1.buff, ?_, hinv.hlen, ?_, ?_⟩
  · simp [averageLoops, hs1]
  · intro i hi
    exact hinv.hrest i (by rw [Nat.mul_comm]; exact hi)
  · intro j hj
    exact hinv.hdone j (by rw [Nat.mul_comm]; exact hj)

theorem tdiv_eq_ite (x n : Int) (hn : 0 < n) :
    Int.tdiv x n = if 0 ≤ x then x / n else -((-x) / n) := by
  by_cases h : 0 ≤ x
  · rw [if_pos h, Int.tdiv_eq_ediv h (le_of_lt hn)]
  · rw [if_neg h]
    have h1 : Int.tdiv x n = -(Int.tdiv (-x) n) := by
      rw [Int.neg_tdiv, neg_neg]
    rw [h1, Int.tdiv_eq_ediv (by omega) (le_of_lt hn)]

theorem wrapSigned32_eq (v : Int) (h1 : -2147483648 ≤ v) (h2 : v ≤ 2147483647) :
    wrapSigned 32 v = v := by
  unfold wrapSigned
  norm_num
  omega

theorem wrapSigned64_eq (v : Int) (h1 : -9223372036854775808 ≤ v)
    (h2 : v ≤ 9223372036854775807) : wrapSigned 64 v = v := by
  unfold wrapSigned
  norm_num
  omega

/-- Every sample kind lies between `-2^31` and `2^32 - 1`, with `0` among its
values. -/
theorem PixelKind.range_facts (k : PixelKind) :
    -2147483648 ≤ k.minVal ∧ k.minVal ≤ 0 ∧ 0 ≤ k.maxVal ∧ k.maxVal ≤ 4294967295 := by
  cases k <;> simp [PixelKind.minVal, PixelKind.maxVal, PixelKind.isSigned, PixelKind.bits]

/-- Storing a value of the kind leaves it unchanged. -/
theorem PixelKind.cast_of_inRange (k : PixelKind) (v : Int) (h : k.InRange v) : k.cast v = v := by
  obtain ⟨h1, h2⟩ := h
  cases k <;>
    simp [PixelKind.minVal, PixelKind.maxVal, PixelKind.isSigned, PixelKind.bits] at h1 h2 <;>
    simp [PixelKind.cast, PixelKind.isSigned, PixelKind.bits, wrapSigned, wrapUnsigned] <;>
    omega

/-- The fast-path sum is formed without wrap-around and its quotient is stored
unchanged. -/
theorem avg4_eq (k : PixelKind) (a b c d : Int) (ha : k.InRange a) (hb : k.InRange b)
    (hc : k.InRange c) (hd : k.InRange d) :
    avg4 k a b c d = Int.tdiv (2 + a + b + c + d) 4 ∧
      k.InRange (Int.tdiv (2 + a + b + c + d) 4) := by
  obtain ⟨ha1, ha2⟩ := ha
  obtain ⟨hb1, hb2⟩ := hb
  obtain ⟨hc1, hc2⟩ := hc
  obtain ⟨hd1, hd2⟩ := hd
  obtain ⟨f1, f2, f3, f4⟩ := k.range_facts
  have hr : k.InRange (Int.tdiv (2 + a + b + c + d) 4) := by
    rw [tdiv_eq_ite _ 4 (by norm_num)]
    constructor <;> split <;> omega
  refine ⟨?_, hr⟩
  unfold avg4
  have hsum : addW k.accBits (addW k.accBits (addW k.accBits (addW k.accBits 2 a) b) c) d =
      2 + a + b + c + d := by
    cases k <;>
      simp [PixelKind.minVal, PixelKind.maxVal, PixelKind.isSigned, PixelKind.bits]
        at ha1 ha2 hb1 hb2 hc1 hc2 hd1 hd2 <;>
      simp only [PixelKind.accBits, addW] <;>
      first
        | (rw [wrapSigned32_eq (2 + a) (by omega) (by omega),
            wrapSigned32_eq (2 + a + b) (by omega) (by omega),
            wrapSigned32_eq (2 + a + b + c) (by omega) (by omega),
            wrapSigned32_eq (2 + a + b + c + d) (by omega) (by omega)])
        | (rw [wrapSigned64_eq (2 + a) (by omega) (by omega),
            wrapSigned64_eq (2 + a + b) (by omega) (by omega),
            wrapSigned64_eq (2 + a + b + c) (by omega) (by omega),
            wrapSigned64_eq (2 + a + b + c + d) (by omega) (by omega)])
  rw [hsum]
  exact k.cast_of_inRange _ hr

theorem use_spec (ndv v : Int) (st : Int × Int) (hv1 : -2147483648 ≤ v) (hv2 : v ≤ 4294967295)
    (hacc1 : -8589934592 ≤ st.1) (hacc2 : st.1 ≤ 17179869184) (hc1 : 0 ≤ st.2) (hc2 : st.2 ≤ 3) :
    use ndv st v = (st.1 + (if v ≠ ndv then v else 0), st.2 + (if v ≠ ndv then 1 else 0)) := by
  unfold use
  by_cases h : v ≠ ndv
  · rw [if_pos h, if_pos h, if_pos h]
    unfold addW
    rw [wrapSigned64_eq _ (by omega) (by omega), wrapSigned32_eq _ (by omega) (by omega)]
  · rw [if_neg h, if_neg h, if_neg h]
    simp

/-- The four `use` steps leave in `(acc, count)` the sum and the number of the
samples that differ from the sentinel, without wrap-around. -/
theorem use4_spec (ndv a b c d : Int)
    (ha1 : -2147483648 ≤ a) (ha2 : a ≤ 4294967295)
    (hb1 : -2147483648 ≤ b) (hb2 : b ≤ 4294967295)
    (hc1 : -2147483648 ≤ c) (hc2 : c ≤ 4294967295)
    (hd1 : -2147483648 ≤ d) (hd2 : d ≤ 4294967295) :
    use ndv (use ndv (use ndv (use ndv (0, 0) a) b) c) d =
      ((if a ≠ ndv then a else 0) + (if b ≠ ndv then b else 0) + (if c ≠ ndv then c else 0)
          + (if d ≠ ndv then d else 0),
        (if a ≠ ndv then 1 else 0) + (if b ≠ ndv then 1 else 0) + (if c ≠ ndv then 1 else 0)
          + (if d ≠ ndv then 1 else 0)) := by
  rw [use_spec ndv a (0, 0) ha1 ha2 (by norm_num) (by norm_num) (by norm_num) (by norm_num)]
  rw [use_spec ndv b _ hb1 hb2 (by dsimp only; split <;> omega) (by dsimp only; split <;> omega)
    (by dsimp only; split <;> omega) (by dsimp only; split <;> omega)]
  rw [use_spec ndv c _ hc1 hc2 (by dsimp only; split <;> split <;> omega)
    (by dsimp only; split <;> split <;> omega)
    (by dsimp only; split <;> split <;> omega) (by dsimp only; split <;> split <;> omega)]
  rw [use_spec ndv d _ hd1 hd2 (by dsimp only; split <;> split <;> split <;> omega)
    (by dsimp only; split <;> split <;> split <;> omega)
    (by dsimp only; split <;> split <;> split <;> omega)
    (by dsimp only; split <;> split <;> split <;> omega)]
  simp only [zero_add]

/-- The NoData-aware sample is formed without wrap-around, is the value the
specification words give, and is stored unchanged. -/
theorem avgNdv_eq (k : PixelKind) (ndv a b c d : Int) (hn : k.InRange ndv) (ha : k.InRange a)
    (hb : k.InRange b) (hc : k.InRange c) (hd : k.InRange d) :
    avgNdv k ndv a b c d = ndvAverage ndv a b c d ∧ k.InRange (ndvAverage ndv a b c d) := by
  obtain ⟨hn1, hn2⟩ := hn
  obtain ⟨ha1, ha2⟩ := ha
  obtain ⟨hb1, hb2⟩ := hb
  obtain ⟨hc1, hc2⟩ := hc
  obtain ⟨hd1, hd2⟩ := hd
  obtain ⟨f1, f2, f3, f4⟩ := k.range_facts
  have t1 : Int.tdiv 1 2 = 0 := by decide
  have t2 : Int.tdiv 2 2 = 1 := by decide
  have t3 : Int.tdiv 3 2 = 1 := by decide
  have t4 : Int.tdiv 4 2 = 2 := by decide
  have hr : k.InRange (ndvAverage ndv a b c d) := by
    unfold ndvAverage validSamples PixelKind.InRange
    by_cases ea : a = ndv <;> by_cases eb : b = ndv <;> by_cases ec : c = ndv <;>
      by_cases ed : d = ndv <;>
      simp [ea, eb, ec, ed, t1, t2, t3, t4, tdiv_eq_ite] <;>
      (try constructor) <;> (try split) <;> omega
  refine ⟨?_, hr⟩
  have hraw : (if (use ndv (use ndv (use ndv (use ndv (0, 0) a) b) c) d).2 ≠ 0 then
        Int.tdiv (addW 64 (use ndv (use ndv (use ndv (use ndv (0, 0) a) b) c) d).1
          (Int.tdiv (use ndv (use ndv (use ndv (use ndv (0, 0) a) b) c) d).2 2))
          (use ndv (use ndv (use ndv (use ndv (0, 0) a) b) c) d).2
      else ndv) = ndvAverage ndv a b c d := by
    rw [use4_spec ndv a b c d (by omega) (by omega) (by omega) (by omega) (by omega) (by omega)
      (by omega) (by omega)]
    unfold ndvAverage validSamples addW
    by_cases ea : a = ndv <;> by_cases eb : b = ndv <;> by_cases ec : c = ndv <;>
      by_cases ed : d = ndv <;>
      simp [ea, eb, ec, ed, t1, t2, t3, t4] <;>
      rw [wrapSigned64_eq _ (by omega) (by omega)] <;>
      try (congr 1; omega)
  unfold avgNdv
  simp only
  rw [hraw]
  exact k.cast_of_inRange _ hr

theorem groupOut_rowcol (px : Int → Int → Int → Int → Int) (b0 : List Int)
    (xsz line col : Nat) (hcol : col < xsz) :
    groupOut px b0 xsz (line * xsz + col) =
      px (sampleAt b0 xsz (2 * line) (2 * col)) (sampleAt b0 xsz (2 * line) (2 * col + 1))
        (sampleAt b0 xsz (2 * line + 1) (2 * col))
        (sampleAt b0 xsz (2 * line + 1) (2 * col + 1)) := by
  unfold groupOut sampleAt
  rw [srcIndex_eq xsz line col hcol]
  have e1 : 2 * line * (2 * xsz) + 2 * col = 4 * (line * xsz) + 2 * col := by ring
  have e2 : 2 * line * (2 * xsz) + (2 * col + 1) = 4 * (line * xsz) + 2 * col + 1 := by ring
  have e3 : (2 * line + 1) * (2 * xsz) + 2 * col = 4 * (line * xsz) + 2 * col + 2 * xsz := by
    ring
  have e4 : (2 * line + 1) * (2 * xsz) + (2 * col + 1) =
      4 * (line * xsz) + 2 * col + 2 * xsz + 1 := by ring
  rw [e1, e2, e3, e4]

theorem rowcol_lt (xsz ysz line col : Nat) (hline : line < ysz) (hcol : col < xsz) :
    line * xsz + col < xsz * ysz := by
  have h := Nat.mul_le_mul_right xsz (Nat.succ_le_of_lt hline)
  rw [Nat.succ_mul, Nat.mul_comm ysz] at h
  omega

/-- The four samples of the group of an output position lie in the buffer. -/
theorem sampleAt_mem (buff : List Int) (xsz ysz line col : Nat)
    (hlen : buff.length = 4 * (xsz * ysz)) (hline : line < ysz) (hcol : col < xsz)
    (r c : Nat) (hr : r ≤ 1) (hc : c ≤ 1) :
    sampleAt buff xsz (2 * line + r) (2 * col + c) ∈ buff := by
  have h := Nat.mul_le_mul_right xsz (Nat.succ_le_of_lt hline)
  rw [Nat.succ_mul, Nat.mul_comm ysz] at h
  have e : (2 * line + r) * (2 * xsz) + (2 * col + c) =
      4 * (line * xsz) + 2 * (r * xsz) + 2 * col + c := by ring
  have hrx : r * xsz ≤ xsz := by
    calc r * xsz ≤ 1 * xsz := Nat.mul_le_mul_right xsz hr
      _ = xsz := Nat.one_mul xsz
  have hlt : (2 * line + r) * (2 * xsz) + (2 * col + c) < buff.length := by
    rw [e, hlen]
    omega
  unfold sampleAt
  rw [List.getD_eq_getElem _ _ hlt]
  exact List.getElem_mem hlt

/-- The two kernels write the same sample wherever the per-sample functions
agree on the samples of the buffer. -/
theorem averageLoops_congr (px py : Int → Int → Int → Int → Int) (b0 : List Int)
    (xsz ysz : Nat) (hlen : b0.length = 4 * (xsz * ysz))
    (hagree : ∀ a ∈ b0, ∀ b ∈ b0, ∀ c ∈ b0, ∀ d ∈ b0, px a b c d = py a b c d) :
    averageLoops px b0 xsz ysz = averageLoops py b0 xsz ysz := by
  obtain ⟨o1, h1, l1, r1, d1⟩ := averageLoops_spec px b0 xsz ysz hlen
  obtain ⟨o2, h2, l2, r2, d2⟩ := averageLoops_spec py b0 xsz ysz hlen
  rw [h1, h2]
  congr 1
  apply List.ext_getElem?
  intro i
  by_cases hi : i < xsz * ysz
  · rw [d1 i hi, d2 i hi]
    have hx : 0 < xsz := by
      rcases Nat.eq_zero_or_pos xsz with h | h
      · rw [h, Nat.zero_mul] at hi
        omega
      · exact h
    have hline : i / xsz < ysz := by
      rw [Nat.div_lt_iff_lt_mul hx, Nat.mul_comm]
      exact hi
    have hcol : i % xsz < xsz := Nat.mod_lt _ hx
    have hi2 : i = i / xsz * xsz + i % xsz := by
      rw [Nat.mul_comm]
      exact (Nat.div_add_mod i xsz).symm
    rw [hi2, groupOut_rowcol px b0 xsz _ _ hcol, groupOut_rowcol py b0 xsz _ _ hcol]
    have m := sampleAt_mem b0 xsz ysz (i / xsz) (i % xsz) hlen hline hcol
    have m00 := m 0 0 (by omega) (by omega)
    have m01 := m 0 1 (by omega) (by omega)
    have m10 := m 1 0 (by omega) (by omega)
    have m11 := m 1 1 (by omega) (by omega)
    simp only [Nat.add_zero] at m00 m01 m10 m11
    rw [hagree _ m00 _ m01 _ m10 _ m11]
  · rw [r1 i (by omega), r2 i (by omega)]

/-! ## The kernels: what a call leaves in the buffer -/

/-- C1. Fast-path `AverageByFour(buff, xsz, ysz)`, every integer kind: on a
buffer of `4*xsz*ysz` samples of the kind, the call returns and the sample at
index `line*xsz + col` is `(2 + a + b + c + d) / 4` (the truncating integer
division of C++), where `a, b, c, d` are the samples of the buffer before the
call at rows `2*line`, `2*line+1` and columns `2*col`, `2*col+1`. -/
theorem AverageByFour_samples (k : PixelKind) (buff : List Int) (xsz ysz : Nat)
    (hlen : buff.length = 4 * xsz * ysz) (hrange : ∀ v ∈ buff, k.InRange v) :
    ∃ out, AverageByFour k buff xsz ysz = some out ∧
      ∀ line col, line < ysz → col < xsz →
        out[line * xsz + col]? =
          some (Int.tdiv (2 + sampleAt buff xsz (2 * line) (2 * col)
            + sampleAt buff xsz (2 * line) (2 * col + 1)
            + sampleAt buff xsz (2 * line + 1) (2 * col)
            + sampleAt buff xsz (2 * line + 1) (2 * col + 1)) 4) := by
  have hlen2 : buff.length = 4 * (xsz * ysz) := by rw [hlen, Nat.mul_assoc]
  obtain ⟨out, h1, _, _, hd⟩ := averageLoops_spec (avg4 k) buff xsz ysz hlen2
  refine ⟨out, h1, ?_⟩
  intro line col hline hcol
  rw [hd _ (rowcol_lt xsz ysz line col hline hcol), groupOut_rowcol _ _ _ _ _ hcol]
  have m := sampleAt_mem buff xsz ysz line col hlen2 hline hcol
  have m00 := m 0 0 (by omega) (by omega)
  have m01 := m 0 1 (by omega) (by omega)
  have m10 := m 1 0 (by omega) (by omega)
  have m11 := m 1 1 (by omega) (by omega)
  simp only [Nat.add_zero] at m00 m01 m10 m11
  rw [(avg4_eq k _ _ _ _ (hrange _ m00) (hrange _ m01) (hrange _ m10) (hrange _ m11)).1]

/-- Witness of C1: a 4x2 buffer of bytes. -/
theorem AverageByFour_samples_witness :
    ∃ out, AverageByFour PixelKind.GByte [1, 2, 3, 4, 5, 6, 7, 9] 2 1 = some out ∧
      ∀ line col, line < 1 → col < 2 →
        out[line * 2 + col]? =
          some (Int.tdiv (2 + sampleAt [1, 2, 3, 4, 5, 6, 7, 9] 2 (2 * line) (2 * col)
            + sampleAt [1, 2, 3, 4, 5, 6, 7, 9] 2 (2 * line) (2 * col + 1)
            + sampleAt [1, 2, 3, 4, 5, 6, 7, 9] 2 (2 * line + 1) (2 * col)
            + sampleAt [1, 2, 3, 4, 5, 6, 7, 9] 2 (2 * line + 1) (2 * col + 1)) 4) :=
  AverageByFour_samples PixelKind.GByte [1, 2, 3, 4, 5, 6, 7, 9] 2 1 (by decide) (by decide)

/-- C2. NoData-aware `AverageByFour(buff, xsz, ysz, ndv)`, every integer kind:
on a buffer of `4*xsz*ysz` samples of the kind and a sentinel of the kind, the
call returns and the sample at index `line*xsz + col` is computed from the four
samples the buffer had before the call in its 2x2 group: `ndv` when none of
them differs from `ndv`, and `(sum_of_valid + count/2) / count` (truncating
integer division) otherwise. -/
theorem AverageByFourNdv_samples (k : PixelKind) (buff : List Int) (xsz ysz : Nat) (ndv : Int)
    (hlen : buff.length = 4 * xsz * ysz) (hrange : ∀ v ∈ buff, k.InRange v)
    (hndv : k.InRange ndv) :
    ∃ out, AverageByFourNdv k buff xsz ysz ndv = some out ∧
      ∀ line col, line < ysz → col < xsz →
        out[line * xsz + col]? =
          some (ndvAverage ndv (sampleAt buff xsz (2 * line) (2 * col))
            (sampleAt buff xsz (2 * line) (2 * col + 1))
            (sampleAt buff xsz (2 * line + 1) (2 * col))
            (sampleAt buff xsz (2 * line + 1) (2 * col + 1))) := by
  have hlen2 : buff.length = 4 * (xsz * ysz) := by rw [hlen, Nat.mul_assoc]
  obtain ⟨out, h1, _, _, hd⟩ := averageLoops_spec (avgNdv k ndv) buff xsz ysz hlen2
  refine ⟨out, h1, ?_⟩
  intro line col hline hcol
  rw [hd _ (rowcol_lt xsz ysz line col hline hcol), groupOut_rowcol _ _ _ _ _ hcol]
  have m := sampleAt_mem buff xsz ysz line col hlen2 hline hcol
  have m00 := m 0 0 (by omega) (by omega)
  have m01 := m 0 1 (by omega) (by omega)
  have m10 := m 1 0 (by omega) (by omega)
  have m11 := m 1 1 (by omega) (by omega)
  simp only [Nat.add_zero] at m00 m01 m10 m11
  rw [(avgNdv_eq k ndv _ _ _ _ hndv (hrange _ m00) (hrange _ m01) (hrange _ m10)
    (hrange _ m11)).1]

/-- Witness of C2: a 4x2 buffer of 16-bit signed samples with sentinel `-1`. -/
theorem AverageByFourNdv_samples_witness :
    ∃ out, AverageByFourNdv PixelKind.GInt16 [-1, 2, -1, -1, 5, 6, -1, -1] 2 1 (-1) = some out ∧
      ∀ line col, line < 1 → col < 2 →
        out[line * 2 + col]? =
          some (ndvAverage (-1) (sampleAt [-1, 2, -1, -1, 5, 6, -1, -1] 2 (2 * line) (2 * col))
            (sampleAt [-1, 2, -1, -1, 5, 6, -1, -1] 2 (2 * line) (2 * col + 1))
            (sampleAt [-1, 2, -1, -1, 5, 6, -1, -1] 2 (2 * line + 1) (2 * col))
            (sampleAt [-1, 2, -1, -1, 5, 6, -1, -1] 2 (2 * line + 1) (2 * col + 1))) :=
  AverageByFourNdv_samples PixelKind.GInt16 [-1, 2, -1, -1, 5, 6, -1, -1] 2 1 (-1) (by decide)
    (by decide) (by decide)

/-- Four equal samples `v` through the fast-path arithmetic: `v` when
`v ≥ 0`, but `v + 1` when `v < 0`, where the division truncates upwards. -/
theorem avg4_uniform (k : PixelKind) (v : Int) (hv : k.InRange v) :
    avg4 k v v v v = if 0 ≤ v then v else v + 1 := by
  rw [(avg4_eq k v v v v hv hv hv hv).1, tdiv_eq_ite _ 4 (by norm_num)]
  split <;> split <;> omega

/-- On a uniform buffer of a value `v ≥ 0` of the kind the fast path leaves
`v` in every output sample. -/
theorem AverageByFour_uniform_nonneg (k : PixelKind) (xsz ysz : Nat) (v : Int)
    (hv : k.InRange v) (h0 : 0 ≤ v) :
    ∃ out, AverageByFour k (List.replicate (4 * xsz * ysz) v) xsz ysz = some out ∧
      ∀ j, j < xsz * ysz → out[j]? = some v := by
  have hlen : (List.replicate (4 * xsz * ysz) v).length = 4 * (xsz * ysz) := by
    rw [List.length_replicate, Nat.mul_assoc]
  obtain ⟨out, h1, _, _, hd⟩ :=
    averageLoops_spec (avg4 k) (List.replicate (4 * xsz * ysz) v) xsz ysz hlen
  refine ⟨out, h1, ?_⟩
  intro j hj
  rw [hd j hj]
  have hx : 0 < xsz := by
    rcases Nat.eq_zero_or_pos xsz with h | h
    · rw [h, Nat.zero_mul] at hj
      omega
    · exact h
  have hline : j / xsz < ysz := by
    rw [Nat.div_lt_iff_lt_mul hx, Nat.mul_comm]
    exact hj
  have hcol : j % xsz < xsz := Nat.mod_lt _ hx
  have hj2 : j = j / xsz * xsz + j % xsz := by
    rw [Nat.mul_comm]
    exact (Nat.div_add_mod j xsz).symm
  have m := sampleAt_mem (List.replicate (4 * xsz * ysz) v) xsz ysz (j / xsz) (j % xsz) hlen
    hline hcol
  have m00 := List.eq_of_mem_replicate (m 0 0 (by omega) (by omega))
  have m01 := List.eq_of_mem_replicate (m 0 1 (by omega) (by omega))
  have m10 := List.eq_of_mem_replicate (m 1 0 (by omega) (by omega))
  have m11 := List.eq_of_mem_replicate (m 1 1 (by omega) (by omega))
  simp only [Nat.add_zero] at m00 m01 m10 m11
  rw [hj2, groupOut_rowcol _ _ _ _ _ hcol, m00, m01, m10, m11, avg4_uniform k v hv, if_pos h0]

/-- A group made of sentinel samples and of samples equal to one value
`d ≥ 0`, at least one of them `d`: the NoData-aware arithmetic gives `d`. -/
theorem ndvAverage_partial_nonneg (ndv d a b c e : Int) (hne : d ≠ ndv) (hd : 0 ≤ d)
    (ha : a = ndv ∨ a = d) (hb : b = ndv ∨ b = d) (hc : c = ndv ∨ c = d) (he : e = ndv ∨ e = d)
    (hsome : a = d ∨ b = d ∨ c = d ∨ e = d) : ndvAverage ndv a b c e = d := by
  have t1 : Int.tdiv 1 2 = 0 := by decide
  have t2 : Int.tdiv 2 2 = 1 := by decide
  have t3 : Int.tdiv 3 2 = 1 := by decide
  have t4 : Int.tdiv 4 2 = 2 := by decide
  have hne2 : ndv ≠ d := fun h => hne h.symm
  rcases ha with rfl | rfl <;> rcases hb with rfl | rfl <;> rcases hc with rfl | rfl <;>
    rcases he with rfl | rfl <;>
    simp [ndvAverage, validSamples, hne, hne2, t1, t2, t3, t4, tdiv_eq_ite] at hsome ⊢ <;>
    omega

/-- C3, evaluated on a uniform buffer of the negative value `-1` (kind
`GInt16`, `xsz = ysz = 2`, 16 samples): the fast path writes `0`, not `-1`, in
each of the four output samples, because `(2 + 4*(-1)) / 4` truncates towards
zero. -/
theorem AverageByFour_uniform_negative :
    AverageByFour PixelKind.GInt16 (List.replicate 16 (-1)) 2 2 =
      some [0, 0, 0, 0, -1, -1, -1, -1, -1, -1, -1, -1, -1, -1, -1, -1] := by
  decide

/-- C4, evaluated on two groups of 16-bit signed samples with sentinel
`-32768` (`xsz = 2`, `ysz = 1`): the first group has two sentinel samples and
two samples `-1`, the second one sentinel sample and three samples `-1`; the
NoData-aware kernel writes `0`, not `-1`, for both, because `(-2 + 1) / 2` and
`(-3 + 1) / 3` truncate towards zero. -/
theorem AverageByFourNdv_partial_negative :
    AverageByFourNdv PixelKind.GInt16 [-1, -32768, -1, -1, -32768, -1, -1, -32768] 2 1 (-32768) =
      some [0, 0, -1, -1, -32768, -1, -1, -32768] := by
  decide

/-- C5. When no sample of the buffer equals the sentinel, the NoData-aware
kernel and the fast path return, and leave the buffer in exactly the same
state. -/
theorem AverageByFourNdv_eq_fast (k : PixelKind) (buff : List Int) (xsz ysz : Nat) (ndv : Int)
    (hlen : buff.length = 4 * xsz * ysz) (hrange : ∀ v ∈ buff, k.InRange v)
    (hndv : k.InRange ndv) (hnone : ∀ v ∈ buff, v ≠ ndv) :
    ∃ out, AverageByFourNdv k buff xsz ysz ndv = some out ∧
      AverageByFour k buff xsz ysz = some out := by
  have hlen2 : buff.length = 4 * (xsz * ysz) := by rw [hlen, Nat.mul_assoc]
  obtain ⟨out, h1, _⟩ := averageLoops_spec (avgNdv k ndv) buff xsz ysz hlen2
  refine ⟨out, h1, ?_⟩
  unfold AverageByFour
  rw [← h1]
  apply averageLoops_congr _ _ _ _ _ hlen2
  intro a ha b hb c hc d hd
  rw [(avg4_eq k a b c d (hrange a ha) (hrange b hb) (hrange c hc) (hrange d hd)).1,
    (avgNdv_eq k ndv a b c d hndv (hrange a ha) (hrange b hb) (hrange c hc) (hrange d hd)).1]
  have t4 : Int.tdiv 4 2 = 2 := by decide
  unfold ndvAverage validSamples
  simp [hnone a ha, hnone b hb, hnone c hc, hnone d hd, t4]
  congr 1
  omega

/-- Witness of C5: a 2x2 buffer of negative 32-bit samples, sentinel `0`. -/
theorem AverageByFourNdv_eq_fast_witness :
    ∃ out, AverageByFourNdv PixelKind.GInt32 [-1, -2, -3, -5] 1 1 0 = some out ∧
      AverageByFour PixelKind.GInt32 [-1, -2, -3, -5] 1 1 = some out :=
  AverageByFourNdv_eq_fast PixelKind.GInt32 [-1, -2, -3, -5] 1 1 0 (by decide) (by decide)
    (by decide) (by decide)

/-! ## The dispatch on Scenario B -/

theorem matchLoop_spec (buff : List Int) (val : Int) :
    ∀ (n i : Nat), i + n ≤ buff.length →
      matchLoop buff val n i ((buff.take i).count val) = some ((buff.take (i + n)).count val) := by
  intro n
  induction n with
  | zero =>
    intro i _
    rfl
  | succ n ih =>
    intro i hi
    have hlt : i < buff.length := by omega
    have hstep : (if buff[i] = val then (buff.take i).count val + 1 else (buff.take i).count val)
        = (buff.take (i + 1)).count val := by
      rw [List.take_succ, List.count_append, List.getElem?_eq_getElem hlt]
      by_cases h : buff[i] = val
      · simp [h]
      · simp [h, List.count_cons]
    have h2 := ih (i + 1) (by omega)
    rw [← hstep] at h2
    simp only [matchLoop, List.getElem?_eq_getElem hlt, Option.bind_eq_bind, Option.some_bind]
    rw [h2]
    have e : i + 1 + n = i + (n + 1) := by omega
    rw [e]

/-- The function `MatchCount` returns the number of the first `sz` samples equal to `val`. -/
theorem MatchCount_spec (buff : List Int) (sz : Nat) (val : Int) (hsz : sz ≤ buff.length) :
    MatchCount buff sz val = some ((buff.take sz).count val) := by
  have h := matchLoop_spec buff val sz 0 (by omega)
  simp only [List.take_zero, List.count_nil, Nat.zero_add] at h
  exact h

theorem scenarioB_length (ndv : Int) (q : Nat) : (scenarioB ndv q).length = 64 := by
  simp [scenarioB]

theorem scenarioB_getD (ndv : Int) (q i : Nat) (hi : i < 64) :
    (scenarioB ndv q).getD i 0 = if 2 * (i / 32) + i % 8 / 4 = q then ndv else 50 := by
  simp [scenarioB, List.getD_eq_getElem?_getD, List.getElem?_map, List.getElem?_range hi]

theorem scenarioB_mem (ndv : Int) (q i : Nat) (hi : i < 64) :
    (if 2 * (i / 32) + i % 8 / 4 = q then ndv else 50) ∈ scenarioB ndv q := by
  unfold scenarioB
  exact List.mem_map.mpr ⟨i, List.mem_range.mpr hi, rfl⟩

theorem scenarioB_inRange (k : PixelKind) (ndv : Int) (q : Nat) (hndv : k.InRange ndv) :
    ∀ v ∈ scenarioB ndv q, k.InRange v := by
  intro v hv
  unfold scenarioB at hv
  obtain ⟨i, _, rfl⟩ := List.mem_map.mp hv
  split
  · exact hndv
  · cases k <;>
      simp [PixelKind.InRange, PixelKind.minVal, PixelKind.maxVal, PixelKind.isSigned,
        PixelKind.bits]

/-- On the buffer of Scenario B the count of sentinel samples is neither `0`
nor the whole buffer. -/
theorem scenarioB_count (ndv : Int) (q : Nat) (hq : q < 4) (h50 : ndv ≠ 50) :
    ∃ c, MatchCount (scenarioB ndv q) (4 * 4 * 4) ndv = some c ∧ 4 * 4 * 4 ≠ c ∧ 0 ≠ c := by
  refine ⟨_, MatchCount_spec _ _ _ (by rw [scenarioB_length]), ?_, ?_⟩
  · intro h
    have hfull : List.take (4 * 4 * 4) (scenarioB ndv q) = scenarioB ndv q := by
      have := List.take_length (scenarioB ndv q)
      rw [scenarioB_length] at this
      exact this
    rw [hfull] at h
    have hall := (List.count_eq_length (a := ndv) (l := scenarioB ndv q)).mp
      (by rw [scenarioB_length]; exact h.symm)
    have hq0 : ∃ i, i < 64 ∧ 2 * (i / 32) + i % 8 / 4 ≠ q := by
      rcases Nat.eq_zero_or_pos q with h0 | h0
      · exact ⟨4, by norm_num, by omega⟩
      · exact ⟨0, by norm_num, by omega⟩
    obtain ⟨i, hi, hne⟩ := hq0
    have hm := scenarioB_mem ndv q i hi
    rw [if_neg hne] at hm
    exact h50 (hall 50 hm)
  · intro h
    have hfull : List.take (4 * 4 * 4) (scenarioB ndv q) = scenarioB ndv q := by
      have := List.take_length (scenarioB ndv q)
      rw [scenarioB_length] at this
      exact this
    rw [hfull] at h
    have hnot := (List.count_eq_zero (a := ndv) (l := scenarioB ndv q)).mp h.symm
    have hq1 : ∃ i, i < 64 ∧ 2 * (i / 32) + i % 8 / 4 = q := by
      interval_cases q
      · exact ⟨0, by norm_num, by norm_num⟩
      · exact ⟨4, by norm_num, by norm_num⟩
      · exact ⟨32, by norm_num, by norm_num⟩
      · exact ⟨36, by norm_num, by norm_num⟩
    obtain ⟨i, hi, he⟩ := hq1
    have hm := scenarioB_mem ndv q i hi
    rw [if_pos he] at hm
    exact hnot hm

theorem scenarioB_sampleAt (ndv : Int) (q line col r c : Nat) (hline : line < 4) (hcol : col < 4)
    (hr : r ≤ 1) (hc : c ≤ 1) :
    sampleAt (scenarioB ndv q) 4 (2 * line + r) (2 * col + c) =
      if 2 * (line / 2) + col / 2 = q then ndv else 50 := by
  unfold sampleAt
  rw [scenarioB_getD ndv q _ (by omega)]
  have e : 2 * (((2 * line + r) * (2 * 4) + (2 * col + c)) / 32)
      + ((2 * line + r) * (2 * 4) + (2 * col + c)) % 8 / 4 = 2 * (line / 2) + col / 2 := by
    omega
  rw [e]

theorem ndvAverage_all_sentinel (ndv : Int) : ndvAverage ndv ndv ndv ndv ndv = ndv := by
  simp [ndvAverage, validSamples]

theorem ndvAverage_fifty (ndv : Int) (h50 : ndv ≠ 50) : ndvAverage ndv 50 50 50 50 = 50 := by
  have h : (50 : Int) ≠ ndv := fun h => h50 h.symm
  simp [ndvAverage, validSamples, h]
  decide

/-- C6 as amended. Scenario B through the reduction dispatch, every integer
kind, every sentinel `ndv ≠ 50` of the kind and every position `q` of the
all-NoData parent tile: the dispatch returns, and the overview tile holds
`ndv` in the 2x2-pixel quadrant derived from the all-NoData parent tile and
`50` in every other pixel. -/
theorem scenarioB_overview_tile (k : PixelKind) (fill : List Int → List Int) (ndv : Int)
    (q : Nat) (hndv : k.InRange ndv) (h50 : ndv ≠ 50) (hq : q < 4) :
    ∃ out, average k fill true ndv (scenarioB ndv q) 4 4 = some out ∧
      ∀ line col, line < 4 → col < 4 →
        out[line * 4 + col]? = some (if 2 * (line / 2) + col / 2 = q then ndv else 50) := by
  obtain ⟨c, hc, hc64, hc0⟩ := scenarioB_count ndv q hq h50
  have hlen : (scenarioB ndv q).length = 4 * (4 * 4) := by rw [scenarioB_length]
  obtain ⟨out, h1, _, _, hd⟩ := averageLoops_spec (avgNdv k ndv) (scenarioB ndv q) 4 4 hlen
  refine ⟨out, ?_, ?_⟩
  · simp only [average, hc, if_true, Option.bind_eq_bind, Option.some_bind, if_neg hc64,
      if_pos hc0, AverageByFourNdv, h1, Option.pure_def, if_neg hc0]
  · intro line col hline hcol
    rw [hd _ (rowcol_lt 4 4 line col hline hcol), groupOut_rowcol _ _ _ _ _ hcol]
    have s := scenarioB_sampleAt ndv q line col
    have s00 := s 0 0 hline hcol (by omega) (by omega)
    have s01 := s 0 1 hline hcol (by omega) (by omega)
    have s10 := s 1 0 hline hcol (by omega) (by omega)
    have s11 := s 1 1 hline hcol (by omega) (by omega)
    simp only [Nat.add_zero] at s00 s01 s10 s11
    rw [s00, s01, s10, s11]
    have h50r : k.InRange 50 := by
      cases k <;>
        simp [PixelKind.InRange, PixelKind.minVal, PixelKind.maxVal, PixelKind.isSigned,
          PixelKind.bits]
    by_cases hqq : 2 * (line / 2) + col / 2 = q
    · simp only [if_pos hqq]
      rw [(avgNdv_eq k ndv _ _ _ _ hndv hndv hndv hndv hndv).1, ndvAverage_all_sentinel]
    · simp only [if_neg hqq]
      rw [(avgNdv_eq k ndv _ _ _ _ hndv h50r h50r h50r h50r).1, ndvAverage_fifty ndv h50]

/-- Witness of C6 as amended: bytes, sentinel `0`, the all-NoData parent tile
at the bottom right. -/
theorem scenarioB_overview_tile_witness :
    ∃ out, average PixelKind.GByte (fun b => b) true 0 (scenarioB 0 3) 4 4 = some out ∧
      ∀ line col, line < 4 → col < 4 →
        out[line * 4 + col]? = some (if 2 * (line / 2) + col / 2 = 3 then 0 else 50) :=
  scenarioB_overview_tile PixelKind.GByte (fun b => b) 0 3 (by decide) (by decide) (by decide)

/-- C6 as stated fails: with bytes, sentinel `0` and the top-left parent tile
all NoData, the overview tile the dispatch produces holds `0`, not `50`, in its
top-left 2x2 quadrant. -/
theorem scenarioB_quadrant_not_fifty :
    (average PixelKind.GByte (fun b => b) true 0 (scenarioB 0 0) 4 4).map (List.take 16) =
      some [0, 0, 50, 50, 0, 0, 50, 50, 50, 50, 50, 50, 50, 50, 50, 50] := by
  decide

/-! ## Tile rectangles and page counts -/

theorem tdiv_two_of_nonneg (x : Int) (h : 0 ≤ x) : Int.tdiv x 2 = x / 2 :=
  Int.tdiv_eq_ediv h (by norm_num)

theorem floor_half (x : Int) : ⌊((x : Int) : ℚ) / 2⌋ = x / 2 := by
  have h := Rat.floor_intCast_div_natCast x 2
  simpa using h

theorem ceil_half (x : Int) : ⌈((x : Int) : ℚ) / 2⌉ = x / 2 + x % 2 := by
  rw [Int.ceil_eq_iff]
  have h2 : (0 : ℚ) < 2 := by norm_num
  constructor
  · rw [lt_div_iff₀ h2]
    have h : (x / 2 + x % 2 - 1) * 2 < x := by omega
    exact_mod_cast h
  · rw [div_le_iff₀ h2]
    have h : x ≤ (x / 2 + x % 2) * 2 := by omega
    exact_mod_cast h

/-- C7. Parent-to-child rectangle mapping of `PatchOverview`: for a parent
origin `BlockX, BlockY ≥ 0` and extent `Width, Height ≥ 0`, the child origin is
`floor(BlockX/2)`, `floor(BlockY/2)` and the child extent is
`ceil((Width + BlockX mod 2) / 2)`, `ceil((Height + BlockY mod 2) / 2)`. -/
theorem PatchOverviewRect_floor_ceil (BlockX BlockY Width Height : Int)
    (hX : 0 ≤ BlockX) (hY : 0 ≤ BlockY) (hW : 0 ≤ Width) (hH : 0 ≤ Height) :
    (PatchOverviewRect BlockX BlockY Width Height).BlockXOut = ⌊(BlockX : ℚ) / 2⌋ ∧
    (PatchOverviewRect BlockX BlockY Width Height).BlockYOut = ⌊(BlockY : ℚ) / 2⌋ ∧
    (PatchOverviewRect BlockX BlockY Width Height).WidthOut =
      ⌈((Width + BlockX % 2 : Int) : ℚ) / 2⌉ ∧
    (PatchOverviewRect BlockX BlockY Width Height).HeightOut =
      ⌈((Height + BlockY % 2 : Int) : ℚ) / 2⌉ := by
  rw [floor_half, floor_half, ceil_half, ceil_half]
  simp only [PatchOverviewRect]
  rw [tdiv_two_of_nonneg BlockX hX, tdiv_two_of_nonneg BlockY hY,
    tdiv_two_of_nonneg (Width + BlockX % 2) (by omega),
    tdiv_two_of_nonneg (Height + BlockY % 2) (by omega)]
  exact ⟨rfl, rfl, rfl, rfl⟩

/-- Witness of C7: the parent rectangle at `(3, 4)` of `4 x 5` tiles. -/
theorem PatchOverviewRect_floor_ceil_witness :
    (PatchOverviewRect 3 4 4 5).BlockXOut = ⌊((3 : Int) : ℚ) / 2⌋ ∧
    (PatchOverviewRect 3 4 4 5).BlockYOut = ⌊((4 : Int) : ℚ) / 2⌋ ∧
    (PatchOverviewRect 3 4 4 5).WidthOut = ⌈((4 + 3 % 2 : Int) : ℚ) / 2⌉ ∧
    (PatchOverviewRect 3 4 4 5).HeightOut = ⌈((5 + 4 % 2 : Int) : ℚ) / 2⌉ :=
  PatchOverviewRect_floor_ceil 3 4 4 5 (by decide) (by decide) (by decide) (by decide)

theorem rect_cover_axis (B W p : Int) (hB : 0 ≤ B) (hW : 0 ≤ W) (h1 : B ≤ p) (h2 : p < B + W) :
    Int.tdiv B 2 ≤ p / 2 ∧
      p / 2 < Int.tdiv B 2 + (Int.tdiv (W + B % 2) 2 + (W + B % 2) % 2) := by
  rw [tdiv_two_of_nonneg B hB, tdiv_two_of_nonneg (W + B % 2) (by omega)]
  omega

/-- C8. The child rectangle covers every child tile touched: for a parent
rectangle with `BlockX, BlockY, Width, Height ≥ 0` and a parent tile `(p, r)`
inside it, the child tile `(floor(p/2), floor(r/2))` lies inside the child
rectangle `PatchOverview` computes, and is one of the tiles its tile loop
visits. -/
theorem PatchOverviewRect_covers (BlockX BlockY Width Height p r : Int)
    (hX : 0 ≤ BlockX) (hY : 0 ≤ BlockY) (hW : 0 ≤ Width) (hH : 0 ≤ Height)
    (hp1 : BlockX ≤ p) (hp2 : p < BlockX + Width) (hr1 : BlockY ≤ r) (hr2 : r < BlockY + Height) :
    ((PatchOverviewRect BlockX BlockY Width Height).BlockXOut ≤ p / 2 ∧
      p / 2 < (PatchOverviewRect BlockX BlockY Width Height).BlockXOut +
        (PatchOverviewRect BlockX BlockY Width Height).WidthOut) ∧
    ((PatchOverviewRect BlockX BlockY Width Height).BlockYOut ≤ r / 2 ∧
      r / 2 < (PatchOverviewRect BlockX BlockY Width Height).BlockYOut +
        (PatchOverviewRect BlockX BlockY Width Height).HeightOut) ∧
    (p / 2, r / 2) ∈ tileLoop (PatchOverviewRect BlockX BlockY Width Height) := by
  have hx := rect_cover_axis BlockX Width p hX hW hp1 hp2
  have hy := rect_cover_axis BlockY Height r hY hH hr1 hr2
  refine ⟨hx, hy, ?_⟩
  simp only [PatchOverviewRect] at hx hy
  have hyn : (r / 2 - Int.tdiv BlockY 2).toNat <
      (Int.tdiv (Height + BlockY % 2) 2 + (Height + BlockY % 2) % 2).toNat := by
    rw [Int.toNat_lt_toNat (by omega)]
    omega
  have hxn : (p / 2 - Int.tdiv BlockX 2).toNat <
      (Int.tdiv (Width + BlockX % 2) 2 + (Width + BlockX % 2) % 2).toNat := by
    rw [Int.toNat_lt_toNat (by omega)]
    omega
  have hxe : Int.tdiv BlockX 2 + ((p / 2 - Int.tdiv BlockX 2).toNat : Int) = p / 2 := by
    rw [Int.toNat_of_nonneg (by omega)]
    omega
  have hye : Int.tdiv BlockY 2 + ((r / 2 - Int.tdiv BlockY 2).toNat : Int) = r / 2 := by
    rw [Int.toNat_of_nonneg (by omega)]
    omega
  unfold tileLoop
  exact List.mem_flatMap.mpr ⟨_, List.mem_range.mpr hyn,
    List.mem_map.mpr ⟨_, List.mem_range.mpr hxn, by
      simp only [PatchOverviewRect, Int.ofNat_eq_coe]
      rw [hxe, hye]⟩⟩

/-- Witness of C8: parent tile `(5, 4)` of the rectangle at `(3, 4)` of
`4 x 5` tiles. -/
theorem PatchOverviewRect_covers_witness :
    ((PatchOverviewRect 3 4 4 5).BlockXOut ≤ (5 : Int) / 2 ∧
      (5 : Int) / 2 < (PatchOverviewRect 3 4 4 5).BlockXOut +
        (PatchOverviewRect 3 4 4 5).WidthOut) ∧
    ((PatchOverviewRect 3 4 4 5).BlockYOut ≤ (4 : Int) / 2 ∧
      (4 : Int) / 2 < (PatchOverviewRect 3 4 4 5).BlockYOut +
        (PatchOverviewRect 3 4 4 5).HeightOut) ∧
    ((5 : Int) / 2, (4 : Int) / 2) ∈ tileLoop (PatchOverviewRect 3 4 4 5) :=
  PatchOverviewRect_covers 3 4 4 5 5 4 (by decide) (by decide) (by decide) (by decide)
    (by decide) (by decide) (by decide) (by decide)

theorem pcount_eq_ediv (n sz : Int) (hn : 1 ≤ n) (hsz : 1 ≤ sz) :
    pcount n sz = 1 + (n - 1) / sz := by
  unfold pcount
  rw [Int.tdiv_eq_ediv (by omega) (by omega)]

theorem pcount_bounds (n sz : Int) (hn : 1 ≤ n) (hsz : 1 ≤ sz) :
    (pcount n sz - 1) * sz < n ∧ n ≤ pcount n sz * sz := by
  rw [pcount_eq_ediv n sz hn hsz]
  have h1 : (n - 1) / sz * sz ≤ n - 1 := Int.ediv_mul_le _ (by omega)
  have h2 : n - 1 < ((n - 1) / sz + 1) * sz := Int.lt_ediv_add_one_mul_self _ (by omega)
  constructor
  · have e : 1 + (n - 1) / sz - 1 = (n - 1) / sz := by ring
    rw [e]
    omega
  · have e : 1 + (n - 1) / sz = (n - 1) / sz + 1 := by ring
    rw [e]
    omega

/-- C9. `pcount(n, sz) = 1 + (n-1)/sz` is ceiling division: for `n ≥ 1` and
`sz ≥ 1` it equals `ceil(n / sz)`, and it is the least `k` with `k*sz ≥ n`. -/
theorem pcount_is_ceil (n sz : Int) (hn : 1 ≤ n) (hsz : 1 ≤ sz) :
    pcount n sz = ⌈(n : ℚ) / (sz : ℚ)⌉ ∧
      n ≤ pcount n sz * sz ∧ ∀ k : Int, n ≤ k * sz → pcount n sz ≤ k := by
  obtain ⟨h1, h2⟩ := pcount_bounds n sz hn hsz
  have hszq : (0 : ℚ) < (sz : ℚ) := by exact_mod_cast (by omega : (0 : Int) < sz)
  refine ⟨?_, h2, ?_⟩
  · symm
    rw [Int.ceil_eq_iff]
    constructor
    · rw [lt_div_iff₀ hszq]
      exact_mod_cast h1
    · rw [div_le_iff₀ hszq]
      exact_mod_cast h2
  · intro k hk
    by_contra hlt
    have hle : k ≤ pcount n sz - 1 := by omega
    have hmul : k * sz ≤ (pcount n sz - 1) * sz :=
      Int.mul_le_mul_of_nonneg_right hle (by omega)
    omega

/-- Witness of C9: 1000 elements in pages of 512. -/
theorem pcount_is_ceil_witness :
    pcount 1000 512 = ⌈((1000 : Int) : ℚ) / ((512 : Int) : ℚ)⌉ ∧
      (1000 : Int) ≤ pcount 1000 512 * 512 ∧ ∀ k : Int, 1000 ≤ k * 512 → pcount 1000 512 ≤ k :=
  pcount_is_ceil 1000 512 (by decide) (by decide)

theorem pcount_pos (n sz : Int) (hn : 1 ≤ n) (hsz : 1 ≤ sz) : 1 ≤ pcount n sz := by
  rw [pcount_eq_ediv n sz hn hsz]
  have h : 0 ≤ (n - 1) / sz := Int.ediv_nonneg (by omega) (by omega)
  omega

theorem mul32_chain (a b c d : Int) (ha : 1 ≤ a) (hb : 1 ≤ b) (hc : 1 ≤ c) (hd : 1 ≤ d)
    (hfit : a * b * c * d ≤ 2147483647) :
    mul32 (mul32 (mul32 a b) c) d = a * b * c * d := by
  have hab : 1 ≤ a * b := one_le_mul_of_one_le_of_one_le ha hb
  have habc : 1 ≤ a * b * c := one_le_mul_of_one_le_of_one_le hab hc
  have h3 : a * b * c ≤ a * b * c * d := le_mul_of_one_le_right (by omega) hd
  have h2 : a * b ≤ a * b * c := le_mul_of_one_le_right (by omega) hc
  unfold mul32
  rw [wrapSigned32_eq (a * b) (by omega) (by omega),
    wrapSigned32_eq (a * b * c) (by omega) (by omega),
    wrapSigned32_eq (a * b * c * d) (by omega) (by omega)]

/-- C10. Total tile count is consistent with the per-axis counts: for a raster
size and a tile size with all components `≥ 1` whose product of per-axis
counts fits the 32-bit signed `l` field, the `ILSize` returned by
`pcount(size, psz)` has `x, y, z, c` equal to the per-axis `pcount` and `l`
equal to the product `x*y*z*c`. -/
theorem ILSize_pcount_total (size psz : ILSize)
    (hsx : 1 ≤ size.x) (hsy : 1 ≤ size.y) (hsz : 1 ≤ size.z) (hsc : 1 ≤ size.c)
    (hpx : 1 ≤ psz.x) (hpy : 1 ≤ psz.y) (hpz : 1 ≤ psz.z) (hpc : 1 ≤ psz.c)
    (hfit : pcount size.x psz.x * pcount size.y psz.y * pcount size.z psz.z
      * pcount size.c psz.c ≤ 2147483647) :
    (size.pcount psz).x = pcount size.x psz.x ∧
    (size.pcount psz).y = pcount size.y psz.y ∧
    (size.pcount psz).z = pcount size.z psz.z ∧
    (size.pcount psz).c = pcount size.c psz.c ∧
    (size.pcount psz).l =
      (size.pcount psz).x * (size.pcount psz).y * (size.pcount psz).z * (size.pcount psz).c := by
  refine ⟨rfl, rfl, rfl, rfl, ?_⟩
  simp only [ILSize.pcount]
  exact mul32_chain _ _ _ _ (pcount_pos _ _ hsx hpx) (pcount_pos _ _ hsy hpy)
    (pcount_pos _ _ hsz hpz) (pcount_pos _ _ hsc hpc) hfit

/-- Witness of C10: a 1000 x 1000 raster of 3 bands in tiles of 512 x 512
with 1 band. -/
theorem ILSize_pcount_total_witness :
    (ILSize.pcount { x := 1000, y := 1000, z := 1, c := 3 }
        { x := 512, y := 512, z := 1, c := 1 }).x = pcount 1000 512 ∧
    (ILSize.pcount { x := 1000, y := 1000, z := 1, c := 3 }
        { x := 512, y := 512, z := 1, c := 1 }).y = pcount 1000 512 ∧
    (ILSize.pcount { x := 1000, y := 1000, z := 1, c := 3 }
        { x := 512, y := 512, z := 1, c := 1 }).z = pcount 1 1 ∧
    (ILSize.pcount { x := 1000, y := 1000, z := 1, c := 3 }
        { x := 512, y := 512, z := 1, c := 1 }).c = pcount 3 1 ∧
    (ILSize.pcount { x := 1000, y := 1000, z := 1, c := 3 }
        { x := 512, y := 512, z := 1, c := 1 }).l =
      (ILSize.pcount { x := 1000, y := 1000, z := 1, c := 3 }
          { x := 512, y := 512, z := 1, c := 1 }).x *
        (ILSize.pcount { x := 1000, y := 1000, z := 1, c := 3 }
          { x := 512, y := 512, z := 1, c := 1 }).y *
        (ILSize.pcount { x := 1000, y := 1000, z := 1, c := 3 }
          { x := 512, y := 512, z := 1, c := 1 }).z *
        (ILSize.pcount { x := 1000, y := 1000, z := 1, c := 3 }
          { x := 512, y := 512, z := 1, c := 1 }).c :=
  ILSize_pcount_total { x := 1000, y := 1000, z := 1, c := 3 }
    { x := 512, y := 512, z := 1, c := 1 } (by decide) (by decide) (by decide) (by decide)
    (by decide) (by decide) (by decide) (by decide) (by decide)

/-! ## No wrap-around and no lossy narrowing in the integer kernels -/

theorem wrapSigned_of_inAcc32 (v : Int) (h : InAcc 32 v) : wrapSigned 32 v = v := by
  obtain ⟨h1, h2⟩ := h
  norm_num at h1 h2
  exact wrapSigned32_eq v h1 h2

theorem wrapSigned_of_inAcc64 (v : Int) (h : InAcc 64 v) : wrapSigned 64 v = v := by
  obtain ⟨h1, h2⟩ := h
  norm_num at h1 h2
  exact wrapSigned64_eq v h1 h2

theorem inAcc32_of_bounds (v : Int) (h1 : -2147483648 ≤ v) (h2 : v ≤ 2147483647) :
    InAcc 32 v := by
  unfold InAcc
  norm_num
  omega

theorem inAcc64_of_bounds (v : Int) (h1 : -9223372036854775808 ≤ v)
    (h2 : v ≤ 9223372036854775807) : InAcc 64 v := by
  unfold InAcc
  norm_num
  omega

/-- Partial sums of at most five terms, the first `0` or `2` and the others
samples of the kind, fit the fast-path accumulator of the kind. -/
theorem inAcc_fast (k : PixelKind) (s : Int) (hs1 : 4 * k.minVal ≤ s) (hs2 : s ≤ 2 + 4 * k.maxVal) :
    InAcc k.accBits s := by
  cases k <;>
    simp [PixelKind.minVal, PixelKind.maxVal, PixelKind.isSigned, PixelKind.bits] at hs1 hs2 <;>
    simp only [PixelKind.accBits, InAcc] <;> norm_num <;> omega

theorem useExact_bounds (ndv v : Int) (st : Int × Int) (lo hi n : Int)
    (hv1 : lo ≤ v) (hv2 : v ≤ hi) (hlo : lo ≤ 0) (hhi : 0 ≤ hi)
    (h1 : n * lo ≤ st.1) (h2 : st.1 ≤ n * hi) (h3 : 0 ≤ st.2) (h4 : st.2 ≤ n) :
    (n + 1) * lo ≤ (useExact ndv st v).1 ∧ (useExact ndv st v).1 ≤ (n + 1) * hi ∧
      0 ≤ (useExact ndv st v).2 ∧ (useExact ndv st v).2 ≤ n + 1 := by
  have e1 : (n + 1) * lo = n * lo + lo := by ring
  have e2 : (n + 1) * hi = n * hi + hi := by ring
  unfold useExact
  split
  · simp only
    omega
  · omega

theorem use_eq_useExact (ndv v : Int) (st : Int × Int) (hv1 : -2147483648 ≤ v)
    (hv2 : v ≤ 4294967295) (hacc1 : -8589934592 ≤ st.1) (hacc2 : st.1 ≤ 17179869184)
    (hc1 : 0 ≤ st.2) (hc2 : st.2 ≤ 3) : use ndv st v = useExact ndv st v := by
  rw [use_spec ndv v st hv1 hv2 hacc1 hacc2 hc1 hc2]
  unfold useExact
  split <;> simp

theorem useExact4_eq (ndv a b c d : Int) :
    useExact ndv (useExact ndv (useExact ndv (useExact ndv (0, 0) a) b) c) d =
      ((validSamples ndv a b c d).sum, ((validSamples ndv a b c d).length : Int)) := by
  unfold useExact validSamples
  by_cases ea : a = ndv <;> by_cases eb : b = ndv <;> by_cases ec : c = ndv <;>
    by_cases ed : d = ndv <;> simp [ea, eb, ec, ed] <;> omega

/-- C15. No overflow and no lossy narrowing in the integer kernels, for every
integer kind and every four samples (and sentinel) of the kind.  Fast path:
each partial sum of `2 + a + b + c + d` is representable in the accumulator
(`int`, or `GIntBig` for the 32-bit kinds), so the wrapped additions give the
exact sum, and the quotient by 4 is a value of the kind that the store leaves
unchanged.  NoData-aware path: each `use` step is the exact one, every
accumulated sum and `acc + count/2` are representable in the `GIntBig`
accumulator and the count in an `int`, and the value stored is a value of the
kind that the store leaves unchanged. -/
theorem kernels_no_overflow (k : PixelKind) (ndv a b c d : Int) (hn : k.InRange ndv)
    (ha : k.InRange a) (hb : k.InRange b) (hc : k.InRange c) (hd : k.InRange d) :
    (InAcc k.accBits (2 + a) ∧ InAcc k.accBits (2 + a + b) ∧ InAcc k.accBits (2 + a + b + c) ∧
      InAcc k.accBits (2 + a + b + c + d) ∧
      addW k.accBits (addW k.accBits (addW k.accBits (addW k.accBits 2 a) b) c) d =
        2 + a + b + c + d ∧
      k.InRange (Int.tdiv (2 + a + b + c + d) 4) ∧
      k.cast (Int.tdiv (2 + a + b + c + d) 4) = Int.tdiv (2 + a + b + c + d) 4 ∧
      avg4 k a b c d = Int.tdiv (2 + a + b + c + d) 4) ∧
    (use ndv (0, 0) a = useExact ndv (0, 0) a ∧
      use ndv (useExact ndv (0, 0) a) b = useExact ndv (useExact ndv (0, 0) a) b ∧
      use ndv (useExact ndv (useExact ndv (0, 0) a) b) c =
        useExact ndv (useExact ndv (useExact ndv (0, 0) a) b) c ∧
      use ndv (useExact ndv (useExact ndv (useExact ndv (0, 0) a) b) c) d =
        useExact ndv (useExact ndv (useExact ndv (useExact ndv (0, 0) a) b) c) d ∧
      InAcc 64 (useExact ndv (0, 0) a).1 ∧
      InAcc 64 (useExact ndv (useExact ndv (0, 0) a) b).1 ∧
      InAcc 64 (useExact ndv (useExact ndv (useExact ndv (0, 0) a) b) c).1 ∧
      InAcc 64 (validSamples ndv a b c d).sum ∧
      InAcc 32 ((validSamples ndv a b c d).length : Int) ∧
      InAcc 64 ((validSamples ndv a b c d).sum +
        Int.tdiv ((validSamples ndv a b c d).length : Int) 2) ∧
      addW 64 (validSamples ndv a b c d).sum (Int.tdiv ((validSamples ndv a b c d).length : Int) 2)
        = (validSamples ndv a b c d).sum + Int.tdiv ((validSamples ndv a b c d).length : Int) 2 ∧
      k.InRange (ndvAverage ndv a b c d) ∧
      k.cast (ndvAverage ndv a b c d) = ndvAverage ndv a b c d ∧
      avgNdv k ndv a b c d = ndvAverage ndv a b c d) := by
  obtain ⟨f1, f2, f3, f4⟩ := k.range_facts
  have hfast := avg4_eq k a b c d ha hb hc hd
  have hnd := avgNdv_eq k ndv a b c d hn ha hb hc hd
  obtain ⟨ha1, ha2⟩ := ha
  obtain ⟨hb1, hb2⟩ := hb
  obtain ⟨hc1, hc2⟩ := hc
  obtain ⟨hd1, hd2⟩ := hd
  have p1 := inAcc_fast k (2 + a) (by omega) (by omega)
  have p2 := inAcc_fast k (2 + a + b) (by omega) (by omega)
  have p3 := inAcc_fast k (2 + a + b + c) (by omega) (by omega)
  have p4 := inAcc_fast k (2 + a + b + c + d) (by omega) (by omega)
  have hsum : addW k.accBits (addW k.accBits (addW k.accBits (addW k.accBits 2 a) b) c) d =
      2 + a + b + c + d := by
    unfold addW
    cases k
    all_goals
      simp only [PixelKind.accBits] at p1 p2 p3 p4 ⊢
      first
        | rw [wrapSigned_of_inAcc32 _ p1, wrapSigned_of_inAcc32 _ p2, wrapSigned_of_inAcc32 _ p3,
            wrapSigned_of_inAcc32 _ p4]
        | rw [wrapSigned_of_inAcc64 _ p1, wrapSigned_of_inAcc64 _ p2, wrapSigned_of_inAcc64 _ p3,
            wrapSigned_of_inAcc64 _ p4]
  refine ⟨⟨p1, p2, p3, p4, hsum, hfast.2, k.cast_of_inRange _ hfast.2, hfast.1⟩, ?_⟩
  have b1 := useExact_bounds ndv a (0, 0) (-2147483648) 4294967295 0 (by omega) (by omega)
    (by norm_num) (by norm_num) (by norm_num) (by norm_num) (by norm_num) (by norm_num)
  have b2 := useExact_bounds ndv b (useExact ndv (0, 0) a) (-2147483648) 4294967295 (0 + 1)
    (by omega) (by omega) (by norm_num) (by norm_num) b1.1 b1.2.1 b1.2.2.1 b1.2.2.2
  have b3 := useExact_bounds ndv c (useExact ndv (useExact ndv (0, 0) a) b) (-2147483648)
    4294967295 (0 + 1 + 1) (by omega) (by omega) (by norm_num) (by norm_num) b2.1 b2.2.1
    b2.2.2.1 b2.2.2.2
  have b4 := useExact_bounds ndv d (useExact ndv (useExact ndv (useExact ndv (0, 0) a) b) c)
    (-2147483648) 4294967295 (0 + 1 + 1 + 1) (by omega) (by omega) (by norm_num) (by norm_num)
    b3.1 b3.2.1 b3.2.2.1 b3.2.2.2
  rw [useExact4_eq] at b4
  simp only at b4
  obtain ⟨c1, c2, c3, c4⟩ := b4
  have hhalf : 0 ≤ Int.tdiv ((validSamples ndv a b c d).length : Int) 2 ∧
      Int.tdiv ((validSamples ndv a b c d).length : Int) 2 ≤ 2 := by
    rw [tdiv_eq_ite _ 2 (by norm_num)]
    split <;> omega
  have q : InAcc 64 ((validSamples ndv a b c d).sum +
      Int.tdiv ((validSamples ndv a b c d).length : Int) 2) := by
    exact inAcc64_of_bounds _ (by omega) (by omega)
  refine ⟨?_, ?_, ?_, ?_, ?_, ?_, ?_, ?_, ?_, q, ?_, hnd.2, k.cast_of_inRange _ hnd.2, hnd.1⟩
  · exact use_eq_useExact ndv a (0, 0) (by omega) (by omega) (by norm_num) (by norm_num)
      (by norm_num) (by norm_num)
  · exact use_eq_useExact ndv b _ (by omega) (by omega) (by omega) (by omega) (by omega)
      (by omega)
  · exact use_eq_useExact ndv c _ (by omega) (by omega) (by omega) (by omega) (by omega)
      (by omega)
  · exact use_eq_useExact ndv d _ (by omega) (by omega) (by omega) (by omega) (by omega)
      (by omega)
  · exact inAcc64_of_bounds _ (by omega) (by omega)
  · exact inAcc64_of_bounds _ (by omega) (by omega)
  · exact inAcc64_of_bounds _ (by omega) (by omega)
  · exact inAcc64_of_bounds _ (by omega) (by omega)
  · exact inAcc32_of_bounds _ (by omega) (by omega)
  · unfold addW
    exact wrapSigned_of_inAcc64 _ q

/-- Witness of C15: 32-bit unsigned samples at the top of their range, with
sentinel `0`. -/
theorem kernels_no_overflow_witness :
    (InAcc PixelKind.GUInt32.accBits (2 + 4294967295) ∧
      InAcc PixelKind.GUInt32.accBits (2 + 4294967295 + 4294967295) ∧
      InAcc PixelKind.GUInt32.accBits (2 + 4294967295 + 4294967295 + 4294967295) ∧
      InAcc PixelKind.GUInt32.accBits (2 + 4294967295 + 4294967295 + 4294967295 + 4294967294) ∧
      addW PixelKind.GUInt32.accBits (addW PixelKind.GUInt32.accBits
        (addW PixelKind.GUInt32.accBits (addW PixelKind.GUInt32.accBits 2 4294967295) 4294967295)
        4294967295) 4294967294 = 2 + 4294967295 + 4294967295 + 4294967295 + 4294967294 ∧
      PixelKind.GUInt32.InRange
        (Int.tdiv (2 + 4294967295 + 4294967295 + 4294967295 + 4294967294) 4) ∧
      PixelKind.GUInt32.cast (Int.tdiv (2 + 4294967295 + 4294967295 + 4294967295 + 4294967294) 4)
        = Int.tdiv (2 + 4294967295 + 4294967295 + 4294967295 + 4294967294) 4 ∧
      avg4 PixelKind.GUInt32 4294967295 4294967295 4294967295 4294967294 =
        Int.tdiv (2 + 4294967295 + 4294967295 + 4294967295 + 4294967294) 4) ∧
    (use 0 (0, 0) 4294967295 = useExact 0 (0, 0) 4294967295 ∧
      use 0 (useExact 0 (0, 0) 4294967295) 4294967295 =
        useExact 0 (useExact 0 (0, 0) 4294967295) 4294967295 ∧
      use 0 (useExact 0 (useExact 0 (0, 0) 4294967295) 4294967295) 4294967295 =
        useExact 0 (useExact 0 (useExact 0 (0, 0) 4294967295) 4294967295) 4294967295 ∧
      use 0 (useExact 0 (useExact 0 (useExact 0 (0, 0) 4294967295) 4294967295) 4294967295)
          4294967294 =
        useExact 0 (useExact 0 (useExact 0 (useExact 0 (0, 0) 4294967295) 4294967295) 4294967295)
          4294967294 ∧
      InAcc 64 (useExact 0 (0, 0) 4294967295).1 ∧
      InAcc 64 (useExact 0 (useExact 0 (0, 0) 4294967295) 4294967295).1 ∧
      InAcc 64 (useExact 0 (useExact 0 (useExact 0 (0, 0) 4294967295) 4294967295) 4294967295).1 ∧
      InAcc 64 (validSamples 0 4294967295 4294967295 4294967295 4294967294).sum ∧
      InAcc 32 ((validSamples 0 4294967295 4294967295 4294967295 4294967294).length : Int) ∧
      InAcc 64 ((validSamples 0 4294967295 4294967295 4294967295 4294967294).sum +
        Int.tdiv ((validSamples 0 4294967295 4294967295 4294967295 4294967294).length : Int) 2) ∧
      addW 64 (validSamples 0 4294967295 4294967295 4294967295 4294967294).sum
          (Int.tdiv ((validSamples 0 4294967295 4294967295 4294967295 4294967294).length : Int) 2)
        = (validSamples 0 4294967295 4294967295 4294967295 4294967294).sum +
          Int.tdiv ((validSamples 0 4294967295 4294967295 4294967295 4294967294).length : Int) 2 ∧
      PixelKind.GUInt32.InRange (ndvAverage 0 4294967295 4294967295 4294967295 4294967294) ∧
      PixelKind.GUInt32.cast (ndvAverage 0 4294967295 4294967295 4294967295 4294967294) =
        ndvAverage 0 4294967295 4294967295 4294967295 4294967294 ∧
      avgNdv PixelKind.GUInt32 0 4294967295 4294967295 4294967295 4294967294 =
        ndvAverage 0 4294967295 4294967295 4294967295 4294967294) :=
  kernels_no_overflow PixelKind.GUInt32 0 4294967295 4294967295 4294967295 4294967294
    (by decide) (by decide) (by decide) (by decide) (by decide)

/-! ## Byte order -/

theorem byteAt_concat_low (a b k i : Nat) (hb : b < 256 ^ k) (hi : i < k) :
    byteAt (a * 256 ^ k + b) i = byteAt b i := by
  unfold byteAt
  obtain ⟨j, rfl⟩ : ∃ j, k = i + (j + 1) := ⟨k - i - 1, by omega⟩
  have hpos : 0 < 256 ^ i := pow_pos (by norm_num) _
  have e : a * 256 ^ (i + (j + 1)) + b = b + a * 256 ^ j * 256 * 256 ^ i := by
    rw [pow_add, pow_succ]
    ring
  rw [e, Nat.add_mul_div_right _ _ hpos, Nat.add_mul_mod_self_right]

theorem byteAt_concat_high (a b k i : Nat) (hb : b < 256 ^ k) (hi : k ≤ i) :
    byteAt (a * 256 ^ k + b) i = byteAt a (i - k) := by
  unfold byteAt
  obtain ⟨j, rfl⟩ : ∃ j, i = k + j := ⟨i - k, by omega⟩
  have hpos : 0 < 256 ^ k := pow_pos (by norm_num) _
  have e : (a * 256 ^ k + b) / 256 ^ k = a := by
    rw [Nat.add_comm, Nat.add_mul_div_right _ _ hpos, Nat.div_eq_of_lt hb, Nat.zero_add]
  rw [pow_add, ← Nat.div_div_eq_div_mul, e, Nat.add_sub_cancel_left]

theorem byteAt_mod (x k i : Nat) (hi : i < k) : byteAt (x % 256 ^ k) i = byteAt x i := by
  have h := byteAt_concat_low (x / 256 ^ k) (x % 256 ^ k) k i
    (Nat.mod_lt _ (pow_pos (by norm_num) _)) hi
  rw [Nat.div_add_mod'] at h
  exact h.symm

theorem byteAt_div (x k i : Nat) : byteAt (x / 256 ^ k) i = byteAt x (i + k) := by
  have h := byteAt_concat_high (x / 256 ^ k) (x % 256 ^ k) k (i + k)
    (Nat.mod_lt _ (pow_pos (by norm_num) _)) (by omega)
  rw [Nat.div_add_mod', Nat.add_sub_cancel] at h
  exact h.symm

/-- A function on `w`-byte values reverses the byte order, stays within `w`
bytes, and is its own inverse. -/
structure ByteReversal (w : Nat) (f : Nat → Nat) : Prop where
  lt : ∀ x, x < 256 ^ w → f x < 256 ^ w
  bytes : ∀ x, x < 256 ^ w → ∀ i, i < w → byteAt (f x) i = byteAt x (w - 1 - i)
  invol : ∀ x, x < 256 ^ w → f (f x) = x

/-- Swapping the two halves of a `2w`-byte value, each reversed by `f`,
reverses the `2w` bytes. -/
theorem ByteReversal.double (w : Nat) (f g : Nat → Nat) (hf : ByteReversal w f)
    (hg : ∀ x, x < 256 ^ (w + w) → g x = f (x % 256 ^ w) * 256 ^ w + f (x / 256 ^ w)) :
    ByteReversal (w + w) g := by
  have hpos : 0 < 256 ^ w := pow_pos (by norm_num) _
  have hlo : ∀ x, x % 256 ^ w < 256 ^ w := fun x => Nat.mod_lt _ hpos
  have hhi : ∀ x, x < 256 ^ (w + w) → x / 256 ^ w < 256 ^ w := by
    intro x hx
    rw [Nat.div_lt_iff_lt_mul hpos, ← pow_add]
    exact hx
  have hlt : ∀ x, x < 256 ^ (w + w) → g x < 256 ^ (w + w) := by
    intro x hx
    rw [hg x hx, pow_add]
    have h1 := hf.lt _ (hlo x)
    have h2 := hf.lt _ (hhi x hx)
    calc f (x % 256 ^ w) * 256 ^ w + f (x / 256 ^ w)
        < f (x % 256 ^ w) * 256 ^ w + 256 ^ w := by omega
      _ = (f (x % 256 ^ w) + 1) * 256 ^ w := by ring
      _ ≤ 256 ^ w * 256 ^ w := Nat.mul_le_mul_right _ h1
  refine ⟨hlt, ?_, ?_⟩
  · intro x hx i hi
    rw [hg x hx]
    by_cases hiw : i < w
    · rw [byteAt_concat_low _ _ _ _ (hf.lt _ (hhi x hx)) hiw, hf.bytes _ (hhi x hx) i hiw,
        byteAt_div]
      congr 1
      omega
    · rw [byteAt_concat_high _ _ _ _ (hf.lt _ (hhi x hx)) (by omega),
        hf.bytes _ (hlo x) (i - w) (by omega), byteAt_mod _ _ _ (by omega)]
      congr 1
      omega
  · intro x hx
    have h1 := hf.lt _ (hlo x)
    have h2 := hf.lt _ (hhi x hx)
    rw [hg (g x) (hlt x hx), hg x hx]
    have e1 : (f (x % 256 ^ w) * 256 ^ w + f (x / 256 ^ w)) % 256 ^ w = f (x / 256 ^ w) := by
      rw [Nat.add_comm, Nat.add_mul_mod_self_right, Nat.mod_eq_of_lt h2]
    have e2 : (f (x % 256 ^ w) * 256 ^ w + f (x / 256 ^ w)) / 256 ^ w = f (x % 256 ^ w) := by
      rw [Nat.add_comm, Nat.add_mul_div_right _ _ hpos, Nat.div_eq_of_lt h2, Nat.zero_add]
    rw [e1, e2, hf.invol _ (hhi x hx), hf.invol _ (hlo x)]
    exact Nat.div_add_mod' x (256 ^ w)

theorem swab16_eq (x : Nat) (hx : x < 256 ^ 2) : swab16 x = x % 256 * 256 + x / 256 := by
  have hx1 : x < 65536 := by
    norm_num at hx
    exact hx
  unfold swab16
  have h1 : x >>> 8 < 2 ^ 8 := by
    rw [Nat.shiftRight_eq_div_pow]
    norm_num
    omega
  rw [Nat.shiftLeft_eq, Nat.mul_comm x (2 ^ 8), ← Nat.mul_add_lt_is_or h1,
    Nat.shiftRight_eq_div_pow]
  norm_num
  omega

theorem swab16_reverses : ByteReversal 2 swab16 := by
  have hone : ByteReversal 1 (fun x => x) :=
    ⟨fun x hx => hx, fun x _ i hi => by
      have : i = 0 := by omega
      subst this
      rfl, fun x _ => rfl⟩
  apply ByteReversal.double 1 (fun x => x) swab16 hone
  intro x hx
  rw [swab16_eq x hx]
  norm_num

theorem swab32_eq (x : Nat) (hx : x < 256 ^ (2 + 2)) :
    swab32 x = swab16 (x % 256 ^ 2) * 256 ^ 2 + swab16 (x / 256 ^ 2) := by
  have hx1 : x < 4294967296 := by
    norm_num at hx
    exact hx
  have e16 : (256 : Nat) ^ 2 = 2 ^ 16 := by norm_num
  rw [e16]
  have hpos : 0 < 2 ^ 16 := pow_pos (by norm_num) _
  have h1 := swab16_reverses.lt (x % 2 ^ 16) (by rw [e16]; exact Nat.mod_lt _ hpos)
  have hdiv : x / 2 ^ 16 < 2 ^ 16 := by
    norm_num
    omega
  have h2 := swab16_reverses.lt (x / 2 ^ 16) (by rw [e16]; exact hdiv)
  rw [e16] at h1 h2
  have hsmall : swab16 (x % 2 ^ 16) * 2 ^ 16 < 2 ^ 32 := by
    norm_num at h1 ⊢
    omega
  unfold swab32
  rw [Nat.shiftRight_eq_div_pow, Nat.shiftLeft_eq, Nat.mod_eq_of_lt hdiv,
    Nat.mod_eq_of_lt hsmall, Nat.mul_comm _ (2 ^ 16), ← Nat.mul_add_lt_is_or h2]

theorem swab32_reverses : ByteReversal (2 + 2) swab32 :=
  ByteReversal.double 2 swab16 swab32 swab16_reverses swab32_eq

theorem swab64_eq (x : Nat) (hx : x < 256 ^ (2 + 2 + (2 + 2))) :
    swab64 x = swab32 (x % 256 ^ (2 + 2)) * 256 ^ (2 + 2) + swab32 (x / 256 ^ (2 + 2)) := by
  have hx1 : x < 18446744073709551616 := by
    norm_num at hx
    exact hx
  have e32 : (256 : Nat) ^ (2 + 2) = 2 ^ 32 := by norm_num
  rw [e32]
  have hpos : 0 < 2 ^ 32 := pow_pos (by norm_num) _
  have h1 := swab32_reverses.lt (x % 2 ^ 32) (by rw [e32]; exact Nat.mod_lt _ hpos)
  have hdiv : x / 2 ^ 32 < 2 ^ 32 := by
    norm_num
    omega
  have h2 := swab32_reverses.lt (x / 2 ^ 32) (by rw [e32]; exact hdiv)
  rw [e32] at h1 h2
  have hsmall : swab32 (x % 2 ^ 32) * 2 ^ 32 < 2 ^ 64 := by
    norm_num at h1 ⊢
    omega
  unfold swab64
  rw [Nat.shiftRight_eq_div_pow, Nat.shiftLeft_eq, Nat.mod_eq_of_lt hdiv,
    Nat.mod_eq_of_lt hsmall, Nat.mul_comm _ (2 ^ 32), ← Nat.mul_add_lt_is_or h2]

theorem swab64_reverses : ByteReversal (2 + 2 + (2 + 2)) swab64 :=
  ByteReversal.double (2 + 2) swab32 swab64 swab32_reverses swab64_eq

/-- C17. Canonical byte order conversion: `swab16`, `swab32` and `swab64`
reverse the byte order of their argument (byte `i` of the result is byte
`w-1-i` of the argument, `w = 2, 4, 8`); `net64` is `swab64` on a
little-endian host, the bytes of `net64(x)` in memory are the big-endian
representation of `x` on either host, and applying `net64` twice returns the
original value. -/
theorem swab_reverses_bytes (x16 x32 x64 : Nat) (h16 : x16 < 2 ^ 16) (h32 : x32 < 2 ^ 32)
    (h64 : x64 < 2 ^ 64) :
    (∀ i, i < 2 → byteAt (swab16 x16) i = byteAt x16 (2 - 1 - i)) ∧
    (∀ i, i < 4 → byteAt (swab32 x32) i = byteAt x32 (4 - 1 - i)) ∧
    (∀ i, i < 8 → byteAt (swab64 x64) i = byteAt x64 (8 - 1 - i)) ∧
    net64 false x64 = swab64 x64 ∧
    (∀ host, memBytes host 8 (net64 host x64) = bigEndianBytes 8 x64) ∧
    (∀ host, net64 host (net64 host x64) = x64) := by
  have g16 : x16 < 256 ^ 2 := by
    norm_num at h16 ⊢
    exact h16
  have g32 : x32 < 256 ^ (2 + 2) := by
    norm_num at h32 ⊢
    exact h32
  have g64 : x64 < 256 ^ (2 + 2 + (2 + 2)) := by
    norm_num at h64 ⊢
    exact h64
  have b64 := swab64_reverses.bytes x64 g64
  refine ⟨swab16_reverses.bytes x16 g16, swab32_reverses.bytes x32 g32, b64, rfl, ?_, ?_⟩
  · intro host
    have hr : List.range 8 = [0, 1, 2, 3, 4, 5, 6, 7] := by decide
    cases host
    · simp only [memBytes, net64, bigEndianBytes, hr, List.map, List.reverse_cons,
        List.reverse_nil, List.nil_append, List.cons_append, Bool.false_eq_true, if_false]
      rw [b64 0 (by norm_num), b64 1 (by norm_num), b64 2 (by norm_num), b64 3 (by norm_num),
        b64 4 (by norm_num), b64 5 (by norm_num), b64 6 (by norm_num), b64 7 (by norm_num)]
    · simp only [memBytes, net64, bigEndianBytes, if_true]
  · intro host
    cases host
    · simp only [net64, Bool.false_eq_true, if_false]
      exact swab64_reverses.invol x64 g64
    · simp only [net64, if_true]

/-- Witness of C17: the values `0x1234`, `0x12345678` and
`0x0102030405060708`. -/
theorem swab_reverses_bytes_witness :
    (∀ i, i < 2 → byteAt (swab16 4660) i = byteAt 4660 (2 - 1 - i)) ∧
    (∀ i, i < 4 → byteAt (swab32 305419896) i = byteAt 305419896 (4 - 1 - i)) ∧
    (∀ i, i < 8 → byteAt (swab64 72623859790382856) i = byteAt 72623859790382856 (8 - 1 - i)) ∧
    net64 false 72623859790382856 = swab64 72623859790382856 ∧
    (∀ host, memBytes host 8 (net64 host 72623859790382856) =
      bigEndianBytes 8 72623859790382856) ∧
    (∀ host, net64 host (net64 host 72623859790382856) = 72623859790382856) :=
  swab_reverses_bytes 4660 305419896 72623859790382856 (by decide) (by decide) (by decide)

/-! ## Index slots -/

theorem radix_range (A R a r : Int) (ha1 : 0 ≤ a) (ha2 : a < A) (hr1 : 0 ≤ r) (hr2 : r < R) :
    0 ≤ a + A * r ∧ a + A * r < A * R := by
  have h1 : 0 ≤ A * r := Int.mul_nonneg (by omega) hr1
  have h2 : A * r ≤ A * (R - 1) := Int.mul_le_mul_of_nonneg_left (by omega) (by omega)
  have e : A * (R - 1) = A * R - A := by ring
  omega

theorem radix_inj (A a r b s : Int) (ha1 : 0 ≤ a) (ha2 : a < A) (hb1 : 0 ≤ b) (hb2 : b < A)
    (h : a + A * r = b + A * s) : a = b ∧ r = s := by
  have e1 : (a + A * r) % A = a := by
    rw [Int.add_mul_emod_self_left, Int.emod_eq_of_lt ha1 ha2]
  have e2 : (b + A * s) % A = b := by
    rw [Int.add_mul_emod_self_left, Int.emod_eq_of_lt hb1 hb2]
  have hab : a = b := by
    rw [← e1, ← e2, h]
  refine ⟨hab, ?_⟩
  have h3 : A * r = A * s := by omega
  exact Int.eq_of_mul_eq_mul_left (by omega) h3

theorem radix_split (A R s : Int) (hA : 0 ≤ A) (h0 : 0 ≤ s) (h1 : s < A * R) :
    (0 ≤ s % A ∧ s % A < A) ∧ (0 ≤ s / A ∧ s / A < R) ∧ s % A + A * (s / A) = s := by
  have hApos : 0 < A := by
    by_contra h
    have hz : A = 0 := by omega
    rw [hz, Int.zero_mul] at h1
    omega
  refine ⟨⟨Int.emod_nonneg _ (by omega), Int.emod_lt_of_pos _ hApos⟩,
    ⟨Int.ediv_nonneg h0 hA, ?_⟩, Int.emod_add_ediv s A⟩
  apply Int.ediv_lt_of_lt_mul hApos
  rw [Int.mul_comm]
  exact h1

theorem idxSlot_eq (pos : ILSize) (img : ILImage) :
    idxSlot pos img =
      pos.x + img.pagecount.x * (pos.y + img.pagecount.y * (pos.z + img.pagecount.z * pos.c)) := by
  unfold idxSlot IdxOffset
  rw [add_sub_cancel_left]
  exact Int.mul_ediv_cancel_left _ (by norm_num)

/-- C18. The index slot is a bijection from the in-bounds grid coordinates
onto the contiguous range `[0, totalTiles)`: distinct in-bounds coordinates
have distinct slots, every slot of an in-bounds coordinate lies in the range,
and every slot of the range is the slot of an in-bounds coordinate. -/
theorem IdxOffset_bijection (img : ILImage) (hx : 0 ≤ img.pagecount.x) (hy : 0 ≤ img.pagecount.y)
    (hz : 0 ≤ img.pagecount.z) :
    (∀ p q, InGrid p img → InGrid q img → idxSlot p img = idxSlot q img →
      p.x = q.x ∧ p.y = q.y ∧ p.z = q.z ∧ p.c = q.c) ∧
    (∀ p, InGrid p img → 0 ≤ idxSlot p img ∧
      idxSlot p img < img.pagecount.x * img.pagecount.y * img.pagecount.z * img.pagecount.c) ∧
    (∀ s, 0 ≤ s →
      s < img.pagecount.x * img.pagecount.y * img.pagecount.z * img.pagecount.c →
      ∃ p, InGrid p img ∧ idxSlot p img = s) := by
  have etot : img.pagecount.x * img.pagecount.y * img.pagecount.z * img.pagecount.c =
      img.pagecount.x * (img.pagecount.y * (img.pagecount.z * img.pagecount.c)) := by ring
  refine ⟨?_, ?_, ?_⟩
  · intro p q hp hq h
    rw [idxSlot_eq, idxSlot_eq] at h
    obtain ⟨⟨px1, px2⟩, ⟨py1, py2⟩, ⟨pz1, pz2⟩, _⟩ := hp
    obtain ⟨⟨qx1, qx2⟩, ⟨qy1, qy2⟩, ⟨qz1, qz2⟩, _⟩ := hq
    obtain ⟨ex, h⟩ := radix_inj _ _ _ _ _ px1 px2 qx1 qx2 h
    obtain ⟨ey, h⟩ := radix_inj _ _ _ _ _ py1 py2 qy1 qy2 h
    obtain ⟨ez, ec⟩ := radix_inj _ _ _ _ _ pz1 pz2 qz1 qz2 h
    exact ⟨ex, ey, ez, ec⟩
  · intro p hp
    rw [idxSlot_eq, etot]
    obtain ⟨⟨px1, px2⟩, ⟨py1, py2⟩, ⟨pz1, pz2⟩, ⟨pc1, pc2⟩⟩ := hp
    have hzc := radix_range _ _ _ _ pz1 pz2 pc1 pc2
    have hyzc := radix_range _ _ _ _ py1 py2 hzc.1 hzc.2
    exact radix_range _ _ _ _ px1 px2 hyzc.1 hyzc.2
  · intro s hs0 hs1
    rw [etot] at hs1
    obtain ⟨sx, sr1, e1⟩ := radix_split _ _ s hx hs0 hs1
    obtain ⟨sy, sr2, e2⟩ := radix_split _ _ _ hy sr1.1 sr1.2
    obtain ⟨sz, sc, e3⟩ := radix_split _ _ _ hz sr2.1 sr2.2
    refine ⟨{ x := s % img.pagecount.x
              y := s / img.pagecount.x % img.pagecount.y
              z := s / img.pagecount.x / img.pagecount.y % img.pagecount.z
              c := s / img.pagecount.x / img.pagecount.y / img.pagecount.z }, ⟨sx, sy, sz, sc⟩, ?_⟩
    rw [idxSlot_eq]
    simp only
    rw [e3, e2, e1]

/-- Witness of C18: a level of `2 x 2` tiles with one slice and three bands,
whose index starts at byte `64`. -/
theorem IdxOffset_bijection_witness :
    (∀ p q, InGrid p { idxoffset := 64, pagecount := { x := 2, y := 2, z := 1, c := 3 } } →
      InGrid q { idxoffset := 64, pagecount := { x := 2, y := 2, z := 1, c := 3 } } →
      idxSlot p { idxoffset := 64, pagecount := { x := 2, y := 2, z := 1, c := 3 } } =
        idxSlot q { idxoffset := 64, pagecount := { x := 2, y := 2, z := 1, c := 3 } } →
      p.x = q.x ∧ p.y = q.y ∧ p.z = q.z ∧ p.c = q.c) ∧
    (∀ p, InGrid p { idxoffset := 64, pagecount := { x := 2, y := 2, z := 1, c := 3 } } →
      0 ≤ idxSlot p { idxoffset := 64, pagecount := { x := 2, y := 2, z := 1, c := 3 } } ∧
      idxSlot p { idxoffset := 64, pagecount := { x := 2, y := 2, z := 1, c := 3 } } <
        (2 : Int) * 2 * 1 * 3) ∧
    (∀ s, 0 ≤ s → s < (2 : Int) * 2 * 1 * 3 →
      ∃ p, InGrid p { idxoffset := 64, pagecount := { x := 2, y := 2, z := 1, c := 3 } } ∧
        idxSlot p { idxoffset := 64, pagecount := { x := 2, y := 2, z := 1, c := 3 } } = s) :=
  IdxOffset_bijection { idxoffset := 64, pagecount := { x := 2, y := 2, z := 1, c := 3 } }
    (by decide) (by decide) (by decide)

/-! ## The degenerate shortcut of the dispatch -/

theorem average_noData_eq (k : PixelKind) (fill : List Int → List Int) (ndv : Int)
    (buffer : List Int) (tsz_x tsz_y : Nat) (hx : 1 ≤ tsz_x) (hy : 1 ≤ tsz_y)
    (hlen : buffer.length = 4 * tsz_x * tsz_y) :
    average k fill true ndv buffer tsz_x tsz_y =
      if ∀ v ∈ buffer, v = ndv then some (fill buffer)
      else if ndv ∈ buffer then AverageByFourNdv k buffer tsz_x tsz_y ndv
      else AverageByFour k buffer tsz_x tsz_y := by
  have hpos : 0 < 4 * tsz_x * tsz_y := by
    have h1 : 1 ≤ tsz_x * tsz_y := Nat.mul_le_mul hx hy
    rw [Nat.mul_assoc]
    omega
  have hm := MatchCount_spec buffer (4 * tsz_x * tsz_y) ndv (by omega)
  have hfull : List.take (4 * tsz_x * tsz_y) buffer = buffer := by
    rw [← hlen]
    exact List.take_length buffer
  rw [hfull] at hm
  by_cases hall : ∀ v ∈ buffer, v = ndv
  · have hc : List.count ndv buffer = 4 * tsz_x * tsz_y := by
      rw [← hlen]
      exact List.count_eq_length.mpr (fun b hb => (hall b hb).symm)
    have hc0 : ¬ (0 = List.count ndv buffer) := by omega
    simp only [average, hm, if_true, Option.bind_eq_bind, Option.some_bind, hc, Option.pure_def,
      if_pos hall]
    rw [if_neg (by omega)]
  · have hc : ¬ (4 * tsz_x * tsz_y = List.count ndv buffer) := by
      intro h
      apply hall
      intro v hv
      have := (List.count_eq_length (a := ndv) (l := buffer)).mp (by rw [hlen]; exact h.symm)
      exact (this v hv).symm
    rw [if_neg hall]
    by_cases hmem : ndv ∈ buffer
    · have hc0 : 0 ≠ List.count ndv buffer := by
        intro h
        exact (List.count_eq_zero.mp h.symm) hmem
      simp only [average, hm, if_true, Option.bind_eq_bind, Option.some_bind, if_neg hc,
        if_pos hc0, Option.pure_def, if_pos hmem]
      cases hk : AverageByFourNdv k buffer tsz_x tsz_y ndv with
      | none => rfl
      | some b =>
        simp only [Option.some_bind]
        rw [if_neg hc0]
    · have hc0 : List.count ndv buffer = 0 := List.count_eq_zero.mpr hmem
      simp only [average, hm, if_true, Option.bind_eq_bind, Option.some_bind, hc0, Option.pure_def,
        if_neg hmem]
      rw [if_neg (by omega)]
      simp

theorem FillBlock_getElem? (ndv : Int) (n : Nat) (buffer : List Int) (j : Nat) (hj : j < n)
    (hn : n ≤ buffer.length) : (FillBlock ndv n buffer)[j]? = some ndv := by
  unfold FillBlock
  rw [Nat.min_eq_left hn, List.getElem?_append_left (by rw [List.length_replicate]; exact hj)]
  rw [List.getElem?_replicate]
  simp [hj]

/-- C19. Degenerate shortcut of the dispatch, every integer kind, on a working
buffer of `4*tsz_x*tsz_y` samples of a band that declares a sentinel:
`MatchCount` returns exactly the number of the first `sz` samples equal to
`val`; when every sample equals the sentinel the buffer is handed to
`FillBlock` and no kernel runs (the result is what `FillBlock` leaves,
whatever `FillBlock` does), and otherwise the result is that of a kernel; with
`FillBlock` writing the sentinel to a tile, the tile is uniformly the
sentinel. -/
theorem average_shortcut (k : PixelKind) (fill : List Int → List Int) (ndv : Int)
    (buffer : List Int) (tsz_x tsz_y : Nat) (hx : 1 ≤ tsz_x) (hy : 1 ≤ tsz_y)
    (hlen : buffer.length = 4 * tsz_x * tsz_y) :
    (∀ sz val, sz ≤ buffer.length →
      MatchCount buffer sz val = some ((buffer.take sz).count val)) ∧
    (MatchCount buffer (4 * tsz_x * tsz_y) ndv = some (4 * tsz_x * tsz_y) ↔
      ∀ v ∈ buffer, v = ndv) ∧
    ((∀ v ∈ buffer, v = ndv) → average k fill true ndv buffer tsz_x tsz_y = some (fill buffer)) ∧
    (¬ (∀ v ∈ buffer, v = ndv) →
      average k fill true ndv buffer tsz_x tsz_y =
        if ndv ∈ buffer then AverageByFourNdv k buffer tsz_x tsz_y ndv
        else AverageByFour k buffer tsz_x tsz_y) ∧
    ((∀ v ∈ buffer, v = ndv) →
      ∃ out, average k (FillBlock ndv (tsz_x * tsz_y)) true ndv buffer tsz_x tsz_y = some out ∧
        ∀ j, j < tsz_x * tsz_y → out[j]? = some ndv) := by
  have heq := average_noData_eq k fill ndv buffer tsz_x tsz_y hx hy hlen
  refine ⟨fun sz val hsz => MatchCount_spec buffer sz val hsz, ?_, ?_, ?_, ?_⟩
  · rw [MatchCount_spec buffer _ ndv (by omega)]
    have hfull : List.take (4 * tsz_x * tsz_y) buffer = buffer := by
      rw [← hlen]
      exact List.take_length buffer
    rw [hfull, Option.some_inj, ← hlen, List.count_eq_length]
    constructor
    · intro h v hv
      exact (h v hv).symm
    · intro h v hv
      exact (h v hv).symm
  · intro hall
    rw [heq, if_pos hall]
  · intro hall
    rw [heq, if_neg hall]
  · intro hall
    refine ⟨FillBlock ndv (tsz_x * tsz_y) buffer, ?_, ?_⟩
    · rw [average_noData_eq k _ ndv buffer tsz_x tsz_y hx hy hlen, if_pos hall]
    · intro j hj
      apply FillBlock_getElem? ndv _ buffer j hj
      rw [hlen, Nat.mul_assoc]
      omega

/-- Witness of C19: a `1 x 1` tile of bytes, sentinel `7`, working buffer all
sentinel. -/
theorem average_shortcut_witness :
    (∀ sz val, sz ≤ [(7 : Int), 7, 7, 7].length →
      MatchCount [7, 7, 7, 7] sz val = some (([(7 : Int), 7, 7, 7].take sz).count val)) ∧
    (MatchCount [7, 7, 7, 7] (4 * 1 * 1) 7 = some (4 * 1 * 1) ↔
      ∀ v ∈ [(7 : Int), 7, 7, 7], v = 7) ∧
    ((∀ v ∈ [(7 : Int), 7, 7, 7], v = 7) →
      average PixelKind.GByte (fun b => b) true 7 [7, 7, 7, 7] 1 1 = some [7, 7, 7, 7]) ∧
    (¬ (∀ v ∈ [(7 : Int), 7, 7, 7], v = 7) →
      average PixelKind.GByte (fun b => b) true 7 [7, 7, 7, 7] 1 1 =
        if (7 : Int) ∈ [(7 : Int), 7, 7, 7] then AverageByFourNdv PixelKind.GByte [7, 7, 7, 7] 1 1 7
        else AverageByFour PixelKind.GByte [7, 7, 7, 7] 1 1) ∧
    ((∀ v ∈ [(7 : Int), 7, 7, 7], v = 7) →
      ∃ out, average PixelKind.GByte (FillBlock 7 (1 * 1)) true 7 [7, 7, 7, 7] 1 1 = some out ∧
        ∀ j, j < 1 * 1 → out[j]? = some 7) :=
  average_shortcut PixelKind.GByte (fun b => b) 7 [7, 7, 7, 7] 1 1 (by decide) (by decide)
    (by decide)

/-! ## Clipping of the write extent -/

theorem writeExtent_axis (m t d : Int) (ht : 1 ≤ t) (hd : d * t < m) :
    writeExtent m d t = min t (m - d * t) ∧ 1 ≤ writeExtent m d t ∧ writeExtent m d t ≤ t ∧
      d * t + writeExtent m d t ≤ m := by
  unfold writeExtent
  split
  · rw [min_eq_right (by omega)]
    omega
  · rw [min_eq_left (by omega)]
    omega

/-- C20. Write extent clipped to the child raster: for a child raster of
width `mx` and height `my`, tiles of `tx x ty` with `tx, ty ≥ 1` and a child
tile `(dx, dy)` that starts inside the raster (`dx*tx < mx`, `dy*ty < my`),
the write width is `min(tx, mx - dx*tx)`, between `1` and `tx`, and the write
ends within the raster; likewise for the height. -/
theorem writeExtent_clipped (mx my tx ty dx dy : Int) (htx : 1 ≤ tx) (hty : 1 ≤ ty)
    (hdx : dx * tx < mx) (hdy : dy * ty < my) :
    (writeExtent mx dx tx = min tx (mx - dx * tx) ∧ 1 ≤ writeExtent mx dx tx ∧
      writeExtent mx dx tx ≤ tx ∧ dx * tx + writeExtent mx dx tx ≤ mx) ∧
    (writeExtent my dy ty = min ty (my - dy * ty) ∧ 1 ≤ writeExtent my dy ty ∧
      writeExtent my dy ty ≤ ty ∧ dy * ty + writeExtent my dy ty ≤ my) :=
  ⟨writeExtent_axis mx tx dx htx hdx, writeExtent_axis my ty dy hty hdy⟩

/-- Witness of C20: a child raster of `10 x 7` pixels in tiles of `4 x 4`, at
the last tile `(2, 1)`. -/
theorem writeExtent_clipped_witness :
    (writeExtent 10 2 4 = min 4 (10 - 2 * 4) ∧ 1 ≤ writeExtent 10 2 4 ∧
      writeExtent 10 2 4 ≤ 4 ∧ 2 * 4 + writeExtent 10 2 4 ≤ 10) ∧
    (writeExtent 7 1 4 = min 4 (7 - 1 * 4) ∧ 1 ≤ writeExtent 7 1 4 ∧
      writeExtent 7 1 4 ≤ 4 ∧ 1 * 4 + writeExtent 7 1 4 ≤ 7) :=
  writeExtent_clipped 10 7 4 4 2 1 (by decide) (by decide) (by decide) (by decide)

/-! ## The overview engine: loops and passes -/

theorem foldlM_invariant {α β : Type} (f : β → α → Option β) (P : β → Prop)
    (hstep : ∀ s a s1, P s → f s a = some s1 → P s1) :
    ∀ (l : List α) (s s1 : β), P s → l.foldlM f s = some s1 → P s1 := by
  intro l
  induction l with
  | nil =>
    intro s s1 hs h
    simp only [List.foldlM_nil, Option.pure_def, Option.some.injEq] at h
    rw [← h]
    exact hs
  | cons a l ih =>
    intro s s1 hs h
    simp only [List.foldlM_cons, Option.bind_eq_bind] at h
    cases hfa : f s a with
    | none => rw [hfa] at h; simp at h
    | some s2 =>
      rw [hfa] at h
      exact ih s2 s1 (hstep s a s2 hs hfa) h

theorem foldlM_total {α β : Type} (f : β → α → Option β) (P : β → Prop)
    (hstep : ∀ s a, P s → ∃ s1, f s a = some s1 ∧ P s1) :
    ∀ (l : List α) (s : β), P s → ∃ s1, l.foldlM f s = some s1 ∧ P s1 := by
  intro l
  induction l with
  | nil =>
    intro s hs
    exact ⟨s, rfl, hs⟩
  | cons a l ih =>
    intro s hs
    obtain ⟨s2, h2, hp2⟩ := hstep s a hs
    obtain ⟨s3, h3, hp3⟩ := ih s2 hp2
    refine ⟨s3, ?_, hp3⟩
    simp only [List.foldlM_cons, Option.bind_eq_bind, h2, Option.some_bind]
    exact h3

theorem foldlM_establish {α β : Type} (f : β → α → Option β) (P : β → Prop)
    (hstep : ∀ s a s1, f s a = some s1 → P s1) :
    ∀ (l : List α) (s s1 : β), l ≠ [] → l.foldlM f s = some s1 → P s1 := by
  intro l
  induction l with
  | nil =>
    intro s s1 hne _
    exact absurd rfl hne
  | cons a l ih =>
    intro s s1 _ h
    simp only [List.foldlM_cons, Option.bind_eq_bind] at h
    cases hfa : f s a with
    | none => rw [hfa] at h; simp at h
    | some s2 =>
      rw [hfa] at h
      cases l with
      | nil =>
        simp only [List.foldlM_nil, Option.pure_def, Option.some_bind, Option.some.injEq] at h
        rw [← h]
        exact hstep s a s2 hfa
      | cons b l2 => exact ih s2 s1 (by simp) h

theorem foldl_invariant {α β : Type} (f : β → α → β) (P : β → Prop)
    (hstep : ∀ s a, P s → P (f s a)) : ∀ (l : List α) (s : β), P s → P (l.foldl f s) := by
  intro l
  induction l with
  | nil =>
    intro s hs
    exact hs
  | cons a l ih =>
    intro s hs
    exact ih (f s a) (hstep s a hs)

theorem range_ne_nil (n : Nat) (h : 1 ≤ n) : List.range n ≠ [] := by
  intro he
  have hl := congrArg List.length he
  simp at hl
  omega

theorem range_eq_cons (n : Nat) (h : 1 ≤ n) : ∃ l, List.range n = 0 :: l := by
  cases hr : List.range n with
  | nil => exact absurd hr (range_ne_nil n h)
  | cons a l =>
    refine ⟨l, ?_⟩
    have h0 : (List.range n)[0]? = some 0 := List.getElem?_range (by omega)
    rw [hr] at h0
    simp only [List.getElem?_cons_zero, Option.some.injEq] at h0
    rw [h0]

/-- What one band step adds to the trace: the read of the 2x2 parent tiles on
the source band, then the write of the child tile on the overview of index
`srcLevel`. -/
theorem patchBand_some {σ : Type} (ds : Dataset σ) (srcLevel : Nat) (dx dy : Int)
    (st st1 : PatchState σ) (band : Nat) (h : patchBand ds srcLevel dx dy st band = some st1) :
    ∃ rx ry rw rh wx wy ww wh,
      st1.trace = st.trace ++
        [Access.read (srcBand srcLevel (band + 1)) rx ry rw rh,
          Access.write (dstBand srcLevel (band + 1)) wx wy ww wh st1.buffer] := by
  unfold patchBand at h
  simp only at h
  split at h
  · simp at h
  · simp only [Option.some.injEq] at h
    rw [← h]
    exact ⟨_, _, _, _, _, _, _, _, rfl⟩

theorem levelAccess_append (L : Nat) (t1 t2 : List Access) (h1 : ∀ e ∈ t1, LevelAccess L e)
    (h2 : ∀ e ∈ t2, LevelAccess L e) : ∀ e ∈ t1 ++ t2, LevelAccess L e := by
  intro e he
  rcases List.mem_append.mp he with h | h
  · exact h1 e h
  · exact h2 e h

theorem levelAccess_flush (L : Nat) (b : BandRef) : LevelAccess L (Access.flush b) := by
  constructor <;> intro h <;> simp [Access.isWrite, Access.isRead] at h

theorem patchBand_levelAccess {σ : Type} (ds : Dataset σ) (L : Nat) (dx dy : Int)
    (st st1 : PatchState σ) (band : Nat) (hst : ∀ e ∈ st.trace, LevelAccess L e)
    (h : patchBand ds L dx dy st band = some st1) : ∀ e ∈ st1.trace, LevelAccess L e := by
  obtain ⟨rx, ry, rw, rh, wx, wy, ww, wh, ht⟩ := patchBand_some ds L dx dy st st1 band h
  rw [ht]
  apply levelAccess_append L _ _ hst
  intro e he
  simp only [List.mem_cons, List.mem_singleton, List.not_mem_nil, or_false] at he
  rcases he with rfl | rfl
  · constructor
    · intro hw
      simp [Access.isWrite] at hw
    · intro _
      exact ⟨band + 1, rfl⟩
  · constructor
    · intro _
      exact ⟨band + 1, rfl⟩
    · intro hr
      simp [Access.isRead] at hr

theorem flushes_levelAccess {σ : Type} (ds : Dataset σ) (L : Nat) (g : Nat → BandRef)
    (l : List Nat) (st : PatchState σ) (hst : ∀ e ∈ st.trace, LevelAccess L e) :
    ∀ e ∈ (l.foldl (fun s band => flushBand ds (g band) s) st).trace, LevelAccess L e := by
  apply foldl_invariant (fun s band => flushBand ds (g band) s)
    (fun s => ∀ e ∈ s.trace, LevelAccess L e) _ l st hst
  intro s a hs
  exact levelAccess_append L _ _ hs (by
    intro e he
    simp only [List.mem_singleton] at he
    rw [he]
    exact levelAccess_flush L _)

theorem patchTile_levelAccess {σ : Type} (ds : Dataset σ) (L : Nat) (bx dy : Int)
    (st st1 : PatchState σ) (x : Nat) (hst : ∀ e ∈ st.trace, LevelAccess L e)
    (h : patchTile ds L bx dy st x = some st1) : ∀ e ∈ st1.trace, LevelAccess L e := by
  unfold patchTile at h
  cases hb : (List.range ds.rasterCount).foldlM (patchBand ds L (bx + Int.ofNat x) dy) st with
  | none => rw [hb] at h; simp at h
  | some s2 =>
    rw [hb] at h
    simp only [Option.map_some', Option.some.injEq] at h
    rw [← h]
    apply flushes_levelAccess
    exact foldlM_invariant _ (fun s => ∀ e ∈ s.trace, LevelAccess L e)
      (fun s a s1 hs hf => patchBand_levelAccess ds L _ _ s s1 a hs hf) _ st s2 hst hb

theorem patchLevel_levelAccess {σ : Type} (ds : Dataset σ) (r : OutRect) (L : Nat) (store : σ)
    (st : PatchState σ) (h : patchLevel ds r L store = some st) :
    ∀ e ∈ st.trace, LevelAccess L e := by
  unfold patchLevel at h
  cases hb : (List.range r.HeightOut.toNat).foldlM (patchRow ds L r)
      { store := store, buffer := ds.malloc L, trace := [] } with
  | none => rw [hb] at h; simp at h
  | some s2 =>
    rw [hb] at h
    simp only [Option.map_some', Option.some.injEq] at h
    rw [← h]
    apply flushes_levelAccess
    refine foldlM_invariant _ (fun s => ∀ e ∈ s.trace, LevelAccess L e) ?_ _ _ s2 ?_ hb
    · intro s y s1 hs hf
      unfold patchRow at hf
      exact foldlM_invariant _ (fun s => ∀ e ∈ s.trace, LevelAccess L e)
        (fun s a s1 hs hf => patchTile_levelAccess ds L _ _ s s1 a hs hf) _ s s1 hs hf
    · intro e he
      simp at he

theorem averageLoops_total (px : Int → Int → Int → Int → Int) (b0 : List Int) (xsz ysz : Nat)
    (hlen : b0.length = 4 * (xsz * ysz)) :
    ∃ out, averageLoops px b0 xsz ysz = some out ∧ out.length = b0.length := by
  obtain ⟨out, h1, h2, _⟩ := averageLoops_spec px b0 xsz ysz hlen
  exact ⟨out, h1, h2⟩

/-- On a buffer of four blocks the dispatch macro returns a buffer of the same
size, whatever the samples are. -/
theorem average_total (k : PixelKind) (fill : List Int → List Int) (hasNoData : Bool)
    (ndv : Int) (buffer : List Int) (tx ty : Nat) (hlen : buffer.length = 4 * (tx * ty))
    (hfill : ∀ b, (fill b).length = b.length) :
    ∃ out, average k fill hasNoData ndv buffer tx ty = some out ∧ out.length = buffer.length := by
  have hfast : ∀ b : List Int, b.length = 4 * (tx * ty) →
      ∃ out, AverageByFour k b tx ty = some out ∧ out.length = b.length :=
    fun b hb => averageLoops_total (avg4 k) b tx ty hb
  cases hasNoData with
  | false =>
    obtain ⟨out, h1, h2⟩ := hfast buffer hlen
    refine ⟨out, ?_, h2⟩
    simp only [average, Bool.false_eq_true, if_false, Option.pure_def, Option.bind_eq_bind,
      Option.some_bind, if_true]
    exact h1
  | true =>
    have hm := MatchCount_spec buffer (4 * tx * ty) ndv (by rw [hlen, Nat.mul_assoc])
    by_cases hc : 4 * tx * ty = List.count ndv (List.take (4 * tx * ty) buffer)
    · by_cases hc0 : 0 = List.count ndv (List.take (4 * tx * ty) buffer)
      · obtain ⟨out, h1, h2⟩ := hfast (fill buffer) (by rw [hfill, hlen])
        refine ⟨out, ?_, by rw [h2, hfill]⟩
        simp only [average, hm, if_true, Option.bind_eq_bind, Option.some_bind, if_pos hc,
          Option.pure_def, if_pos hc0]
        exact h1
      · refine ⟨fill buffer, ?_, hfill buffer⟩
        simp only [average, hm, if_true, Option.bind_eq_bind, Option.some_bind, if_pos hc,
          Option.pure_def, if_neg hc0]
    · by_cases hc0 : 0 = List.count ndv (List.take (4 * tx * ty) buffer)
      · obtain ⟨out, h1, h2⟩ := hfast buffer hlen
        refine ⟨out, ?_, h2⟩
        have hc0' : ¬ (0 ≠ List.count ndv (List.take (4 * tx * ty) buffer)) := fun h => h hc0
        simp only [average, hm, if_true, Option.bind_eq_bind, Option.some_bind, if_neg hc,
          if_neg hc0', Option.pure_def, if_pos hc0]
        exact h1
      · obtain ⟨out, h1, h2⟩ := averageLoops_total (avgNdv k ndv) buffer tx ty hlen
        refine ⟨out, ?_, h2⟩
        have hc0' : 0 ≠ List.count ndv (List.take (4 * tx * ty) buffer) := hc0
        have h1' : AverageByFourNdv k buffer tx ty ndv = some out := h1
        simp only [average, hm, if_true, Option.bind_eq_bind, Option.some_bind, if_neg hc,
          if_pos hc0', h1', Option.pure_def, if_neg hc0]

theorem averageSwitch_total {σ : Type} (ds : Dataset σ) (hsafe : ds.BufferSafe)
    (bsrc bdst : BandRef) (buffer : List Int) (hlen : buffer.length = 4 * (ds.tsz_x * ds.tsz_y)) :
    ∃ out, averageSwitch ds bsrc bdst buffer = some out ∧ out.length = buffer.length := by
  unfold averageSwitch
  split
  · exact average_total _ _ _ _ _ _ _ hlen (fun b => hsafe.fill_length _ _ b)
  · exact average_total _ _ _ _ _ _ _ hlen (fun b => hsafe.fill_length _ _ b)
  · exact average_total _ _ _ _ _ _ _ hlen (fun b => hsafe.fill_length _ _ b)
  · exact average_total _ _ _ _ _ _ _ hlen (fun b => hsafe.fill_length _ _ b)
  · exact average_total _ _ _ _ _ _ _ hlen (fun b => hsafe.fill_length _ _ b)
  · exact ⟨_, rfl, hsafe.float_length _ _ _ _⟩
  · exact ⟨_, rfl, hsafe.float_length _ _ _ _⟩
  · exact ⟨_, rfl, rfl⟩

/-- A dataset whose operations leave the buffer its size keeps the size of
the buffer through the dispatch as well. -/
theorem Dataset.BufferSafe.keeps {σ : Type} (ds : Dataset σ) (hsafe : ds.BufferSafe) :
    ds.Keeps (fun buf => buf.length = 4 * (ds.tsz_x * ds.tsz_y)) :=
  { malloc := hsafe.malloc_length
    fill := fun b off buf h => by rw [hsafe.fill_length, h]
    read := fun s b x y w h n buf hb => by rw [hsafe.read_length, hb]
    switch := fun bsrc bdst buf hb => by
      obtain ⟨out, h1, h2⟩ := averageSwitch_total ds hsafe bsrc bdst buf hb
      exact ⟨out, h1, by rw [h2, hb]⟩ }

theorem patchBand_total {σ : Type} (ds : Dataset σ) (Q : List Int → Prop) (hk : ds.Keeps Q)
    (L : Nat) (dx dy : Int) (st : PatchState σ) (band : Nat) (hq : Q st.buffer) :
    ∃ st1, patchBand ds L dx dy st band = some st1 ∧ Q st1.buffer := by
  unfold patchBand
  simp only
  have hq1 : Q (if ((readExtent (ds.xSize (srcBand L (band + 1))) (dx * 2) ds.tsz_x).2 ||
        (readExtent (ds.ySize (srcBand L (band + 1))) (dy * 2) ds.tsz_y).2) = true then
      ds.fillBlock (srcBand L (band + 1)) (3 * ds.blockSizeBytes (srcBand L (band + 1)))
        (ds.fillBlock (srcBand L (band + 1)) (2 * ds.blockSizeBytes (srcBand L (band + 1)))
          (ds.fillBlock (srcBand L (band + 1)) (ds.blockSizeBytes (srcBand L (band + 1)))
            (ds.fillBlock (srcBand L (band + 1)) 0 st.buffer)))
      else st.buffer) := by
    split
    · exact hk.fill _ _ _ (hk.fill _ _ _ (hk.fill _ _ _ (hk.fill _ _ _ hq)))
    · exact hq
  obtain ⟨out, h1, h2⟩ := hk.switch (srcBand L (band + 1)) (dstBand L (band + 1)) _
    (hk.read st.store (srcBand L (band + 1)) (dx * 2 * ds.tsz_x) (dy * 2 * ds.tsz_y)
      (readExtent (ds.xSize (srcBand L (band + 1))) (dx * 2) ds.tsz_x).1
      (readExtent (ds.ySize (srcBand L (band + 1))) (dy * 2) ds.tsz_y).1 (2 * ds.tsz_x) _ hq1)
  rw [h1]
  exact ⟨_, rfl, h2⟩

theorem flushes_buffer {σ : Type} (ds : Dataset σ) (g : Nat → BandRef) (l : List Nat)
    (st : PatchState σ) :
    (l.foldl (fun s band => flushBand ds (g band) s) st).buffer = st.buffer := by
  apply foldl_invariant (fun s band => flushBand ds (g band) s) (fun s => s.buffer = st.buffer)
    _ l st rfl
  intro s a hs
  exact hs

theorem patchTile_total {σ : Type} (ds : Dataset σ) (Q : List Int → Prop) (hk : ds.Keeps Q)
    (L : Nat) (bx dy : Int) (st : PatchState σ) (x : Nat) (hq : Q st.buffer) :
    ∃ st1, patchTile ds L bx dy st x = some st1 ∧ Q st1.buffer := by
  obtain ⟨s2, h2, hl2⟩ := foldlM_total (patchBand ds L (bx + Int.ofNat x) dy)
    (fun s => Q s.buffer)
    (fun s a hs => patchBand_total ds Q hk L _ _ s a hs) (List.range ds.rasterCount) st hq
  unfold patchTile
  rw [h2]
  refine ⟨_, rfl, ?_⟩
  rw [flushes_buffer]
  exact hl2

theorem patchLevel_total {σ : Type} (ds : Dataset σ) (Q : List Int → Prop) (hk : ds.Keeps Q)
    (r : OutRect) (L : Nat) (store : σ) : ∃ st, patchLevel ds r L store = some st := by
  obtain ⟨s2, h2, _⟩ := foldlM_total (patchRow ds L r) (fun s => Q s.buffer)
    (fun s y hs => by
      unfold patchRow
      exact foldlM_total _ (fun s => Q s.buffer)
        (fun s a hs => patchTile_total ds Q hk L _ _ s a hs) _ s hs)
    (List.range r.HeightOut.toNat) { store := store, buffer := ds.malloc L, trace := [] }
    (hk.malloc L)
  unfold patchLevel
  rw [h2]
  exact ⟨_, rfl⟩

theorem hasWrite_append (n : Nat) (t1 t2 : List Access) (h : HasWrite n t1) :
    HasWrite n (t1 ++ t2) := by
  obtain ⟨e, he, hw⟩ := h
  exact ⟨e, List.mem_append.mpr (Or.inl he), hw⟩

theorem patchBand_hasWrite_keep {σ : Type} (ds : Dataset σ) (L : Nat) (dx dy : Int)
    (st st1 : PatchState σ) (band : Nat) (hst : HasWrite L st.trace)
    (h : patchBand ds L dx dy st band = some st1) : HasWrite L st1.trace := by
  obtain ⟨rx, ry, rw, rh, wx, wy, ww, wh, ht⟩ := patchBand_some ds L dx dy st st1 band h
  rw [ht]
  exact hasWrite_append L _ _ hst

theorem patchBand_hasWrite_first {σ : Type} (ds : Dataset σ) (L : Nat) (dx dy : Int)
    (st st1 : PatchState σ) (h : patchBand ds L dx dy st 0 = some st1) :
    HasWrite L st1.trace := by
  obtain ⟨rx, ry, rw, rh, wx, wy, ww, wh, ht⟩ := patchBand_some ds L dx dy st st1 0 h
  rw [ht]
  refine ⟨Access.write (dstBand L (0 + 1)) wx wy ww wh st1.buffer, ?_, rfl, rfl⟩
  simp

theorem flushes_hasWrite {σ : Type} (ds : Dataset σ) (L : Nat) (g : Nat → BandRef)
    (l : List Nat) (st : PatchState σ) (hst : HasWrite L st.trace) :
    HasWrite L (l.foldl (fun s band => flushBand ds (g band) s) st).trace := by
  apply foldl_invariant (fun s band => flushBand ds (g band) s) (fun s => HasWrite L s.trace)
    _ l st hst
  intro s a hs
  exact hasWrite_append L _ _ hs

theorem patchTile_hasWrite {σ : Type} (ds : Dataset σ) (L : Nat) (bx dy : Int)
    (st st1 : PatchState σ) (x : Nat) (hbands : 1 ≤ ds.rasterCount)
    (h : patchTile ds L bx dy st x = some st1) : HasWrite L st1.trace := by
  unfold patchTile at h
  cases hb : (List.range ds.rasterCount).foldlM (patchBand ds L (bx + Int.ofNat x) dy) st with
  | none => rw [hb] at h; simp at h
  | some s2 =>
    rw [hb] at h
    simp only [Option.map_some', Option.some.injEq] at h
    rw [← h]
    apply flushes_hasWrite
    obtain ⟨l, hl⟩ := range_eq_cons ds.rasterCount hbands
    rw [hl, List.foldlM_cons] at hb
    simp only [Option.bind_eq_bind] at hb
    cases h0 : patchBand ds L (bx + Int.ofNat x) dy st 0 with
    | none => rw [h0] at hb; simp at hb
    | some s3 =>
      rw [h0] at hb
      exact foldlM_invariant _ (fun s => HasWrite L s.trace)
        (fun s a s1 hs hf => patchBand_hasWrite_keep ds L _ _ s s1 a hs hf) l s3 s2
        (patchBand_hasWrite_first ds L _ _ st s3 h0) hb

/-- A pass over a child rectangle that is not empty, on a dataset with a band,
writes a tile on the overview of index `srcLevel`. -/
theorem patchLevel_hasWrite {σ : Type} (ds : Dataset σ) (r : OutRect) (L : Nat) (store : σ)
    (st : PatchState σ) (hbands : 1 ≤ ds.rasterCount) (hw : 1 ≤ r.WidthOut)
    (hh : 1 ≤ r.HeightOut) (h : patchLevel ds r L store = some st) : HasWrite L st.trace := by
  unfold patchLevel at h
  cases hb : (List.range r.HeightOut.toNat).foldlM (patchRow ds L r)
      { store := store, buffer := ds.malloc L, trace := [] } with
  | none => rw [hb] at h; simp at h
  | some s2 =>
    rw [hb] at h
    simp only [Option.map_some', Option.some.injEq] at h
    rw [← h]
    apply flushes_hasWrite
    refine foldlM_establish _ (fun s => HasWrite L s.trace) ?_ _ _ s2
      (range_ne_nil _ (by omega)) hb
    intro s y s1 hf
    unfold patchRow at hf
    exact foldlM_establish _ (fun s => HasWrite L s.trace)
      (fun s a s1 hf => patchTile_hasWrite ds L _ _ s s1 a hbands hf) _ s s1
      (range_ne_nil _ (by omega)) hf

theorem rect_nonempty (BlockX BlockY Width Height : Int) (hw : 1 ≤ Width) (hh : 1 ≤ Height) :
    1 ≤ (PatchOverviewRect BlockX BlockY Width Height).WidthOut ∧
      1 ≤ (PatchOverviewRect BlockX BlockY Width Height).HeightOut := by
  simp only [PatchOverviewRect]
  rw [tdiv_two_of_nonneg (Width + BlockX % 2) (by omega),
    tdiv_two_of_nonneg (Height + BlockY % 2) (by omega)]
  omega

/-! ## The overview engine: `PatchOverview` unfolded -/

/-- The entry guard: when the first band has no overview `srcLevel` the call
returns `CE_None` with the store as it was and no access. -/
theorem PatchOverview_guard {σ : Type} (ds : Dataset σ) (BlockX BlockY Width Height : Int)
    (srcLevel : Nat) (recursive : Bool) (store : σ) (h : ds.overviewCount ≤ srcLevel) :
    PatchOverview ds BlockX BlockY Width Height srcLevel recursive store =
      some { err := CPLErr.CE_None, store := store, trace := [] } := by
  rw [PatchOverview, if_pos h]

/-- A call with `recursive` unset is the pass on its level. -/
theorem PatchOverview_single {σ : Type} (ds : Dataset σ) (BlockX BlockY Width Height : Int)
    (srcLevel : Nat) (store : σ) (h : srcLevel < ds.overviewCount) :
    PatchOverview ds BlockX BlockY Width Height srcLevel false store =
      (patchLevel ds (PatchOverviewRect BlockX BlockY Width Height) srcLevel store).map
        fun st => { err := CPLErr.CE_None, store := st.store, trace := st.trace } := by
  rw [PatchOverview, if_neg (by omega)]
  cases patchLevel ds (PatchOverviewRect BlockX BlockY Width Height) srcLevel store with
  | none => rfl
  | some st => simp

/-- A call with `recursive` set is the pass on its level followed by the call
on the child rectangle at the next level. -/
theorem PatchOverview_cascade {σ : Type} (ds : Dataset σ) (BlockX BlockY Width Height : Int)
    (srcLevel : Nat) (store : σ) (h : srcLevel < ds.overviewCount) :
    PatchOverview ds BlockX BlockY Width Height srcLevel true store =
      (patchLevel ds (PatchOverviewRect BlockX BlockY Width Height) srcLevel store).bind
        fun st =>
          (PatchOverview ds (PatchOverviewRect BlockX BlockY Width Height).BlockXOut
            (PatchOverviewRect BlockX BlockY Width Height).BlockYOut
            (PatchOverviewRect BlockX BlockY Width Height).WidthOut
            (PatchOverviewRect BlockX BlockY Width Height).HeightOut (srcLevel + 1) true
            st.store).map
          fun res => { err := res.err, store := res.store, trace := st.trace ++ res.trace } := by
  rw [PatchOverview, if_neg (by omega)]
  cases patchLevel ds (PatchOverviewRect BlockX BlockY Width Height) srcLevel store with
  | none => rfl
  | some st =>
    simp only [Bool.not_true, Bool.false_eq_true, if_false, Option.some_bind]
    cases PatchOverview ds (PatchOverviewRect BlockX BlockY Width Height).BlockXOut
      (PatchOverviewRect BlockX BlockY Width Height).BlockYOut
      (PatchOverviewRect BlockX BlockY Width Height).WidthOut
      (PatchOverviewRect BlockX BlockY Width Height).HeightOut (srcLevel + 1) true st.store with
    | none => rfl
    | some res => rfl

/-! ## The overview engine: levels, errors, data types -/

theorem hasWrite_append_right (n : Nat) (t1 t2 : List Access) (h : HasWrite n t2) :
    HasWrite n (t1 ++ t2) := by
  obtain ⟨e, he, hw⟩ := h
  exact ⟨e, List.mem_append.mpr (Or.inr he), hw⟩

/-- The pass of a call with `recursive` unset. -/
theorem single_spec {σ : Type} (ds : Dataset σ) (Q : List Int → Prop) (hk : ds.Keeps Q)
    (X Y W H : Int) (L : Nat) (store : σ) (hL : L < ds.overviewCount) :
    ∃ res, PatchOverview ds X Y W H L false store = some res ∧ res.err = CPLErr.CE_None ∧
      (∀ e ∈ res.trace, LevelAccess L e) ∧
      (1 ≤ W → 1 ≤ H → 1 ≤ ds.rasterCount → HasWrite L res.trace) := by
  obtain ⟨st, hst⟩ := patchLevel_total ds Q hk (PatchOverviewRect X Y W H) L store
  refine ⟨{ err := CPLErr.CE_None, store := st.store, trace := st.trace }, ?_, rfl, ?_, ?_⟩
  · rw [PatchOverview_single ds X Y W H L store hL, hst]
    rfl
  · exact patchLevel_levelAccess ds _ L store st hst
  · intro hw hh hb
    obtain ⟨h1, h2⟩ := rect_nonempty X Y W H hw hh
    exact patchLevel_hasWrite ds _ L store st hb h1 h2 hst

/-- The cascade of a call with `recursive` set, by induction on the number of
overview levels left. -/
theorem cascade_spec {σ : Type} (ds : Dataset σ) (Q : List Int → Prop) (hk : ds.Keeps Q) :
    ∀ (d L : Nat), L + d = ds.overviewCount → ∀ (X Y W H : Int) (store : σ),
      ∃ res, PatchOverview ds X Y W H L true store = some res ∧ res.err = CPLErr.CE_None ∧
        (∀ e ∈ res.trace, e.isWrite = true →
          ∃ band n, e.band = BandRef.overview band n ∧ L ≤ n ∧ n < ds.overviewCount) ∧
        (1 ≤ W → 1 ≤ H → 1 ≤ ds.rasterCount →
          ∀ n, L ≤ n → n < ds.overviewCount → HasWrite n res.trace) := by
  intro d
  induction d with
  | zero =>
    intro L hL X Y W H store
    refine ⟨_, PatchOverview_guard ds X Y W H L true store (by omega), rfl, ?_, ?_⟩
    · intro e he
      simp at he
    · intro _ _ _ n h1 h2
      omega
  | succ d ih =>
    intro L hL X Y W H store
    have hlt : L < ds.overviewCount := by omega
    obtain ⟨st, hst⟩ := patchLevel_total ds Q hk (PatchOverviewRect X Y W H) L store
    obtain ⟨res, hres, herr, hwr, hex⟩ := ih (L + 1) (by omega)
      (PatchOverviewRect X Y W H).BlockXOut (PatchOverviewRect X Y W H).BlockYOut
      (PatchOverviewRect X Y W H).WidthOut (PatchOverviewRect X Y W H).HeightOut st.store
    refine ⟨{ err := res.err, store := res.store, trace := st.trace ++ res.trace }, ?_, herr,
      ?_, ?_⟩
    · rw [PatchOverview_cascade ds X Y W H L store hlt, hst]
      simp only [Option.some_bind, hres, Option.map_some']
    · intro e he hw
      rcases List.mem_append.mp he with h | h
      · obtain ⟨band, hb⟩ := (patchLevel_levelAccess ds _ L store st hst e h).1 hw
        exact ⟨band, L, hb, Nat.le_refl L, hlt⟩
      · obtain ⟨band, n, hb, h1, h2⟩ := hwr e h hw
        exact ⟨band, n, hb, by omega, h2⟩
    · intro hw hh hb n h1 h2
      obtain ⟨g1, g2⟩ := rect_nonempty X Y W H hw hh
      by_cases hn : n = L
      · rw [hn]
        exact hasWrite_append L _ _ (patchLevel_hasWrite ds _ L store st hb g1 g2 hst)
      · exact hasWrite_append_right n _ _ (hex g1 g2 hb n (by omega) h2)

theorem FillBlock_length (ndv : Int) (n : Nat) (buffer : List Int) :
    (FillBlock ndv n buffer).length = buffer.length := by
  unfold FillBlock
  rw [List.length_append, List.length_replicate, List.length_drop]
  omega

theorem memDataset_bufferSafe (levels bands tsz_x tsz_y : Nat) (dt : GDALDataType)
    (xsize ysize : Int) (hasNoData : Bool) (ndv : Int) (bytesPerSample : Nat) :
    (memDataset levels bands tsz_x tsz_y dt xsize ysize hasNoData ndv bytesPerSample).BufferSafe :=
  { malloc_length := fun _ => by
      simp only [memDataset, List.length_replicate, Nat.mul_assoc]
    fill_length := fun _ off buf => by
      simp only [memDataset, List.length_append, List.length_take, FillBlock_length,
        List.length_drop]
      omega
    read_length := fun _ _ _ _ _ _ _ buf => by
      simp only [memDataset, memRead, List.length_map, List.length_range]
    float_length := fun _ _ _ _ => rfl }

/-- C12. Missing overview level: when the overview count of the first band is
at most `srcLevel`, `PatchOverview` returns `CE_None`, makes no access (no
tile read, no tile write) and leaves the tile store as it was. -/
theorem PatchOverview_missing_level {σ : Type} (ds : Dataset σ)
    (BlockX BlockY Width Height : Int) (srcLevel : Nat) (recursive : Bool) (store : σ)
    (h : ds.overviewCount ≤ srcLevel) :
    ∃ res, PatchOverview ds BlockX BlockY Width Height srcLevel recursive store = some res ∧
      res.err = CPLErr.CE_None ∧ res.trace = [] ∧ res.store = store :=
  ⟨_, PatchOverview_guard ds BlockX BlockY Width Height srcLevel recursive store h, rfl, rfl,
    rfl⟩

/-- Witness of C12: Scenario A has one overview level; a patch from source
level 3 does nothing. -/
theorem PatchOverview_missing_level_witness :
    ∃ res, PatchOverview scenarioA 0 0 2 2 3 true scenarioAStore = some res ∧
      res.err = CPLErr.CE_None ∧ res.trace = [] ∧ res.store = scenarioAStore :=
  PatchOverview_missing_level scenarioA 0 0 2 2 3 true scenarioAStore (by decide)

/-- Every call of `PatchOverview` returns, and returns `CE_None`. -/
theorem PatchOverview_total {σ : Type} (ds : Dataset σ) (Q : List Int → Prop) (hk : ds.Keeps Q)
    (X Y W H : Int) (L : Nat) (recursive : Bool) (store : σ) :
    ∃ res, PatchOverview ds X Y W H L recursive store = some res ∧
      res.err = CPLErr.CE_None := by
  by_cases hL : L < ds.overviewCount
  · cases recursive with
    | false =>
      obtain ⟨res, h1, h2, _⟩ := single_spec ds Q hk X Y W H L store hL
      exact ⟨res, h1, h2⟩
    | true =>
      obtain ⟨res, h1, h2, _⟩ := cascade_spec ds Q hk (ds.overviewCount - L) L (by omega)
        X Y W H store
      exact ⟨res, h1, h2⟩
  · exact ⟨_, PatchOverview_guard ds X Y W H L recursive store (by omega), rfl⟩

theorem patchLevel_withErrors {σ : Type} (ds : Dataset σ)
    (rerr werr : σ → BandRef → Int → Int → Int → Int → Nat → List Int → CPLErr) (r : OutRect)
    (L : Nat) (store : σ) :
    patchLevel (ds.withErrors rerr werr) r L store = patchLevel ds r L store :=
  rfl

/-- The error classes returned by `RasterIO` have no influence on a call of
`PatchOverview`. -/
theorem PatchOverview_withErrors {σ : Type} (ds : Dataset σ)
    (rerr werr : σ → BandRef → Int → Int → Int → Int → Nat → List Int → CPLErr) :
    ∀ (d L : Nat), L + d = ds.overviewCount → ∀ (X Y W H : Int) (recursive : Bool) (store : σ),
      PatchOverview (ds.withErrors rerr werr) X Y W H L recursive store =
        PatchOverview ds X Y W H L recursive store := by
  intro d
  induction d with
  | zero =>
    intro L hL X Y W H recursive store
    rw [PatchOverview_guard ds X Y W H L recursive store (by omega),
      PatchOverview_guard (ds.withErrors rerr werr) X Y W H L recursive store
        (by show ds.overviewCount ≤ L; omega)]
  | succ d ih =>
    intro L hL X Y W H recursive store
    have hlt : L < ds.overviewCount := by omega
    have hlt2 : L < (ds.withErrors rerr werr).overviewCount := hlt
    cases recursive with
    | false =>
      rw [PatchOverview_single ds X Y W H L store hlt,
        PatchOverview_single (ds.withErrors rerr werr) X Y W H L store hlt2,
        patchLevel_withErrors]
    | true =>
      rw [PatchOverview_cascade ds X Y W H L store hlt,
        PatchOverview_cascade (ds.withErrors rerr werr) X Y W H L store hlt2,
        patchLevel_withErrors]
      cases patchLevel ds (PatchOverviewRect X Y W H) L store with
      | none => rfl
      | some st =>
        simp only [Option.some_bind]
        rw [ih (L + 1) (by omega)]

/-! ## The overview engine: failures, unsupported types, Scenario A -/

/-- C13 as amended. An I/O failure is not propagated: `PatchOverview` does not
look at the error class its tile reads and writes return.  On a dataset whose
operations leave the working buffer its size, whatever error classes `RasterIO`
returns, the call does exactly what it does when every `RasterIO` succeeds (same
accesses on the same levels, same store) and it returns `CE_None`. -/
theorem PatchOverview_ignores_errors {σ : Type} (ds : Dataset σ) (hsafe : ds.BufferSafe)
    (rerr werr : σ → BandRef → Int → Int → Int → Int → Nat → List Int → CPLErr)
    (BlockX BlockY Width Height : Int) (srcLevel : Nat) (recursive : Bool) (store : σ) :
    PatchOverview (ds.withErrors rerr werr) BlockX BlockY Width Height srcLevel recursive store =
      PatchOverview ds BlockX BlockY Width Height srcLevel recursive store ∧
    ∃ res, PatchOverview (ds.withErrors rerr werr) BlockX BlockY Width Height srcLevel recursive
        store = some res ∧ res.err = CPLErr.CE_None := by
  have heq : PatchOverview (ds.withErrors rerr werr) BlockX BlockY Width Height srcLevel
      recursive store = PatchOverview ds BlockX BlockY Width Height srcLevel recursive store := by
    by_cases hL : srcLevel ≤ ds.overviewCount
    · exact PatchOverview_withErrors ds rerr werr (ds.overviewCount - srcLevel) srcLevel
        (by omega) BlockX BlockY Width Height recursive store
    · rw [PatchOverview_guard ds _ _ _ _ srcLevel recursive store (by omega),
        PatchOverview_guard (ds.withErrors rerr werr) _ _ _ _ srcLevel recursive store
          (by show ds.overviewCount ≤ srcLevel; omega)]
  refine ⟨heq, ?_⟩
  rw [heq]
  exact PatchOverview_total ds _ (Dataset.BufferSafe.keeps ds hsafe) _ _ _ _ _ _ _

/-- Witness of C13 as amended: the pyramid of two overview levels with every
read and every write returning `CE_Failure`. -/
theorem PatchOverview_ignores_errors_witness :
    PatchOverview (pyramid2.withErrors (fun _ _ _ _ _ _ _ _ => CPLErr.CE_Failure)
        (fun _ _ _ _ _ _ _ _ => CPLErr.CE_Failure)) 0 0 4 4 0 true scenarioAStore =
      PatchOverview pyramid2 0 0 4 4 0 true scenarioAStore ∧
    ∃ res, PatchOverview (pyramid2.withErrors (fun _ _ _ _ _ _ _ _ => CPLErr.CE_Failure)
        (fun _ _ _ _ _ _ _ _ => CPLErr.CE_Failure)) 0 0 4 4 0 true scenarioAStore = some res ∧
      res.err = CPLErr.CE_None :=
  PatchOverview_ignores_errors pyramid2
    (memDataset_bufferSafe 2 1 2 2 GDALDataType.GDT_Byte 8 8 false 0 1)
    (fun _ _ _ _ _ _ _ _ => CPLErr.CE_Failure) (fun _ _ _ _ _ _ _ _ => CPLErr.CE_Failure)
    0 0 4 4 0 true scenarioAStore

/-- C13 as stated fails: on Scenario A with a tile store whose read of the
2x2 parent tiles returns `CE_Failure` (and whose write does too),
`PatchOverview(0, 0, 2, 2, 0, false)` still goes on to the write and returns
`CE_None`. -/
theorem PatchOverview_failure_not_propagated :
    (failingA.rasterRead scenarioAStore (BandRef.base 1) 0 0 8 8 8 (List.replicate 64 0)).1 =
      CPLErr.CE_Failure ∧
    (PatchOverview failingA 0 0 2 2 0 false scenarioAStore).map
        (fun r => (r.err, r.trace.map Access.band, r.trace.map Access.isWrite)) =
      some (CPLErr.CE_None,
        [BandRef.base 1, BandRef.overview 1 0, BandRef.base 1, BandRef.overview 1 0],
        [false, true, false, false]) := by
  constructor
  · rfl
  · rw [PatchOverview]
    decide

theorem unhandled_switch {σ : Type} (ds : Dataset σ) (hdt : ds.eDataType.handled = false)
    (bsrc bdst : BandRef) (buffer : List Int) :
    averageSwitch ds bsrc bdst buffer = some buffer := by
  unfold averageSwitch
  cases h : ds.eDataType <;> rw [h] at hdt <;> simp [GDALDataType.handled] at hdt

/-- C14 as amended. Unsupported numeric kind: when the pixel data type of the
band is not one of the seven kinds the dispatch handles, the dispatch does
nothing (`default: break;`): the working buffer is left as `RasterIO` read it,
that unreduced buffer is what the band step writes to the destination tile,
and `PatchOverview` returns `CE_None`. -/
theorem PatchOverview_unhandled_type {σ : Type} (ds : Dataset σ)
    (hdt : ds.eDataType.handled = false) :
    (∀ bsrc bdst buffer, averageSwitch ds bsrc bdst buffer = some buffer) ∧
    (∀ srcLevel dx dy (st : PatchState σ) band, ∃ st1 s b x y w h n buf wx wy ww wh,
      patchBand ds srcLevel dx dy st band = some st1 ∧
      st1.buffer = (ds.rasterRead s b x y w h n buf).2.2 ∧
      Access.write (dstBand srcLevel (band + 1)) wx wy ww wh
        (ds.rasterRead s b x y w h n buf).2.2 ∈ st1.trace) ∧
    (∀ (BlockX BlockY Width Height : Int) (srcLevel : Nat) (recursive : Bool) (store : σ),
      ∃ res, PatchOverview ds BlockX BlockY Width Height srcLevel recursive store = some res ∧
        res.err = CPLErr.CE_None) := by
  have hsw := unhandled_switch ds hdt
  refine ⟨hsw, ?_, ?_⟩
  · intro srcLevel dx dy st band
    unfold patchBand
    simp only [hsw]
    exact ⟨_, _, _, _, _, _, _, _, _, dx * ds.tsz_x, dy * ds.tsz_y,
      writeExtent (ds.xSize (dstBand srcLevel (band + 1))) dx ds.tsz_x,
      writeExtent (ds.ySize (dstBand srcLevel (band + 1))) dy ds.tsz_y, rfl, rfl,
      List.mem_append.mpr (Or.inr (List.mem_cons_of_mem _ (List.mem_singleton.mpr rfl)))⟩
  · intro BlockX BlockY Width Height srcLevel recursive store
    exact PatchOverview_total ds (fun _ => True)
      { malloc := fun _ => trivial
        fill := fun _ _ _ _ => trivial
        read := fun _ _ _ _ _ _ _ _ _ => trivial
        switch := fun bsrc bdst buf _ => ⟨buf, hsw bsrc bdst buf, trivial⟩ }
      BlockX BlockY Width Height srcLevel recursive store

/-- Witness of C14 as amended: Scenario A with complex 16-bit integer pixels. -/
theorem PatchOverview_unhandled_type_witness :
    (∀ bsrc bdst buffer, averageSwitch complexA bsrc bdst buffer = some buffer) ∧
    (∀ srcLevel dx dy (st : PatchState PixelStore) band, ∃ st1 s b x y w h n buf wx wy ww wh,
      patchBand complexA srcLevel dx dy st band = some st1 ∧
      st1.buffer = (complexA.rasterRead s b x y w h n buf).2.2 ∧
      Access.write (dstBand srcLevel (band + 1)) wx wy ww wh
        (complexA.rasterRead s b x y w h n buf).2.2 ∈ st1.trace) ∧
    (∀ (BlockX BlockY Width Height : Int) (srcLevel : Nat) (recursive : Bool)
      (store : PixelStore),
      ∃ res, PatchOverview complexA BlockX BlockY Width Height srcLevel recursive store =
          some res ∧ res.err = CPLErr.CE_None) :=
  PatchOverview_unhandled_type complexA (by decide)

/-- C14 as stated fails: on Scenario A with pixels of type `GDT_CInt16`,
`PatchOverview(0, 0, 2, 2, 0, false)` returns `CE_None` and writes the
unreduced buffer (the 64 samples as read) to the destination tile. -/
theorem PatchOverview_unhandled_silent :
    (PatchOverview complexA 0 0 2 2 0 false scenarioAStore).map (fun r => (r.err, r.trace)) =
      some (CPLErr.CE_None,
        [Access.read (BandRef.base 1) 0 0 8 8,
          Access.write (BandRef.overview 1 0) 0 0 4 4 (List.replicate 64 100),
          Access.flush (BandRef.base 1), Access.flush (BandRef.overview 1 0)]) := by
  rw [PatchOverview]
  decide

/-! ## Rectangles and extents along the pyramid -/

theorem rect_tight_axis (B W q : Int) (hB : 0 ≤ B) (hW : 1 ≤ W) (h1 : Int.tdiv B 2 ≤ q)
    (h2 : q < Int.tdiv B 2 + (Int.tdiv (W + B % 2) 2 + (W + B % 2) % 2)) :
    (B ≤ 2 * q ∧ 2 * q < B + W) ∨ (B ≤ 2 * q + 1 ∧ 2 * q + 1 < B + W) := by
  rw [tdiv_two_of_nonneg B hB] at h1 h2
  rw [tdiv_two_of_nonneg (W + B % 2) (by omega)] at h2
  omega

/-- C25. The child rectangle is tight: for `BlockX, BlockY ≥ 0` and
`Width, Height ≥ 1`, every child tile column `q` of the child rectangle has one
of its two parent columns `2*q`, `2*q+1` inside `[BlockX, BlockX + Width)`, and
every child tile row `s` one of its two parent rows inside
`[BlockY, BlockY + Height)`. -/
theorem PatchOverviewRect_tight (BlockX BlockY Width Height q s : Int)
    (hX : 0 ≤ BlockX) (hY : 0 ≤ BlockY) (hW : 1 ≤ Width) (hH : 1 ≤ Height)
    (hq1 : (PatchOverviewRect BlockX BlockY Width Height).BlockXOut ≤ q)
    (hq2 : q < (PatchOverviewRect BlockX BlockY Width Height).BlockXOut +
      (PatchOverviewRect BlockX BlockY Width Height).WidthOut)
    (hs1 : (PatchOverviewRect BlockX BlockY Width Height).BlockYOut ≤ s)
    (hs2 : s < (PatchOverviewRect BlockX BlockY Width Height).BlockYOut +
      (PatchOverviewRect BlockX BlockY Width Height).HeightOut) :
    ((BlockX ≤ 2 * q ∧ 2 * q < BlockX + Width) ∨
      (BlockX ≤ 2 * q + 1 ∧ 2 * q + 1 < BlockX + Width)) ∧
    ((BlockY ≤ 2 * s ∧ 2 * s < BlockY + Height) ∨
      (BlockY ≤ 2 * s + 1 ∧ 2 * s + 1 < BlockY + Height)) := by
  simp only [PatchOverviewRect] at hq1 hq2 hs1 hs2
  exact ⟨rect_tight_axis BlockX Width q hX hW hq1 hq2,
    rect_tight_axis BlockY Height s hY hH hs1 hs2⟩

/-- Witness of C25: the parent rectangle at `(3, 4)` of `4 x 1` tiles and its
child tile `(3, 2)`. -/
theorem PatchOverviewRect_tight_witness :
    (((3 : Int) ≤ 2 * 3 ∧ 2 * 3 < (3 : Int) + 4) ∨
      ((3 : Int) ≤ 2 * 3 + 1 ∧ 2 * 3 + 1 < (3 : Int) + 4)) ∧
    (((4 : Int) ≤ 2 * 2 ∧ 2 * 2 < (4 : Int) + 1) ∨
      ((4 : Int) ≤ 2 * 2 + 1 ∧ 2 * 2 + 1 < (4 : Int) + 1)) :=
  PatchOverviewRect_tight 3 4 4 1 3 2 (by decide) (by decide) (by decide) (by decide)
    (by decide) (by decide) (by decide) (by decide)

theorem extents_agree_axis (n t d : Int) (ht : 1 ≤ t) (hd : d * t < n / 2 + n % 2) :
    (readExtent n (d * 2) t).1 = min (2 * t) (n - 2 * d * t) ∧
    writeExtent (n / 2 + n % 2) d t = min t (n / 2 + n % 2 - d * t) ∧
    1 ≤ (readExtent n (d * 2) t).1 ∧
    writeExtent (n / 2 + n % 2) d t =
      (readExtent n (d * 2) t).1 / 2 + (readExtent n (d * 2) t).1 % 2 := by
  have e1 : (d * 2 + 2) * t = 2 * (d * t) + 2 * t := by ring
  have e2 : d * 2 * t = 2 * (d * t) := by ring
  have e3 : 2 * d * t = 2 * (d * t) := by ring
  unfold readExtent writeExtent
  rw [e1, e2, e3]
  by_cases hr : n < 2 * (d * t) + 2 * t
  · have m1 : min (2 * t) (n - 2 * (d * t)) = n - 2 * (d * t) := min_eq_right (by omega)
    by_cases hw : n / 2 + n % 2 < d * t + t
    · have m2 : min t (n / 2 + n % 2 - d * t) = n / 2 + n % 2 - d * t :=
        min_eq_right (by omega)
      rw [if_pos hr, if_pos hw, m1, m2]
      clear m1 m2
      refine ⟨rfl, rfl, ?_, ?_⟩ <;> simp only <;> omega
    · have m2 : min t (n / 2 + n % 2 - d * t) = t := min_eq_left (by omega)
      rw [if_pos hr, if_neg hw, m1, m2]
      clear m1 m2
      refine ⟨rfl, rfl, ?_, ?_⟩ <;> simp only <;> omega
  · have hw : ¬ (n / 2 + n % 2 < d * t + t) := by omega
    have m1 : min (2 * t) (n - 2 * (d * t)) = 2 * t := min_eq_left (by omega)
    have m2 : min t (n / 2 + n % 2 - d * t) = t := min_eq_left (by omega)
    rw [if_neg hr, if_neg hw, m1, m2]
    clear m1 m2
    refine ⟨rfl, rfl, ?_, ?_⟩ <;> simp only <;> omega

/-- C22. Read and write extents agree: for a parent raster of width `n`
(child width `ceil(n/2)`), tiles of width `t ≥ 1` and a child tile column `d`
with `d*t < ceil(n/2)`, the clipped read width `r` of `PatchOverview` is
`min(2*t, n - 2*d*t)`, the clipped write width `w` is
`min(t, ceil(n/2) - d*t)`, `r ≥ 1` and `w = ceil(r/2)`; so every written column
`c < w` has a source column `2*c < r`, and every source column `p < r` goes to
a written column `p/2 < w`. -/
theorem extents_agree (n t d : Int) (ht : 1 ≤ t) (hd : d * t < ⌈(n : ℚ) / 2⌉) :
    (readExtent n (d * 2) t).1 = min (2 * t) (n - 2 * d * t) ∧
    writeExtent ⌈(n : ℚ) / 2⌉ d t = min t (⌈(n : ℚ) / 2⌉ - d * t) ∧
    1 ≤ (readExtent n (d * 2) t).1 ∧
    writeExtent ⌈(n : ℚ) / 2⌉ d t = ⌈(((readExtent n (d * 2) t).1 : Int) : ℚ) / 2⌉ ∧
    (∀ c : Int, 0 ≤ c → c < writeExtent ⌈(n : ℚ) / 2⌉ d t → 2 * c < (readExtent n (d * 2) t).1) ∧
    (∀ p : Int, 0 ≤ p → p < (readExtent n (d * 2) t).1 →
      p / 2 < writeExtent ⌈(n : ℚ) / 2⌉ d t) := by
  rw [ceil_half] at hd ⊢
  rw [ceil_half]
  obtain ⟨h1, h2, h3, h4⟩ := extents_agree_axis n t d ht hd
  refine ⟨h1, h2, h3, h4, ?_, ?_⟩
  · intro c hc0 hc
    rw [h4] at hc
    omega
  · intro p hp0 hp
    rw [h4]
    omega

/-- Witness of C22: a parent raster of width `10`, tiles of width `4`, the
second child tile column. -/
theorem extents_agree_witness :
    (readExtent 10 (1 * 2) 4).1 = min (2 * 4) (10 - 2 * 1 * 4) ∧
    writeExtent ⌈((10 : Int) : ℚ) / 2⌉ 1 4 = min 4 (⌈((10 : Int) : ℚ) / 2⌉ - 1 * 4) ∧
    1 ≤ (readExtent 10 (1 * 2) 4).1 ∧
    writeExtent ⌈((10 : Int) : ℚ) / 2⌉ 1 4 = ⌈(((readExtent 10 (1 * 2) 4).1 : Int) : ℚ) / 2⌉ ∧
    (∀ c : Int, 0 ≤ c → c < writeExtent ⌈((10 : Int) : ℚ) / 2⌉ 1 4 →
      2 * c < (readExtent 10 (1 * 2) 4).1) ∧
    (∀ p : Int, 0 ≤ p → p < (readExtent 10 (1 * 2) 4).1 →
      p / 2 < writeExtent ⌈((10 : Int) : ℚ) / 2⌉ 1 4) :=
  extents_agree 10 4 1 (by decide) (by
    have h : ⌈((10 : Int) : ℚ) / 2⌉ = 5 := by
      rw [ceil_half]
      decide
    rw [h]
    decide)

/-! ## In-bounds rectangles along the pyramid -/

theorem pcount_half (n t : Int) (hn : 1 ≤ n) (ht : 1 ≤ t) :
    1 ≤ n / 2 + n % 2 ∧ pcount n t ≤ 2 * pcount (n / 2 + n % 2) t := by
  have hm : 1 ≤ n / 2 + n % 2 := by omega
  refine ⟨hm, ?_⟩
  obtain ⟨p1, _⟩ := pcount_bounds n t hn ht
  obtain ⟨_, q2⟩ := pcount_bounds (n / 2 + n % 2) t hm ht
  by_contra hlt
  have hle : 2 * pcount (n / 2 + n % 2) t ≤ pcount n t - 1 := by omega
  have hmul : 2 * pcount (n / 2 + n % 2) t * t ≤ (pcount n t - 1) * t :=
    Int.mul_le_mul_of_nonneg_right hle (by omega)
  have e : 2 * pcount (n / 2 + n % 2) t * t = 2 * (pcount (n / 2 + n % 2) t * t) := by ring
  omega

theorem child_in_bounds_axis (n t B W : Int) (hn : 1 ≤ n) (ht : 1 ≤ t) (hB : 0 ≤ B)
    (hW : 0 ≤ W) (hin : B + W ≤ pcount n t) :
    0 ≤ Int.tdiv B 2 ∧ 0 ≤ Int.tdiv (W + B % 2) 2 + (W + B % 2) % 2 ∧
      Int.tdiv B 2 + (Int.tdiv (W + B % 2) 2 + (W + B % 2) % 2) ≤
        pcount ⌈(n : ℚ) / 2⌉ t ∧ 1 ≤ ⌈(n : ℚ) / 2⌉ := by
  rw [ceil_half]
  obtain ⟨hm, hp⟩ := pcount_half n t hn ht
  rw [tdiv_two_of_nonneg B hB, tdiv_two_of_nonneg (W + B % 2) (by omega)]
  omega

theorem cascadeRect_succ (r : OutRect) (l : Nat) :
    cascadeRect r (l + 1) =
      PatchOverviewRect (cascadeRect r l).BlockXOut (cascadeRect r l).BlockYOut
        (cascadeRect r l).WidthOut (cascadeRect r l).HeightOut := by
  unfold cascadeRect
  rw [Function.iterate_succ_apply']

theorem levelSize_succ (n : Int) (l : Nat) :
    levelSize n (l + 1) = ⌈((levelSize n l : Int) : ℚ) / 2⌉ := by
  unfold levelSize
  rw [Function.iterate_succ_apply']

/-- C23. An in-bounds parent rectangle maps to an in-bounds child rectangle:
for a raster of width `n ≥ 1`, tiles of width `t ≥ 1` and a parent rectangle
with `BlockX ≥ 0`, `Width ≥ 0` and `BlockX + Width ≤ pcount(n, t)`, the child
rectangle of `PatchOverview` has `BlockXOut + WidthOut ≤ pcount(ceil(n/2), t)`;
and so has the rectangle of the call at every depth `l` of a recursive call,
against the tile count of the raster `l` levels up. -/
theorem child_rect_in_bounds (n t BlockX BlockY Width Height : Int) (hn : 1 ≤ n) (ht : 1 ≤ t)
    (hX : 0 ≤ BlockX) (hW : 0 ≤ Width) (hin : BlockX + Width ≤ pcount n t) :
    (PatchOverviewRect BlockX BlockY Width Height).BlockXOut +
        (PatchOverviewRect BlockX BlockY Width Height).WidthOut ≤ pcount ⌈(n : ℚ) / 2⌉ t ∧
    ∀ l : Nat,
      0 ≤ (cascadeRect (OutRect.mk BlockX BlockY Width Height) l).BlockXOut ∧
      0 ≤ (cascadeRect (OutRect.mk BlockX BlockY Width Height) l).WidthOut ∧
      (cascadeRect (OutRect.mk BlockX BlockY Width Height) l).BlockXOut +
        (cascadeRect (OutRect.mk BlockX BlockY Width Height) l).WidthOut ≤
          pcount (levelSize n l) t := by
  refine ⟨(child_in_bounds_axis n t BlockX Width hn ht hX hW hin).2.2.1, ?_⟩
  intro l
  have hall : 1 ≤ levelSize n l ∧
      0 ≤ (cascadeRect (OutRect.mk BlockX BlockY Width Height) l).BlockXOut ∧
      0 ≤ (cascadeRect (OutRect.mk BlockX BlockY Width Height) l).WidthOut ∧
      (cascadeRect (OutRect.mk BlockX BlockY Width Height) l).BlockXOut +
        (cascadeRect (OutRect.mk BlockX BlockY Width Height) l).WidthOut ≤
          pcount (levelSize n l) t := by
    induction l with
    | zero => exact ⟨hn, hX, hW, hin⟩
    | succ l ih =>
      obtain ⟨h1, h2, h3, h4⟩ := ih
      obtain ⟨g1, g2, g3, g4⟩ := child_in_bounds_axis (levelSize n l) t _ _ h1 ht h2 h3 h4
      rw [cascadeRect_succ, levelSize_succ]
      exact ⟨g4, g1, g2, g3⟩
  exact hall.2

/-- Witness of C23: a raster of width `1000` in tiles of `128` (8 tile
columns) and the parent rectangle of columns `3` to `7`. -/
theorem child_rect_in_bounds_witness :
    (PatchOverviewRect 3 0 5 1).BlockXOut + (PatchOverviewRect 3 0 5 1).WidthOut ≤
        pcount ⌈((1000 : Int) : ℚ) / 2⌉ 128 ∧
    ∀ l : Nat,
      0 ≤ (cascadeRect (OutRect.mk 3 0 5 1) l).BlockXOut ∧
      0 ≤ (cascadeRect (OutRect.mk 3 0 5 1) l).WidthOut ∧
      (cascadeRect (OutRect.mk 3 0 5 1) l).BlockXOut +
        (cascadeRect (OutRect.mk 3 0 5 1) l).WidthOut ≤ pcount (levelSize 1000 l) 128 :=
  child_rect_in_bounds 1000 128 3 0 5 1 (by decide) (by decide) (by decide) (by decide)
    (by decide)

/-! ## A valid average equal to the sentinel -/

/-- C26. A valid average can collide with the sentinel: for the kind `GByte`
and the sentinel `5`, the 2x2 group `4, 6, 5, 5` has two samples different
from the sentinel and the NoData-aware kernel gives it the output `5`, and so
does it for the group `4, 6, 4, 6` with no sentinel at all; so an output equal
to the sentinel does not tell that the four inputs were sentinel.  At the next
coarser level such a sample is treated as NoData: the `use` step skips every
sample equal to the sentinel, the group `5, 9, 9, 9` averages to `9` (the
average of its other three samples, not `8`), and a tile holding only such
samples is filled with the sentinel by the dispatch. -/
theorem average_collides_with_sentinel :
    (∃ v ∈ [(4 : Int), 6, 5, 5], v ≠ 5) ∧
    AverageByFourNdv PixelKind.GByte [4, 6, 5, 5] 1 1 5 = some [5, 6, 5, 5] ∧
    (∀ v ∈ [(4 : Int), 6, 4, 6], v ≠ 5) ∧
    AverageByFourNdv PixelKind.GByte [4, 6, 4, 6] 1 1 5 = some [5, 6, 4, 6] ∧
    (∀ (ndv : Int) (st : Int × Int), use ndv st ndv = st) ∧
    (∀ (k : PixelKind) (ndv a b c : Int),
      avgNdv k ndv ndv a b c =
        k.cast (if (use ndv (use ndv (use ndv (0, 0) a) b) c).2 ≠ 0 then
          Int.tdiv (addW 64 (use ndv (use ndv (use ndv (0, 0) a) b) c).1
            (Int.tdiv (use ndv (use ndv (use ndv (0, 0) a) b) c).2 2))
            (use ndv (use ndv (use ndv (0, 0) a) b) c).2 else ndv)) ∧
    AverageByFourNdv PixelKind.GByte [5, 9, 9, 9] 1 1 5 = some [9, 9, 9, 9] ∧
    AverageByFour PixelKind.GByte [5, 9, 9, 9] 1 1 = some [8, 9, 9, 9] ∧
    average PixelKind.GByte (FillBlock 5 1) true 5 [5, 5, 5, 5] 1 1 = some [5, 5, 5, 5] := by
  refine ⟨⟨4, by decide, by decide⟩, by decide, by decide, by decide, ?_, ?_, by decide,
    by decide, by decide⟩
  · intro ndv st
    simp [use]
  · intro k ndv a b c
    simp [avgNdv, use]

/-! ## The dispatch against the NoData-aware kernel -/

/-- On a buffer that holds only the sentinel, every output sample of the
NoData-aware kernel is the sentinel. -/
theorem groupOut_all_sentinel (k : PixelKind) (ndv : Int) (buffer : List Int) (tx ty j : Nat)
    (hlen : buffer.length = 4 * (tx * ty)) (hndv : k.InRange ndv)
    (hall : ∀ v ∈ buffer, v = ndv) (hj : j < tx * ty) :
    groupOut (avgNdv k ndv) buffer tx j = ndv := by
  have hx : 0 < tx := by
    rcases Nat.eq_zero_or_pos tx with h | h
    · rw [h, Nat.zero_mul] at hj
      omega
    · exact h
  have hline : j / tx < ty := by
    rw [Nat.div_lt_iff_lt_mul hx, Nat.mul_comm]
    exact hj
  have hcol : j % tx < tx := Nat.mod_lt _ hx
  have hj2 : j = j / tx * tx + j % tx := by
    rw [Nat.mul_comm]
    exact (Nat.div_add_mod j tx).symm
  rw [hj2, groupOut_rowcol (avgNdv k ndv) buffer tx _ _ hcol]
  have m := sampleAt_mem buffer tx ty (j / tx) (j % tx) hlen hline hcol
  have m00 := hall _ (m 0 0 (by omega) (by omega))
  have m01 := hall _ (m 0 1 (by omega) (by omega))
  have m10 := hall _ (m 1 0 (by omega) (by omega))
  have m11 := hall _ (m 1 1 (by omega) (by omega))
  simp only [Nat.add_zero] at m00 m01 m10 m11
  rw [m00, m01, m10, m11, (avgNdv_eq k ndv ndv ndv ndv ndv hndv hndv hndv hndv hndv).1]
  exact ndvAverage_all_sentinel ndv

/-- On a buffer of in-range samples without the sentinel the fast path and the
NoData-aware kernel are the same function. -/
theorem fast_eq_ndv_of_no_sentinel (k : PixelKind) (ndv : Int) (buffer : List Int)
    (tx ty : Nat) (hlen : buffer.length = 4 * (tx * ty)) (hrange : ∀ v ∈ buffer, k.InRange v)
    (hndv : k.InRange ndv) (hnone : ndv ∉ buffer) :
    AverageByFour k buffer tx ty = AverageByFourNdv k buffer tx ty ndv := by
  have hne : ∀ v ∈ buffer, v ≠ ndv := fun v hv h => hnone (h ▸ hv)
  unfold AverageByFour AverageByFourNdv
  apply averageLoops_congr _ _ _ _ _ hlen
  intro a ha b hb c hc d hd
  rw [(avg4_eq k a b c d (hrange a ha) (hrange b hb) (hrange c hc) (hrange d hd)).1,
    (avgNdv_eq k ndv a b c d hndv (hrange a ha) (hrange b hb) (hrange c hc) (hrange d hd)).1]
  have t4 : Int.tdiv 4 2 = 2 := by decide
  unfold ndvAverage validSamples
  simp [hne a ha, hne b hb, hne c hc, hne d hd, t4]
  congr 1
  omega

/-- C21. The dispatch shortcuts are consistent with the NoData-aware kernel:
for every integer kind `k`, every tile size and every working buffer of
`4*tsz_x*tsz_y` samples of the kind, when the band declares a sentinel `ndv`
and `FillBlock` writes `ndv` to every sample of a tile, the dispatch and the
NoData-aware `AverageByFour` alone both return a buffer of the same length,
and their first `tsz_x*tsz_y` samples are identical. -/
theorem average_consistent (k : PixelKind) (ndv : Int) (buffer : List Int) (tsz_x tsz_y : Nat)
    (hlen : buffer.length = 4 * tsz_x * tsz_y) (hrange : ∀ v ∈ buffer, k.InRange v)
    (hndv : k.InRange ndv) :
    ∃ out ref, average k (FillBlock ndv (tsz_x * tsz_y)) true ndv buffer tsz_x tsz_y = some out ∧
      AverageByFourNdv k buffer tsz_x tsz_y ndv = some ref ∧
      out.length = buffer.length ∧ ref.length = buffer.length ∧
      ∀ j, j < tsz_x * tsz_y → out[j]? = ref[j]? := by
  have hlen2 : buffer.length = 4 * (tsz_x * tsz_y) := by rw [hlen, Nat.mul_assoc]
  obtain ⟨ref, hr, hrl, _, hrdone⟩ := averageLoops_spec (avgNdv k ndv) buffer tsz_x tsz_y hlen2
  obtain ⟨out, ho, hol⟩ := average_total k (FillBlock ndv (tsz_x * tsz_y)) true ndv buffer
    tsz_x tsz_y hlen2 (fun b => FillBlock_length ndv _ b)
  refine ⟨out, ref, ho, hr, hol, hrl, ?_⟩
  intro j hj
  have hx : 1 ≤ tsz_x := by
    rcases Nat.eq_zero_or_pos tsz_x with h | h
    · rw [h, Nat.zero_mul] at hj
      omega
    · exact h
  have hy : 1 ≤ tsz_y := by
    rcases Nat.eq_zero_or_pos tsz_y with h | h
    · rw [h, Nat.mul_zero] at hj
      omega
    · exact h
  rw [average_noData_eq k _ ndv buffer tsz_x tsz_y hx hy hlen] at ho
  by_cases hall : ∀ v ∈ buffer, v = ndv
  · rw [if_pos hall] at ho
    injection ho with ho
    rw [← ho, FillBlock_getElem? ndv (tsz_x * tsz_y) buffer j hj (by omega), hrdone j hj,
      groupOut_all_sentinel k ndv buffer tsz_x tsz_y j hlen2 hndv hall hj]
  · rw [if_neg hall] at ho
    by_cases hsome : ndv ∈ buffer
    · rw [if_pos hsome] at ho
      have e : some out = some ref := by rw [← ho]; exact hr
      injection e with e
      rw [e]
    · rw [if_neg hsome, fast_eq_ndv_of_no_sentinel k ndv buffer tsz_x tsz_y hlen2 hrange hndv
        hsome] at ho
      have e : some out = some ref := by rw [← ho]; exact hr
      injection e with e
      rw [e]

/-- Witness of C21: a tile of one `GInt16` sample whose 2x2 group holds the
sentinel `-1` once. -/
theorem average_consistent_witness :
    ∃ out ref, average PixelKind.GInt16 (FillBlock (-1) (1 * 1)) true (-1) [3, -1, 8, 4] 1 1 =
        some out ∧
      AverageByFourNdv PixelKind.GInt16 [3, -1, 8, 4] 1 1 (-1) = some ref ∧
      out.length = [(3 : Int), -1, 8, 4].length ∧ ref.length = [(3 : Int), -1, 8, 4].length ∧
      ∀ j, j < 1 * 1 → out[j]? = ref[j]? :=
  average_consistent PixelKind.GInt16 (-1) [3, -1, 8, 4] 1 1 (by decide) (by decide) (by decide)

/-! ## Memory accesses of the kernels -/

/-- Recording the accesses does not change what the inner loop computes. -/
theorem colLoopLog_fst (px : Int → Int → Int → Int → Int) :
    ∀ (n : Nat) (s : Cursor) (g : KernelLog),
      (colLoopLog px n s g).map Prod.fst = colLoop px n s := by
  intro n
  induction n with
  | zero =>
    intro s g
    rfl
  | succ n ih =>
    intro s g
    simp only [colLoopLog, colLoop, Option.bind_eq_bind]
    cases s.buff[s.evenline]? with
    | none => rfl
    | some a =>
      cases s.buff[s.evenline + 1]? with
      | none => rfl
      | some b =>
        cases s.buff[s.oddline]? with
        | none => rfl
        | some c =>
          cases s.buff[s.oddline + 1]? with
          | none => rfl
          | some d =>
            simp only [Option.some_bind]
            by_cases hw : s.obuff < s.buff.length
            · rw [if_pos hw, if_pos hw]
              exact ih _ _
            · rw [if_neg hw, if_neg hw]
              rfl

/-- Recording the accesses does not change what the outer loop computes. -/
theorem lineLoopLog_fst (px : Int → Int → Int → Int → Int) (xsz : Nat) :
    ∀ (n : Nat) (s : Cursor) (g : KernelLog),
      (lineLoopLog px xsz n s g).map Prod.fst = lineLoop px xsz n s := by
  intro n
  induction n with
  | zero =>
    intro s g
    rfl
  | succ n ih =>
    intro s g
    simp only [lineLoopLog, lineLoop, Option.bind_eq_bind]
    rw [← colLoopLog_fst px xsz { s with oddline := s.evenline + xsz * 2 } g]
    cases colLoopLog px xsz { s with oddline := s.evenline + xsz * 2 } g with
    | none => rfl
    | some r =>
      simp only [Option.some_bind, Option.map_some']
      exact ih _ _

theorem averageLoopsLog_fst (px : Int → Int → Int → Int → Int) (buff : List Int)
    (xsz ysz : Nat) :
    (averageLoopsLog px buff xsz ysz).map Prod.fst = averageLoops px buff xsz ysz := by
  unfold averageLoopsLog averageLoops
  rw [← lineLoopLog_fst px xsz ysz _ { reads := [], writes := [] }, Option.map_map,
    Option.map_map]
  rfl

/-- What the inner loop records in `n` iterations: where the pointers end,
the indices written, and a bound on the indices read. -/
theorem colLoopLog_log (px : Int → Int → Int → Int → Int) :
    ∀ (n : Nat) (s : Cursor) (g : KernelLog) (s1 : Cursor) (g1 : KernelLog),
      colLoopLog px n s g = some (s1, g1) →
      s1.obuff = s.obuff + n ∧ s1.evenline = s.evenline + 2 * n ∧
      g1.writes = g.writes ++ List.range' s.obuff n ∧
      g1.reads.length = g.reads.length + 4 * n ∧
      ∀ B, s.evenline + 2 * n ≤ B → s.oddline + 2 * n ≤ B → (∀ i ∈ g.reads, i < B) →
        ∀ i ∈ g1.reads, i < B := by
  intro n
  induction n with
  | zero =>
    intro s g s1 g1 h
    simp only [colLoopLog, Option.some.injEq, Prod.mk.injEq] at h
    obtain ⟨h1, h2⟩ := h
    subst h1
    subst h2
    refine ⟨rfl, rfl, by simp, rfl, fun B _ _ hB => hB⟩
  | succ n ih =>
    intro s g s1 g1 h
    simp only [colLoopLog, Option.bind_eq_bind] at h
    cases ha : s.buff[s.evenline]? with
    | none => rw [ha] at h; exact absurd h (by simp)
    | some a =>
      cases hb : s.buff[s.evenline + 1]? with
      | none => rw [ha, hb] at h; exact absurd h (by simp)
      | some b =>
        cases hc : s.buff[s.oddline]? with
        | none => rw [ha, hb, hc] at h; exact absurd h (by simp)
        | some c =>
          cases hd : s.buff[s.oddline + 1]? with
          | none => rw [ha, hb, hc, hd] at h; exact absurd h (by simp)
          | some d =>
            rw [ha, hb, hc, hd] at h
            simp only [Option.some_bind] at h
            by_cases hw : s.obuff < s.buff.length
            · rw [if_pos hw] at h
              obtain ⟨i1, i2, i3, i4, i5⟩ := ih _ _ _ _ h
              simp only at i1 i2 i3 i4 i5
              refine ⟨by omega, by omega, ?_, ?_, ?_⟩
              · rw [i3, List.append_assoc, List.range'_succ]
                rfl
              · rw [i4, List.length_append]
                simp only [List.length_cons, List.length_nil]
                omega
              · intro B hB1 hB2 hg
                apply i5 B (by omega) (by omega)
                intro i hi
                rw [List.mem_append] at hi
                rcases hi with hi | hi
                · exact hg i hi
                · simp only [List.mem_cons, List.mem_singleton, List.not_mem_nil, or_false] at hi
                  omega
            · rw [if_neg hw] at h
              exact absurd h (by simp)

/-- What the outer loop records in `n` lines. -/
theorem lineLoopLog_log (px : Int → Int → Int → Int → Int) (xsz : Nat) :
    ∀ (n : Nat) (s : Cursor) (g : KernelLog) (s1 : Cursor) (g1 : KernelLog),
      lineLoopLog px xsz n s g = some (s1, g1) →
      g1.writes = g.writes ++ List.range' s.obuff (xsz * n) ∧
      g1.reads.length = g.reads.length + 4 * (xsz * n) ∧
      ∀ B, s.evenline + 4 * (xsz * n) ≤ B → (∀ i ∈ g.reads, i < B) →
        ∀ i ∈ g1.reads, i < B := by
  intro n
  induction n with
  | zero =>
    intro s g s1 g1 h
    simp only [lineLoopLog, Option.some.injEq, Prod.mk.injEq] at h
    obtain ⟨h1, h2⟩ := h
    subst h1
    subst h2
    refine ⟨by simp, rfl, fun B _ hB => hB⟩
  | succ n ih =>
    intro s g s1 g1 h
    simp only [lineLoopLog, Option.bind_eq_bind] at h
    cases hc : colLoopLog px xsz { s with oddline := s.evenline + xsz * 2 } g with
    | none => rw [hc] at h; exact absurd h (by simp)
    | some r =>
      obtain ⟨r1, r2⟩ := r
      rw [hc] at h
      simp only [Option.some_bind] at h
      obtain ⟨c1, c2, c3, c4, c5⟩ := colLoopLog_log px xsz _ _ _ _ hc
      obtain ⟨i1, i2, i3⟩ := ih _ _ _ _ h
      simp only at c1 c2 c3 c4 c5 i1 i2 i3
      have e : xsz * (n + 1) = xsz + xsz * n := by rw [Nat.mul_succ, Nat.add_comm]
      refine ⟨?_, ?_, ?_⟩
      · rw [i1, c3, c1, List.append_assoc, e, Nat.add_comm xsz (xsz * n),
          List.range'_append_1]
      · rw [i2, c4, e]
        omega
      · intro B hB hg
        rw [e] at hB
        exact i3 B (by omega) (c5 B (by omega) (by omega) hg)

/-- On a buffer of `4*xsz*ysz` samples the loop nest returns, and it reads
`4*xsz*ysz` times, only at indices below `4*xsz*ysz`, writes exactly the
indices `0 .. xsz*ysz - 1` in turn, and leaves every sample from index
`xsz*ysz` on as it was. -/
theorem averageLoopsLog_spec (px : Int → Int → Int → Int → Int) (b0 : List Int) (xsz ysz : Nat)
    (hlen : b0.length = 4 * (xsz * ysz)) :
    ∃ out g, averageLoopsLog px b0 xsz ysz = some (out, g) ∧
      averageLoops px b0 xsz ysz = some out ∧
      (∀ i ∈ g.reads, i < 4 * (xsz * ysz)) ∧ (∀ i ∈ g.writes, i < xsz * ysz) ∧
      g.reads.length = 4 * (xsz * ysz) ∧ g.writes = List.range (xsz * ysz) ∧
      out.length = b0.length ∧ ∀ i, xsz * ysz ≤ i → out[i]? = b0[i]? := by
  obtain ⟨out, ho, hol, hrest, _⟩ := averageLoops_spec px b0 xsz ysz hlen
  have hf := averageLoopsLog_fst px b0 xsz ysz
  rw [ho] at hf
  cases hl : lineLoopLog px xsz ysz { buff := b0, obuff := 0, evenline := 0, oddline := 0 }
      { reads := [], writes := [] } with
  | none =>
    simp [averageLoopsLog, hl] at hf
  | some r =>
    obtain ⟨s1, g⟩ := r
    obtain ⟨l1, l2, l3⟩ := lineLoopLog_log px xsz ysz _ _ _ _ hl
    simp only [List.nil_append, List.length_nil, Nat.zero_add] at l1 l2 l3
    have hout : s1.buff = out := by
      simpa [averageLoopsLog, hl] using hf
    have hw : g.writes = List.range (xsz * ysz) := by
      rw [l1, List.range_eq_range']
    refine ⟨out, g, ?_, ho, ?_, ?_, l2, hw, hol, hrest⟩
    · simp [averageLoopsLog, hl, hout]
    · exact l3 _ (Nat.le_refl _) (fun i hi => absurd hi (List.not_mem_nil i))
    · intro i hi
      rw [hw, List.mem_range] at hi
      exact hi

/-- C24. Kernel indexing stays inside the working buffer: on a buffer of
`4*xsz*ysz` samples both `AverageByFour` variants (fast path and NoData-aware,
every integer kind) return, read only indices below `4*xsz*ysz` (`4*xsz*ysz`
reads in all), write only indices below `xsz*ysz` (each of them once, in
increasing order), and leave every sample at an index `≥ xsz*ysz` unchanged;
the recorded run returns the buffer the kernel returns. -/
theorem kernels_stay_in_buffer (k : PixelKind) (ndv : Int) (buff : List Int) (xsz ysz : Nat)
    (hlen : buff.length = 4 * xsz * ysz) :
    (∃ out g, averageLoopsLog (avg4 k) buff xsz ysz = some (out, g) ∧
      AverageByFour k buff xsz ysz = some out ∧
      (∀ i ∈ g.reads, i < 4 * xsz * ysz) ∧ (∀ i ∈ g.writes, i < xsz * ysz) ∧
      g.reads.length = 4 * xsz * ysz ∧ g.writes = List.range (xsz * ysz) ∧
      out.length = buff.length ∧ ∀ i, xsz * ysz ≤ i → out[i]? = buff[i]?) ∧
    (∃ out g, averageLoopsLog (avgNdv k ndv) buff xsz ysz = some (out, g) ∧
      AverageByFourNdv k buff xsz ysz ndv = some out ∧
      (∀ i ∈ g.reads, i < 4 * xsz * ysz) ∧ (∀ i ∈ g.writes, i < xsz * ysz) ∧
      g.reads.length = 4 * xsz * ysz ∧ g.writes = List.range (xsz * ysz) ∧
      out.length = buff.length ∧ ∀ i, xsz * ysz ≤ i → out[i]? = buff[i]?) := by
  have e : 4 * xsz * ysz = 4 * (xsz * ysz) := Nat.mul_assoc 4 xsz ysz
  rw [e] at hlen
  rw [e]
  exact ⟨averageLoopsLog_spec (avg4 k) buff xsz ysz hlen,
    averageLoopsLog_spec (avgNdv k ndv) buff xsz ysz hlen⟩

/-- Witness of C24: a tile of two `GByte` samples in one line, sentinel `0`. -/
theorem kernels_stay_in_buffer_witness :
    (∃ out g, averageLoopsLog (avg4 PixelKind.GByte) [1, 2, 3, 4, 5, 6, 7, 8] 2 1 =
        some (out, g) ∧
      AverageByFour PixelKind.GByte [1, 2, 3, 4, 5, 6, 7, 8] 2 1 = some out ∧
      (∀ i ∈ g.reads, i < 4 * 2 * 1) ∧ (∀ i ∈ g.writes, i < 2 * 1) ∧
      g.reads.length = 4 * 2 * 1 ∧ g.writes = List.range (2 * 1) ∧
      out.length = [(1 : Int), 2, 3, 4, 5, 6, 7, 8].length ∧
      ∀ i, 2 * 1 ≤ i → out[i]? = [(1 : Int), 2, 3, 4, 5, 6, 7, 8][i]?) ∧
    (∃ out g, averageLoopsLog (avgNdv PixelKind.GByte 0) [1, 2, 3, 4, 5, 6, 7, 8] 2 1 =
        some (out, g) ∧
      AverageByFourNdv PixelKind.GByte [1, 2, 3, 4, 5, 6, 7, 8] 2 1 0 = some out ∧
      (∀ i ∈ g.reads, i < 4 * 2 * 1) ∧ (∀ i ∈ g.writes, i < 2 * 1) ∧
      g.reads.length = 4 * 2 * 1 ∧ g.writes = List.range (2 * 1) ∧
      out.length = [(1 : Int), 2, 3, 4, 5, 6, 7, 8].length ∧
      ∀ i, 2 * 1 ≤ i → out[i]? = [(1 : Int), 2, 3, 4, 5, 6, 7, 8][i]?) :=
  kernels_stay_in_buffer PixelKind.GByte 0 [1, 2, 3, 4, 5, 6, 7, 8] 2 1 (by decide)

/-! ## Scenario A -/

/-- Without a NoData value the dispatch of Scenario A is the fast-path kernel
on tiles of 4x4. -/
theorem scenarioAOf_switch (k : PixelKind) (bsrc bdst : BandRef) (buf : List Int) :
    averageSwitch (scenarioAOf k) bsrc bdst buf = AverageByFour k buf 4 4 := by
  cases k <;>
    simp only [averageSwitch, scenarioAOf, memDataset, PixelKind.dataType, average,
      Bool.false_eq_true, if_false, Option.pure_def, Option.bind_eq_bind, Option.some_bind,
      if_true]

/-- Reading the 8x8 window at the origin of a band whose pixels are all `100`
fills a buffer of 64 samples with `100`. -/
theorem memRead_uniform (store : PixelStore) (b : BandRef) (buf : List Int)
    (hlen : buf.length = 64)
    (hpix : ∀ x y : Int, 0 ≤ x → x < 8 → 0 ≤ y → y < 8 → store b x y = 100) :
    memRead store b 0 0 8 8 8 buf = (CPLErr.CE_None, store, List.replicate 64 100) := by
  unfold memRead
  rw [hlen]
  congr 2
  rw [List.eq_replicate_iff]
  refine ⟨by simp, ?_⟩
  intro v hv
  rw [List.mem_map] at hv
  obtain ⟨i, hi, rfl⟩ := hv
  rw [List.mem_range] at hi
  have h1 : Int.ofNat (i % 8) < 8 := by
    have := Nat.mod_lt i (by decide : 0 < 8)
    simp only [Int.ofNat_eq_coe]
    omega
  have h2 : Int.ofNat (i / 8) < 8 := by
    simp only [Int.ofNat_eq_coe]
    omega
  rw [if_pos ⟨h1, h2⟩]
  apply hpix
  · simp only [Int.ofNat_eq_coe]; omega
  · simp only [Int.ofNat_eq_coe]; omega
  · simp only [Int.ofNat_eq_coe]; omega
  · simp only [Int.ofNat_eq_coe]; omega

/-- The fast-path kernel on 64 samples `100` leaves 64 samples `100`. -/
theorem AverageByFour_hundred (k : PixelKind) :
    AverageByFour k (List.replicate 64 100) 4 4 = some (List.replicate 64 100) := by
  cases k <;> decide

/-- The band step of Scenario A on the child tile at the origin: one read of
the 8x8 window of the base band with a line of 8 samples, the fast-path kernel
with `xsz = ysz = 4` on the buffer as read, one write of the 4x4 window of the
overview with a line of 4 samples from the buffer the kernel returns. -/
theorem scenarioAOf_patchBand (k : PixelKind) (st : PatchState PixelStore) :
    patchBand (scenarioAOf k) 0 0 0 st 0 =
      (AverageByFour k (memRead st.store (BandRef.base 1) 0 0 8 8 8 st.buffer).2.2 4 4).map
        fun out =>
          { store := (memWrite (memRead st.store (BandRef.base 1) 0 0 8 8 8 st.buffer).2.1
              (BandRef.overview 1 0) 0 0 4 4 4 out).2
            buffer := out
            trace := st.trace ++
              [Access.read (BandRef.base 1) 0 0 8 8,
                Access.write (BandRef.overview 1 0) 0 0 4 4 out] } := by
  unfold patchBand
  simp only [scenarioAOf_switch]
  have e1 : readExtent 8 (0 * 2) 4 = (8, false) := by decide
  have e2 : writeExtent (Nat.iterate (fun (s : Int) => (s + 1) / 2) (0 + 1) 8) 0 4 = 4 := by
    decide
  have e3 : (0 : Int) * 2 * 4 = 0 := by decide
  have e4 : (0 : Int) * 4 = 0 := by decide
  simp only [scenarioAOf, memDataset, srcBand, dstBand, if_true, Nat.cast_ofNat, e1, e2, e3, e4,
    Bool.or_self, Bool.false_eq_true, if_false, Nat.zero_add, Nat.reduceMul]
  cases AverageByFour k (memRead st.store (BandRef.base 1) 0 0 8 8 8 st.buffer).2.2 4 4 <;> rfl

/-- The call of Scenario A is one band step on the child tile at the origin,
on the buffer `CPLMalloc` returned, followed by the two flushes. -/
theorem scenarioAOf_call (k : PixelKind) (store : PixelStore) :
    PatchOverview (scenarioAOf k) 0 0 2 2 0 false store =
      (patchBand (scenarioAOf k) 0 0 0
        { store := store, buffer := (scenarioAOf k).malloc 0, trace := [] } 0).map
        fun st =>
          { err := CPLErr.CE_None
            store := st.store
            trace := st.trace ++
              [Access.flush (BandRef.base 1), Access.flush (BandRef.overview 1 0)] } := by
  rw [PatchOverview_single (scenarioAOf k) 0 0 2 2 0 store Nat.one_pos]
  have e1 : PatchOverviewRect 0 0 2 2 = OutRect.mk 0 0 1 1 := by decide
  rw [e1]
  have hr : (scenarioAOf k).rasterCount = 1 := rfl
  have e2 : (0 : Int) + Int.ofNat 0 = 0 := by decide
  have e3 : (1 : Int).toNat = 1 := by decide
  unfold patchLevel patchRow patchTile
  have e4 : List.range 1 = [0] := rfl
  simp only [hr, e3, e4, List.foldlM_cons, List.foldlM_nil, List.foldl_cons,
    List.foldl_nil, e2, Option.bind_eq_bind, Option.pure_def]
  cases patchBand (scenarioAOf k) 0 0 0
    { store := store, buffer := (scenarioAOf k).malloc 0, trace := [] } 0 with
  | none => rfl
  | some st =>
    simp only [Option.some_bind, Option.map_some', flushBand, srcBand, dstBand, if_true,
      List.append_assoc, List.singleton_append]
    rfl

/-- What the write of the 4x4 window at the origin of the overview leaves in
the store when the buffer holds 64 samples `100`. -/
theorem memWrite_uniform (store : PixelStore) :
    (∀ x y : Int, 0 ≤ x → x < 4 → 0 ≤ y → y < 4 →
      (memWrite store (BandRef.overview 1 0) 0 0 4 4 4 (List.replicate 64 100)).2
        (BandRef.overview 1 0) x y = 100) ∧
    ∀ (b : BandRef) (x y : Int), b ≠ BandRef.overview 1 0 →
      (memWrite store (BandRef.overview 1 0) 0 0 4 4 4 (List.replicate 64 100)).2 b x y =
        store b x y := by
  constructor
  · intro x y hx0 hx1 hy0 hy1
    unfold memWrite
    simp only
    rw [if_pos ⟨trivial, by omega, by omega, by omega, by omega⟩, List.getD_eq_getElem?_getD,
      List.getElem?_replicate, if_pos (by omega)]
    rfl
  · intro b x y hb
    unfold memWrite
    simp only
    rw [if_neg (fun h => hb h.1)]


/-- With a pixel type the dispatch does not handle, the dispatch of Scenario A
is not the fast-path kernel: it returns a buffer the kernel cannot run on. -/
theorem complexA_switch_not_kernel :
    ¬ ∀ bsrc bdst buf, averageSwitch complexA bsrc bdst buf =
      AverageByFour PixelKind.GByte buf 4 4 := by
  intro h
  have h1 := h (BandRef.base 1) (BandRef.overview 1 0) []
  revert h1
  decide

theorem scenarioAOf_GByte : scenarioAOf PixelKind.GByte = scenarioA := rfl

/-- C16. Scenario A, for every integer pixel kind `k` and every store whose
8x8 base band holds `100` in every pixel (one band, tiles of 4x4, no NoData
value): the dispatch of the dataset is the fast-path kernel with
`xsz = ysz = 4`; the band step reads the 8x8 window of the 2x2 parent tiles
into the working buffer, runs that kernel on the buffer as read and writes the
4x4 window of the overview from the buffer the kernel returns; the call
`PatchOverview(0, 0, 2, 2, 0, false)` is that one band step followed by the
flushes.  The read fills the working buffer with 64 samples `100`, the kernel
turns them into 64 samples `100`, and the call returns `CE_None` after one
read and one write; every pixel of the 4x4 window written on level 1 is `100`
afterwards and every other band is as before.  The `float` and `double`
cases of the dispatch are not part of the embedding. -/
theorem scenarioA_overview (k : PixelKind) (store : PixelStore)
    (hpix : ∀ x y : Int, 0 ≤ x → x < 8 → 0 ≤ y → y < 8 → store (BandRef.base 1) x y = 100) :
    (∀ bsrc bdst buf, averageSwitch (scenarioAOf k) bsrc bdst buf = AverageByFour k buf 4 4) ∧
    (∀ st : PatchState PixelStore, patchBand (scenarioAOf k) 0 0 0 st 0 =
      (AverageByFour k
        ((scenarioAOf k).rasterRead st.store (BandRef.base 1) 0 0 8 8 8 st.buffer).2.2 4 4).map
        fun out =>
          { store := ((scenarioAOf k).rasterWrite
              ((scenarioAOf k).rasterRead st.store (BandRef.base 1) 0 0 8 8 8 st.buffer).2.1
              (BandRef.overview 1 0) 0 0 4 4 4 out).2
            buffer := out
            trace := st.trace ++
              [Access.read (BandRef.base 1) 0 0 8 8,
                Access.write (BandRef.overview 1 0) 0 0 4 4 out] }) ∧
    PatchOverview (scenarioAOf k) 0 0 2 2 0 false store =
      (patchBand (scenarioAOf k) 0 0 0
        { store := store, buffer := (scenarioAOf k).malloc 0, trace := [] } 0).map
        (fun st =>
          { err := CPLErr.CE_None
            store := st.store
            trace := st.trace ++
              [Access.flush (BandRef.base 1), Access.flush (BandRef.overview 1 0)] }) ∧
    (scenarioAOf k).rasterRead store (BandRef.base 1) 0 0 8 8 8 ((scenarioAOf k).malloc 0) =
      (CPLErr.CE_None, store, List.replicate 64 100) ∧
    AverageByFour k (List.replicate 64 100) 4 4 = some (List.replicate 64 100) ∧
    ∃ res, PatchOverview (scenarioAOf k) 0 0 2 2 0 false store = some res ∧
      res.err = CPLErr.CE_None ∧
      res.trace =
        [Access.read (BandRef.base 1) 0 0 8 8,
          Access.write (BandRef.overview 1 0) 0 0 4 4 (List.replicate 64 100),
          Access.flush (BandRef.base 1), Access.flush (BandRef.overview 1 0)] ∧
      (∀ x y : Int, 0 ≤ x → x < 4 → 0 ≤ y → y < 4 →
        res.store (BandRef.overview 1 0) x y = 100) ∧
      ∀ (b : BandRef) (x y : Int), b ≠ BandRef.overview 1 0 → res.store b x y = store b x y := by
  have hread : memRead store (BandRef.base 1) 0 0 8 8 8 ((scenarioAOf k).malloc 0) =
      (CPLErr.CE_None, store, List.replicate 64 100) :=
    memRead_uniform store (BandRef.base 1) _ (by simp [scenarioAOf, memDataset]) hpix
  refine ⟨scenarioAOf_switch k, scenarioAOf_patchBand k, scenarioAOf_call k store, hread,
    AverageByFour_hundred k, ?_⟩
  rw [scenarioAOf_call, scenarioAOf_patchBand]
  simp only [hread, AverageByFour_hundred, Option.map_some']
  exact ⟨_, rfl, rfl, rfl, (memWrite_uniform store).1, (memWrite_uniform store).2⟩

/-- Witness of C16: pixels of kind `GByte` and the store whose base band is
`100` everywhere and whose overview is still empty. -/
theorem scenarioA_overview_witness :
    (∀ bsrc bdst buf, averageSwitch (scenarioAOf PixelKind.GByte) bsrc bdst buf =
      AverageByFour PixelKind.GByte buf 4 4) ∧
    (∀ st : PatchState PixelStore, patchBand (scenarioAOf PixelKind.GByte) 0 0 0 st 0 =
      (AverageByFour PixelKind.GByte
        ((scenarioAOf PixelKind.GByte).rasterRead st.store (BandRef.base 1) 0 0 8 8 8
          st.buffer).2.2 4 4).map
        fun out =>
          { store := ((scenarioAOf PixelKind.GByte).rasterWrite
              ((scenarioAOf PixelKind.GByte).rasterRead st.store (BandRef.base 1) 0 0 8 8 8
                st.buffer).2.1
              (BandRef.overview 1 0) 0 0 4 4 4 out).2
            buffer := out
            trace := st.trace ++
              [Access.read (BandRef.base 1) 0 0 8 8,
                Access.write (BandRef.overview 1 0) 0 0 4 4 out] }) ∧
    PatchOverview (scenarioAOf PixelKind.GByte) 0 0 2 2 0 false scenarioAStore =
      (patchBand (scenarioAOf PixelKind.GByte) 0 0 0
        { store := scenarioAStore, buffer := (scenarioAOf PixelKind.GByte).malloc 0,
          trace := [] } 0).map
        (fun st =>
          { err := CPLErr.CE_None
            store := st.store
            trace := st.trace ++
              [Access.flush (BandRef.base 1), Access.flush (BandRef.overview 1 0)] }) ∧
    (scenarioAOf PixelKind.GByte).rasterRead scenarioAStore (BandRef.base 1) 0 0 8 8 8
        ((scenarioAOf PixelKind.GByte).malloc 0) =
      (CPLErr.CE_None, scenarioAStore, List.replicate 64 100) ∧
    AverageByFour PixelKind.GByte (List.replicate 64 100) 4 4 = some (List.replicate 64 100) ∧
    ∃ res, PatchOverview (scenarioAOf PixelKind.GByte) 0 0 2 2 0 false scenarioAStore =
        some res ∧
      res.err = CPLErr.CE_None ∧
      res.trace =
        [Access.read (BandRef.base 1) 0 0 8 8,
          Access.write (BandRef.overview 1 0) 0 0 4 4 (List.replicate 64 100),
          Access.flush (BandRef.base 1), Access.flush (BandRef.overview 1 0)] ∧
      (∀ x y : Int, 0 ≤ x → x < 4 → 0 ≤ y → y < 4 →
        res.store (BandRef.overview 1 0) x y = 100) ∧
      ∀ (b : BandRef) (x y : Int), b ≠ BandRef.overview 1 0 →
        res.store b x y = scenarioAStore b x y :=
  scenarioA_overview PixelKind.GByte scenarioAStore (fun _ _ _ _ _ _ => rfl)

end MRF
